import Mathlib

/-!
# Huffman archive codec (`huffman.c`): embedding and verified properties

The C program is embedded shallowly.

* A `HuffmanNode *` is a value of `HuffmanNode`: `null` is the NULL pointer, `node ch freq left right`
  a heap cell with its four fields.  Unsigned machine integers are natural numbers reduced
  explicitly (`% 256` for `unsigned char`, `% 2 ^ 32` for `unsigned int`).
* A byte buffer (file contents, file name, C string without its terminator) is a `List Nat`;
  the characters `'0'` and `'1'` are the bytes 48 and 49.
* The priority queue keeps its live slots `data[0 .. size-1]` as a list, so `size` is the length
  of that list; slots at index `size` and above are never read by the program.
* Recursion or iteration whose progress measure is not structural (`heapify`, the sift-up loop of
  `insertQueue`, the merge loop of `buildHuffmanTree`) carries a step budget; the budget passed
  by the embedding is shown sufficient in the theorems below.
* Integers written by `write(fd, &x, sizeof x)` are laid out little-endian with
  `sizeof(size_t) = 8` and `sizeof(int) = sizeof(unsigned int) = 4` (LP64, little-endian host).
* A run that reads through NULL, or that reads past the end of the mapped archive, is followed
  up to that read only: the C program has no test there and does not stop by itself, but what
  it reads and does next is not determined by the file contents.  Such a run has the outcome
  `Fault.nullDeref` or `Fault.readPastEnd`.
* `mmap` of a file of length 0 fails, so on an empty file `encrypt` and `decrypt` report
  `Failed to mmap input file` and return before anything is read or written: the outcome
  `Fault.mmapFailed`.  On a file of positive length they are embedded on the path where every
  `open` and `mmap` succeeds; the test of the archive name against `".huff"` and the console
  messages are not part of the embedding.
-/

namespace Huffman

/-! ## Constants and data types -/

def MAX_CHAR : Nat := 256

def BUFFER_SIZE : Nat := 8192

/-- A value of type `HuffmanNode *`. -/
inductive HuffmanNode where
  | null : HuffmanNode
  | node (ch : Nat) (freq : Nat) (left right : HuffmanNode) : HuffmanNode
  deriving DecidableEq, Repr

namespace HuffmanNode

/-- The test `!p` on a node pointer. -/
def isNull : HuffmanNode → Bool
  | null => true
  | node _ _ _ _ => false

/-- Read `p->ch`. -/
def ch : HuffmanNode → Nat
  | null => 0
  | node c _ _ _ => c

/-- Read `p->freq`. -/
def freq : HuffmanNode → Nat
  | null => 0
  | node _ f _ _ => f

end HuffmanNode

/-- The code table `char *codes[MAX_CHAR]`: `none` is a NULL entry, `some s` a C string. -/
structure HuffmanTree where
  codes : Nat → Option (List Nat)

/-- The bit accumulator. -/
structure BitBuffer where
  byte : Nat
  bit_count : Nat
  deriving DecidableEq, Repr

/-- The binary min-heap; `data` are the live slots, `size` their number. -/
structure PriorityQueue where
  data : List HuffmanNode
  capacity : Nat
  deriving DecidableEq, Repr

namespace PriorityQueue

/-- The field `queue->size`. -/
def size (queue : PriorityQueue) : Nat :=
  queue.data.length

/-- Read `queue->data[i]`. -/
def slot (queue : PriorityQueue) (i : Nat) : HuffmanNode :=
  queue.data.getD i HuffmanNode.null

end PriorityQueue

/-- Ways in which a run is not followed to the last statement of the function: `nullDeref`,
the program reads through a NULL pointer; `readPastEnd`, the program executes a `memcpy` whose
source range runs past the end of the mapped file (there is no test in the C code, and the
run is not followed beyond that read); `mmapFailed`, the function takes its
`in_data == MAP_FAILED` return after reporting the error. -/
inductive Fault where
  | nullDeref : Fault
  | readPastEnd : Fault
  | mmapFailed : Fault
  deriving DecidableEq, Repr

/-! ## Priority queue -/

def createQueue (capacity : Nat) : PriorityQueue :=
  { data := [], capacity := capacity }

/-- Exchange the pointers in slots `a` and `b`: `swapNodes(&queue->data[a], &queue->data[b])`. -/
def swapNodes (queue : PriorityQueue) (a b : Nat) : PriorityQueue :=
  let temp := queue.slot a
  let queue := { queue with data := queue.data.set a (queue.slot b) }
  { queue with data := queue.data.set b temp }

/-- Body of `heapify` with a bound on the recursion depth. -/
def heapifyAux : Nat → PriorityQueue → Nat → PriorityQueue
  | 0, queue, _ => queue
  | fuel + 1, queue, i =>
    let smallest := i
    let left := 2 * i + 1
    let right := 2 * i + 2
    let smallest :=
      if left < queue.size ∧ (queue.slot left).freq < (queue.slot smallest).freq then left
      else smallest
    let smallest :=
      if right < queue.size ∧ (queue.slot right).freq < (queue.slot smallest).freq then right
      else smallest
    if smallest ≠ i then heapifyAux fuel (swapNodes queue smallest i) smallest
    else queue

/-- Sift the element at `i` down; every recursive call moves to a larger index below `size`. -/
def heapify (queue : PriorityQueue) (i : Nat) : PriorityQueue :=
  heapifyAux queue.size queue i

/-- The `while` loop of `insertQueue` with a bound on the number of iterations. -/
def insertQueueLoop : Nat → PriorityQueue → Nat → PriorityQueue
  | 0, queue, _ => queue
  | fuel + 1, queue, i =>
    if i ≠ 0 ∧ (queue.slot ((i - 1) / 2)).freq > (queue.slot i).freq then
      insertQueueLoop fuel (swapNodes queue i ((i - 1) / 2)) ((i - 1) / 2)
    else queue

def insertQueue (queue : PriorityQueue) (node : HuffmanNode) : PriorityQueue :=
  if queue.size = queue.capacity then queue
  else
    let queue := { queue with data := queue.data ++ [node] }
    let i := queue.size - 1
    insertQueueLoop queue.size queue i

/-- Returns the extracted pointer together with the queue after the call. -/
def extractMin (queue : PriorityQueue) : HuffmanNode × PriorityQueue :=
  if queue.size ≤ 0 then (HuffmanNode.null, queue)
  else if queue.size = 1 then
    (queue.slot 0, { queue with data := queue.data.dropLast })
  else
    let root := queue.slot 0
    let queue := { queue with data := queue.data.set 0 (queue.slot (queue.size - 1)) }
    let queue := { queue with data := queue.data.dropLast }
    (root, heapify queue 0)

/-! ## Tree construction and code generation -/

def createNode (ch freq : Nat) : HuffmanNode :=
  HuffmanNode.node (ch % 256) (freq % 2 ^ 32) HuffmanNode.null HuffmanNode.null

/-- The assignment `ht->codes[ch] = strdup(code)`. -/
def HuffmanTree.setCode (ht : HuffmanTree) (ch : Nat) (code : List Nat) : HuffmanTree :=
  { codes := fun k => if k = ch then some code else ht.codes k }

/-- The argument `code` is the buffer contents `code[0 .. depth-1]`, so `depth` is its length
and `code[depth] = c` followed by a call at `depth + 1` appends `c`. -/
def generateCodes : HuffmanNode → List Nat → HuffmanTree → HuffmanTree
  | HuffmanNode.null, _, ht => ht
  | HuffmanNode.node ch _ left right, code, ht =>
    let ht := if left.isNull && right.isNull then ht.setCode ch code else ht
    let ht := if !left.isNull then generateCodes left (code ++ [48]) ht else ht
    let ht := if !right.isNull then generateCodes right (code ++ [49]) ht else ht
    ht

/-- One iteration of the merge loop of `buildHuffmanTree`. -/
def mergeStep (queue : PriorityQueue) : PriorityQueue :=
  let (left, queue) := extractMin queue
  let (right, queue) := extractMin queue
  let merged := createNode 0 (left.freq + right.freq)
  let merged := HuffmanNode.node merged.ch merged.freq left right
  insertQueue queue merged

/-- The loop `while (queue->size > 1)` with a bound on the number of iterations. -/
def mergeLoop : Nat → PriorityQueue → PriorityQueue
  | 0, queue => queue
  | fuel + 1, queue => if queue.size > 1 then mergeLoop fuel (mergeStep queue) else queue

/-- The queue after the first loop of `buildHuffmanTree`. -/
def initialQueue (freq : Nat → Nat) : PriorityQueue :=
  (List.range MAX_CHAR).foldl
    (fun queue i => if freq i > 0 then insertQueue queue (createNode i (freq i)) else queue)
    (createQueue MAX_CHAR)

def buildHuffmanTree (freq : Nat → Nat) : HuffmanNode :=
  let queue := initialQueue freq
  let queue := mergeLoop queue.size queue
  (extractMin queue).1

/-! ## Bit writer -/

/-- Append one bit to the accumulator; `fd` is the list of bytes written to the descriptor. -/
def writeBit (fd : List Nat) (buffer : BitBuffer) (bit : Nat) : List Nat × BitBuffer :=
  let buffer : BitBuffer :=
    { byte := ((buffer.byte <<< 1) ||| bit) % 256, bit_count := buffer.bit_count + 1 }
  if buffer.bit_count = 8 then (fd ++ [buffer.byte], { byte := 0, bit_count := 0 })
  else (fd, buffer)

def flushBuffer (fd : List Nat) (buffer : BitBuffer) : List Nat :=
  if buffer.bit_count > 0 then fd ++ [(buffer.byte <<< (8 - buffer.bit_count)) % 256]
  else fd

/-! ## Frequency counting -/

/-- The loop of `countFrequency` over `[start, end)`, each step an atomic add on an
`unsigned int`. -/
def countFrequency (data : List Nat) (start stop : Nat) (freq : Nat → Nat) : Nat → Nat :=
  (List.range' start (stop - start)).foldl
    (fun freq i => fun k => if k = data.getD i 0 then (freq k + 1) % 2 ^ 32 else freq k)
    freq

/-- The frequency table after all workers of `encrypt` have been joined.  The workers only
perform atomic increments, which commute, so they are run one after the other. -/
def frequencies (in_data : List Nat) : Nat → Nat :=
  let in_size := in_data.length
  let num_threads := 4
  let chunk_size := in_size / num_threads
  (List.range num_threads).foldl
    (fun freq i =>
      countFrequency in_data (i * chunk_size)
        (if i = num_threads - 1 then in_size else (i + 1) * chunk_size) freq)
    (fun _ => 0)

/-! ## Encoder -/

/-- Little-endian layout of an unsigned integer in `n` bytes. -/
def leBytes : Nat → Nat → List Nat
  | 0, _ => []
  | n + 1, v => (v % 256) :: leBytes n (v / 256)

/-- The unsigned integer stored little-endian in a byte list. -/
def leValue : List Nat → Nat
  | [] => 0
  | b :: bs => b + 256 * leValue bs

/-- The code table computed by `encrypt`. -/
def codeTable (freq : Nat → Nat) : HuffmanTree :=
  generateCodes (buildHuffmanTree freq) [] { codes := fun _ => none }

/-- The value of `uniqueCount` after its counting loop. -/
def uniqueCount (ht : HuffmanTree) : Nat :=
  (List.range MAX_CHAR).foldl
    (fun count i => if (ht.codes i).isSome then count + 1 else count) 0

/-- The four `write` calls for table entry `i`. -/
def writeEntry (i : Nat) (freq_i : Nat) (code : List Nat) : List Nat :=
  let len := code.length % 256
  [i % 256] ++ leBytes 4 freq_i ++ [len] ++ code.take len

/-- Everything `encrypt` writes before the payload: file name, entry count, table. -/
def encryptHeader (inputFile : List Nat) (freq : Nat → Nat) (ht : HuffmanTree) : List Nat :=
  let out := leBytes 8 inputFile.length ++ inputFile
  let out := out ++ leBytes 4 (uniqueCount ht)
  (List.range MAX_CHAR).foldl
    (fun out i =>
      match ht.codes i with
      | some code => out ++ writeEntry i (freq i) code
      | none => out)
    out

/-- State of the payload loop: bytes already handed to `write`, the pending part
`out_buffer[0 .. out_index-1]`, and the bit accumulator. -/
structure PayloadState where
  written : List Nat
  out_buffer : List Nat
  buffer : BitBuffer
  deriving DecidableEq, Repr

/-- Body of the inner loop of `encrypt` for the code character `c = code[j]`. -/
def emitCodeChar (st : PayloadState) (c : Nat) : PayloadState :=
  let byte := ((st.buffer.byte <<< 1) ||| (c - 48)) % 256
  let bit_count := st.buffer.bit_count + 1
  if bit_count = 8 then
    let out_buffer := st.out_buffer ++ [byte]
    if out_buffer.length = BUFFER_SIZE then
      { written := st.written ++ out_buffer, out_buffer := [], buffer := { byte := 0, bit_count := 0 } }
    else
      { written := st.written, out_buffer := out_buffer, buffer := { byte := 0, bit_count := 0 } }
  else { st with buffer := { byte := byte, bit_count := bit_count } }

/-- Body of the outer loop of `encrypt` for the input byte `b = in_data[i]`; reading
`code[0]` through a NULL table entry is a fault. -/
def emitByte (ht : HuffmanTree) (st : PayloadState) (b : Nat) : Except Fault PayloadState :=
  match ht.codes b with
  | none => Except.error Fault.nullDeref
  | some code => Except.ok (code.foldl emitCodeChar st)

/-- The outer payload loop of `encrypt`. -/
def payloadLoop (ht : HuffmanTree) : List Nat → PayloadState → Except Fault PayloadState
  | [], st => Except.ok st
  | b :: rest, st =>
    match emitByte ht st b with
    | Except.error e => Except.error e
    | Except.ok st => payloadLoop ht rest st

/-- The two `if` statements after the payload loop; the result is the whole file. -/
def finishPayload (st : PayloadState) : List Nat :=
  let out_buffer :=
    if st.buffer.bit_count > 0 then
      st.out_buffer ++ [(st.buffer.byte <<< (8 - st.buffer.bit_count)) % 256]
    else st.out_buffer
  if out_buffer.length > 0 then st.written ++ out_buffer else st.written

/-- The archive written by `encrypt` for the input file named `inputFile` with contents
`in_data`.  For an empty input `mmap` is called with length 0 and fails, and `encrypt`
returns before the output file is opened; otherwise this is the path where both files are
opened and the input is mapped. -/
def encrypt (inputFile in_data : List Nat) : Except Fault (List Nat) :=
  let in_size := in_data.length
  if in_size = 0 then Except.error Fault.mmapFailed
  else
    let freq := frequencies in_data
    let ht := codeTable freq
    let header := encryptHeader inputFile freq ht
    match payloadLoop ht in_data { written := header, out_buffer := [], buffer := { byte := 0, bit_count := 0 } } with
    | Except.error e => Except.error e
    | Except.ok st => Except.ok (finishPayload st)

/-! ## Decoder -/

/-- The C string held in a buffer: the bytes before the first NUL. -/
def cstr (bytes : List Nat) : List Nat :=
  bytes.takeWhile (fun b => b ≠ 0)

/-- Body of the inner loop of `buildHuffmanTreeFromCodes` for the remaining characters of
`codes[i]`, starting at `current`; a missing child is created on the way. -/
def placeCode : List Nat → Nat → HuffmanNode → HuffmanNode
  | _, _, HuffmanNode.null => HuffmanNode.null
  | [], i, HuffmanNode.node _ freq left right => HuffmanNode.node (i % 256) freq left right
  | c :: cs, i, HuffmanNode.node ch freq left right =>
    if c = 48 then
      let left := if left.isNull then createNode 0 0 else left
      HuffmanNode.node ch freq (placeCode cs i left) right
    else
      let right := if right.isNull then createNode 0 0 else right
      HuffmanNode.node ch freq left (placeCode cs i right)

def buildHuffmanTreeFromCodes (ht : HuffmanTree) : HuffmanNode :=
  (List.range MAX_CHAR).foldl
    (fun root i =>
      match ht.codes i with
      | some code => placeCode code i root
      | none => root)
    (createNode 0 0)

/-- A `memcpy` of `n` bytes from `in_data + offset`.  The C code copies without a test; when
the range `[offset, offset + n)` runs past the end of the data the bytes copied are not part
of the file, and the run is followed no further (`readPastEnd`). -/
def readBytes (in_data : List Nat) (offset n : Nat) : Except Fault (List Nat) :=
  if offset + n ≤ in_data.length then Except.ok ((in_data.drop offset).take n)
  else Except.error Fault.readPastEnd

/-- The table-reading loop of `decrypt`, `count` iterations from `offset`. -/
def readTable (in_data : List Nat) : Nat → Nat → HuffmanTree → Except Fault (Nat × HuffmanTree)
  | 0, offset, ht => Except.ok (offset, ht)
  | count + 1, offset, ht =>
    match readBytes in_data offset 1 with
    | Except.error e => Except.error e
    | Except.ok ch =>
      match readBytes in_data (offset + 1) 4 with
      | Except.error e => Except.error e
      | Except.ok _ =>
        match readBytes in_data (offset + 5) 1 with
        | Except.error e => Except.error e
        | Except.ok len =>
          match readBytes in_data (offset + 6) (leValue len) with
          | Except.error e => Except.error e
          | Except.ok code =>
            readTable in_data count (offset + 6 + leValue len) (ht.setCode (leValue ch) (cstr code))

/-- Body of the inner decode loop for one payload bit (`true` when the tested bit is set). -/
def decodeBit (root : HuffmanNode) (st : HuffmanNode × List Nat) (bit : Bool) :
    Except Fault (HuffmanNode × List Nat) :=
  match st.1 with
  | HuffmanNode.null => Except.error Fault.nullDeref
  | HuffmanNode.node _ _ left right =>
    match (if bit then right else left) with
    | HuffmanNode.null => Except.error Fault.nullDeref
    | HuffmanNode.node ch freq l r =>
      if l.isNull && r.isNull then Except.ok (root, st.2 ++ [ch])
      else Except.ok (HuffmanNode.node ch freq l r, st.2)

/-- The inner decode loop over `j = j0, ..., 7` for the payload byte `byte`. -/
def decodeByte (root : HuffmanNode) (byte : Nat) :
    List Nat → HuffmanNode × List Nat → Except Fault (HuffmanNode × List Nat)
  | [], st => Except.ok st
  | j :: js, st =>
    match decodeBit root st (decide (byte &&& (1 <<< (7 - j)) ≠ 0)) with
    | Except.error e => Except.error e
    | Except.ok st => decodeByte root byte js st

/-- The outer decode loop over the payload bytes. -/
def decodeLoop (root : HuffmanNode) :
    List Nat → HuffmanNode × List Nat → Except Fault (HuffmanNode × List Nat)
  | [], st => Except.ok st
  | byte :: rest, st =>
    match decodeByte root byte (List.range 8) st with
    | Except.error e => Except.error e
    | Except.ok st => decodeLoop root rest st

/-- The effect of `decrypt` on an archive with contents `in_data`: the name of the file it
creates and the bytes it writes to it.  For an empty archive `mmap` is called with length 0
and fails, and `decrypt` returns before any read; otherwise this is the path where the
archive is opened and mapped and the output file is opened. -/
def decrypt (in_data : List Nat) : Except Fault (List Nat × List Nat) :=
  let in_size := in_data.length
  if in_size = 0 then Except.error Fault.mmapFailed
  else
    match readBytes in_data 0 8 with
    | Except.error e => Except.error e
    | Except.ok name_len =>
      let name_len := leValue name_len
      match readBytes in_data 8 name_len with
      | Except.error e => Except.error e
      | Except.ok original_file =>
        let offset := 8 + name_len
        match readBytes in_data offset 4 with
        | Except.error e => Except.error e
        | Except.ok count =>
          let count := if leValue count < 2 ^ 31 then leValue count else 0
          match readTable in_data count (offset + 4) { codes := fun _ => none } with
          | Except.error e => Except.error e
          | Except.ok (offset, ht) =>
            let root := buildHuffmanTreeFromCodes ht
            match decodeLoop root (in_data.drop offset) (root, []) with
            | Except.error e => Except.error e
            | Except.ok st => Except.ok (cstr original_file, st.2)

/-! ## Vocabulary of the statements -/

/-- Weight stored in slot `i` of a slot list. -/
def wt (d : List HuffmanNode) (i : Nat) : Nat :=
  (d.getD i HuffmanNode.null).freq

/-- The slot list after exchanging positions `a` and `b`. -/
def swapSlots (d : List HuffmanNode) (a b : Nat) : List HuffmanNode :=
  (d.set a (d.getD b HuffmanNode.null)).set b (d.getD a HuffmanNode.null)

/-- Every slot weighs at least as much as its parent slot `(j - 1) / 2`. -/
def HeapOrdered (d : List HuffmanNode) : Prop :=
  ∀ j, 0 < j → j < d.length → wt d ((j - 1) / 2) ≤ wt d j

/-- Heap order up to the edge between `i` and its parent (the state of the sift-up loop). -/
def UpInv (d : List HuffmanNode) (i : Nat) : Prop :=
  (∀ j, 0 < j → j < d.length → j ≠ i → wt d ((j - 1) / 2) ≤ wt d j) ∧
  (∀ j, 0 < j → j < d.length → (j - 1) / 2 = i → 0 < i → wt d ((i - 1) / 2) ≤ wt d j)

/-- Heap order up to the edges between `i` and its children (the state of `heapify`). -/
def DownInv (d : List HuffmanNode) (i : Nat) : Prop :=
  (∀ j, 0 < j → j < d.length → (j - 1) / 2 ≠ i → wt d ((j - 1) / 2) ≤ wt d j) ∧
  (∀ j, 0 < j → j < d.length → (j - 1) / 2 = i → 0 < i → wt d ((i - 1) / 2) ≤ wt d j)

/-- The node built by one merge step from the two extracted nodes. -/
def mergeNodes (l r : HuffmanNode) : HuffmanNode :=
  HuffmanNode.node 0 ((l.freq + r.freq) % 2 ^ 32) l r

/-- The leaves created by the first loop of `buildHuffmanTree` for the indices in `is`. -/
def leavesOf (freq : Nat → Nat) (is : List Nat) : List HuffmanNode :=
  (is.filter (fun i => freq i > 0)).map (fun i => createNode i (freq i))

/-- The leaves of a tree in the order `generateCodes` visits them, each with its symbol and
the path from the root (`'0'` for a left edge, `'1'` for a right edge). -/
def leafCodes : HuffmanNode → List (Nat × List Nat)
  | HuffmanNode.null => []
  | HuffmanNode.node ch _ left right =>
    if left.isNull && right.isNull then [(ch, [])]
    else
      (leafCodes left).map (fun p => (p.1, 48 :: p.2)) ++
        (leafCodes right).map (fun p => (p.1, 49 :: p.2))

/-- The symbols at the leaves of a tree, in visiting order. -/
def leafSyms (t : HuffmanNode) : List Nat :=
  (leafCodes t).map Prod.fst

/-- One sequential counting pass over a byte list, starting from the table `freq`. -/
def countAll (data : List Nat) (freq : Nat → Nat) : Nat → Nat :=
  data.foldl (fun freq b => fun k => if k = b then (freq k + 1) % 2 ^ 32 else freq k) freq

/-- A sample frequency table: `'A'` twice, `'B'` and `'C'` once each. -/
def sampleFreq : Nat → Nat :=
  fun i => if i = 65 then 2 else if i = 66 then 1 else if i = 67 then 1 else 0

/-- Sum of the `freq` fields of the leaves at or below a node. -/
def leafWeight : HuffmanNode → Nat
  | HuffmanNode.null => 0
  | HuffmanNode.node _ freq left right =>
    if left.isNull && right.isNull then freq else leafWeight left + leafWeight right

/-- All nodes of a tree, the root first. -/
def treeNodes : HuffmanNode → List HuffmanNode
  | HuffmanNode.null => []
  | HuffmanNode.node ch freq left right =>
    HuffmanNode.node ch freq left right :: (treeNodes left ++ treeNodes right)

/-- The queues at the start of the successive iterations of the merge loop of
`buildHuffmanTree` (the iterations `mergeLoop` performs from `queue` within `fuel` steps). -/
def mergeTrace : Nat → PriorityQueue → List PriorityQueue
  | 0, _ => []
  | fuel + 1, queue =>
    if queue.size > 1 then queue :: mergeTrace fuel (mergeStep queue) else []

/-- Number of distinct byte values that occur in an input. -/
def distinctBytes (in_data : List Nat) : Nat :=
  ((List.range MAX_CHAR).filter (fun s => decide (s ∈ in_data))).length

/-- An input of `2 ^ 32` copies of the byte `'A'`. -/
def fourGiBOfA : List Nat :=
  List.replicate (2 ^ 32) 65

/-- The number whose binary digits, most significant first, are `bits`. -/
def bitsValue (bits : List Nat) : Nat :=
  bits.foldl (fun v b => 2 * v + b) 0

/-- Byte `k` of a bit sequence packed 8 bits per byte, most significant bit first; positions
past the end of the sequence read as 0. -/
def packedByte (bits : List Nat) (k : Nat) : Nat :=
  (List.range 8).foldl (fun v j => 2 * v + bits.getD (8 * k + j) 0) 0

/-- A bit sequence packed into `ceil (length / 8)` bytes, the last one zero-padded in its
low-order bits. -/
def packBits (bits : List Nat) : List Nat :=
  (List.range ((bits.length + 7) / 8)).map (packedByte bits)

/-- The bits spelled by a code string of `'0'` and `'1'` characters. -/
def codeBits (code : List Nat) : List Nat :=
  code.map (fun c => c - 48)

/-- The codes of the input bytes, concatenated in input order, as characters. -/
def inputCodeChars (ht : HuffmanTree) (in_data : List Nat) : List Nat :=
  in_data.flatMap (fun b => (ht.codes b).getD [])

/-- The bit accumulator holds exactly the bits `p` that are not yet part of a whole byte. -/
def Pending (p : List Nat) (st : PayloadState) : Prop :=
  st.buffer.bit_count = p.length ∧ st.buffer.byte = bitsValue p ∧ p.length < 8 ∧
    ∀ b ∈ p, b < 2

/-- An input of `2 ^ 32` copies of `'A'` followed by one `'B'`. -/
def fourGiBOfAThenB : List Nat :=
  List.replicate (2 ^ 32) 65 ++ [66]

/-- The input `"AAAABBBB"`. -/
def inputAAAABBBB : List Nat :=
  [65, 65, 65, 65, 66, 66, 66, 66]

/-- The entry layout as the specification words it: symbol, 32-bit frequency, code length `L`,
then the `L` code bits packed most significant bit first into `ceil (L / 8)` bytes. -/
def packedEntry (i freq_i : Nat) (code : List Nat) : List Nat :=
  [i] ++ leBytes 4 freq_i ++ [code.length] ++ packBits (codeBits code)

/-- The input `"AAB"`. -/
def inputAAB : List Nat :=
  [65, 65, 66]

/-- The input of 1000 copies of `0x41`. -/
def thousandA : List Nat :=
  List.replicate 1000 65

/-- The archive `encrypt` writes for `thousandA` stored in a file named `"a"`: name length,
name, one table entry (`'A'`, frequency 1000, code length 0), and no payload byte. -/
def archiveThousandA : List Nat :=
  [1, 0, 0, 0, 0, 0, 0, 0, 97, 1, 0, 0, 0, 65, 232, 3, 0, 0, 0]

/-- The tree with every `freq` field set to 0. -/
def stripFreq : HuffmanNode → HuffmanNode
  | HuffmanNode.null => HuffmanNode.null
  | HuffmanNode.node ch _ left right => HuffmanNode.node ch 0 (stripFreq left) (stripFreq right)

/-- Shape of the trees `buildHuffmanTree` produces: a leaf carries a byte value, an internal
node carries `ch = 0` and two subtrees of the same shape. -/
def Built : HuffmanNode → Prop
  | HuffmanNode.null => False
  | HuffmanNode.node ch _ left right =>
    ((left.isNull && right.isNull) = true ∧ ch < 256) ∨ (ch = 0 ∧ Built left ∧ Built right)

/-- The entries of a code table in the order of the symbol values. -/
def tableEntries (ht : HuffmanTree) : List (Nat × List Nat) :=
  (List.range MAX_CHAR).filterMap (fun i => (ht.codes i).map (fun code => (i, code)))

/-- The decode loop of `decrypt` run on a sequence of payload bits. -/
def decodeBits (root : HuffmanNode) :
    List Bool → HuffmanNode × List Nat → Except Fault (HuffmanNode × List Nat)
  | [], st => Except.ok st
  | bit :: bits, st =>
    match decodeBit root st bit with
    | Except.error e => Except.error e
    | Except.ok st => decodeBits root bits st

/-- A bit sequence as the decoder tests it: a bit is set when it is not 0. -/
def toBools (bits : List Nat) : List Bool :=
  bits.map (fun b => decide (b ≠ 0))

/-- The eight bits of a payload byte in the order the decoder tests them (`j = 0, ..., 7`). -/
def byteBits (byte : Nat) : List Bool :=
  (List.range 8).map (fun j => decide (byte &&& (1 <<< (7 - j)) ≠ 0))

/-- Number of zero bits `encrypt` appends to a payload of `n` code bits. -/
def padBits (n : Nat) : Nat :=
  (8 - n % 8) % 8

/-- The input `"AAABC"`. -/
def inputAAABC : List Nat :=
  [65, 65, 65, 66, 67]

/-- The part of `decrypt` between the mapping of the archive and the rebuild of the tree: it
reads the file name, the entry count and the table, and yields the name buffer, the offset of
the payload and the table. -/
def readHeader (in_data : List Nat) : Except Fault (List Nat × Nat × HuffmanTree) :=
  match readBytes in_data 0 8 with
  | Except.error e => Except.error e
  | Except.ok name_len =>
    let name_len := leValue name_len
    match readBytes in_data 8 name_len with
    | Except.error e => Except.error e
    | Except.ok original_file =>
      let offset := 8 + name_len
      match readBytes in_data offset 4 with
      | Except.error e => Except.error e
      | Except.ok count =>
        let count := if leValue count < 2 ^ 31 then leValue count else 0
        match readTable in_data count (offset + 4) { codes := fun _ => none } with
        | Except.error e => Except.error e
        | Except.ok (offset, ht) => Except.ok (original_file, offset, ht)

/-- The offset at which the payload starts, when every read of the header stays within the
data. -/
def headerEnd (in_data : List Nat) : Option Nat :=
  match readHeader in_data with
  | Except.error _ => none
  | Except.ok (_, offset, _) => some offset

/-- The archive `encrypt` writes for `"AAB"` stored in a file named `"a"`: 8 bytes of name
length, the name, 4 bytes of entry count, the entries of `'A'` and `'B'`, one payload byte. -/
def archiveAAB : List Nat :=
  [1, 0, 0, 0, 0, 0, 0, 0, 97, 2, 0, 0, 0, 65, 2, 0, 0, 0, 1, 49, 66, 1, 0, 0, 0, 1, 48, 192]

/-- The source ranges `(offset, length)` of the `memcpy` calls executed by the table loop of
`decrypt`, `count` iterations from `offset`, in the order of execution.  Every call is made
without a test.  The list is followed as long as the ranges lie within the data: it ends with
the first range that runs past the end of the data, if there is one. -/
def tableReads (in_data : List Nat) : Nat → Nat → List (Nat × Nat)
  | 0, _ => []
  | count + 1, offset =>
    (offset, 1) ::
      match readBytes in_data offset 1 with
      | Except.error _ => []
      | Except.ok _ =>
        (offset + 1, 4) ::
          match readBytes in_data (offset + 1) 4 with
          | Except.error _ => []
          | Except.ok _ =>
            (offset + 5, 1) ::
              match readBytes in_data (offset + 5) 1 with
              | Except.error _ => []
              | Except.ok len =>
                (offset + 6, leValue len) ::
                  match readBytes in_data (offset + 6) (leValue len) with
                  | Except.error _ => []
                  | Except.ok _ => tableReads in_data count (offset + 6 + leValue len)

/-- The source ranges `(offset, length)` of the `memcpy` calls that `decrypt` executes before
it rebuilds the tree, in the order of execution: name length, name, entry count, then the
table loop.  No call is made when `mmap` fails (empty archive).  The list is followed as long
as the ranges lie within the data: it ends with the first range that runs past the end of the
data, if there is one. -/
def headerReads (in_data : List Nat) : List (Nat × Nat) :=
  let in_size := in_data.length
  if in_size = 0 then []
  else
    (0, 8) ::
      match readBytes in_data 0 8 with
      | Except.error _ => []
      | Except.ok name_len =>
        let name_len := leValue name_len
        (8, name_len) ::
          match readBytes in_data 8 name_len with
          | Except.error _ => []
          | Except.ok _ =>
            let offset := 8 + name_len
            (offset, 4) ::
              match readBytes in_data offset 4 with
              | Except.error _ => []
              | Except.ok count =>
                let count := if leValue count < 2 ^ 31 then leValue count else 0
                tableReads in_data count (offset + 4)

/-- The bounds `start` and `end` that `encrypt` hands to worker `i`, for an input of `in_size`
bytes and `num_threads` workers. -/
def workerRange (in_size num_threads i : Nat) : Nat × Nat :=
  let chunk_size := in_size / num_threads
  (i * chunk_size, if i = num_threads - 1 then in_size else (i + 1) * chunk_size)

/-- The counting phase of `encrypt` with the number of workers as a parameter (`encrypt` fixes
it to 4). -/
def frequenciesWith (num_threads : Nat) (in_data : List Nat) : Nat → Nat :=
  let in_size := in_data.length
  let chunk_size := in_size / num_threads
  (List.range num_threads).foldl
    (fun freq i =>
      countFrequency in_data (i * chunk_size)
        (if i = num_threads - 1 then in_size else (i + 1) * chunk_size) freq)
    (fun _ => 0)

/-- The indices a worker with bounds `r` visits, in order. -/
def visited (r : Nat × Nat) : List Nat :=
  List.range' r.1 (r.2 - r.1)

/-- The frequency table `'A'` 1, `'B'` 2, `'C'` 2. -/
def tieFreq : Nat → Nat :=
  fun i => if i = 65 then 1 else if i = 66 then 2 else if i = 67 then 2 else 0

/-- A sequence of `insertQueue` calls, one for each node of the list, in order. -/
def insertAll (queue : PriorityQueue) (nodes : List HuffmanNode) : PriorityQueue :=
  nodes.foldl insertQueue queue

/-- A sequence of `extractMin` calls that stops when the queue is empty, at most `fuel` calls:
the nodes in the order in which they are handed out. -/
def extractAll : Nat → PriorityQueue → List HuffmanNode
  | 0, _ => []
  | fuel + 1, queue =>
    if queue.size ≤ 0 then []
    else (extractMin queue).1 :: extractAll fuel (extractMin queue).2

/-- The number of nonzero entries of a frequency table. -/
def nonzeroCount (freq : Nat → Nat) : Nat :=
  ((List.range MAX_CHAR).filter (fun i => freq i > 0)).length

/-- The queue after the first `n` iterations of the first loop of `buildHuffmanTree`. -/
def queueAfter (freq : Nat → Nat) (n : Nat) : PriorityQueue :=
  (List.range n).foldl
    (fun queue i => if freq i > 0 then insertQueue queue (createNode i (freq i)) else queue)
    (createQueue MAX_CHAR)

/-- The queue after `j` iterations of the body of the merge loop of `buildHuffmanTree`. -/
def mergeQueue (freq : Nat → Nat) (j : Nat) : PriorityQueue :=
  Nat.iterate mergeStep j (initialQueue freq)

/-- The largest index of the buffer `code` that `generateCodes` writes when it is called on a
node at depth `depth`: a node writes `code[depth]` (the terminator at a leaf, `'0'` or `'1'`
before descending) and each child that is present is visited at `depth + 1`. -/
def maxWriteIndex : HuffmanNode → Nat → Nat
  | HuffmanNode.null, _ => 0
  | HuffmanNode.node _ _ left right, depth =>
    max depth (max (maxWriteIndex left (depth + 1)) (maxWriteIndex right (depth + 1)))

/-- Every node of the tree has either two children or none. -/
inductive TwoOrNone : HuffmanNode → Prop where
  | leaf (ch freq : Nat) : TwoOrNone (HuffmanNode.node ch freq HuffmanNode.null HuffmanNode.null)
  | inner (ch freq : Nat) (left right : HuffmanNode) :
      left ≠ HuffmanNode.null → right ≠ HuffmanNode.null → TwoOrNone left → TwoOrNone right →
      TwoOrNone (HuffmanNode.node ch freq left right)

/-- A node with two children, each the root of a tree of the shape `Built`. -/
def Inner (t : HuffmanNode) : Prop :=
  ∃ ch f l r, t = HuffmanNode.node ch f l r ∧ Built l ∧ Built r

/-- No word of the list is a prefix of a word at another position. -/
def PrefixFree (ws : List (List Bool)) : Prop :=
  ws.Pairwise (fun u v => ¬ u <+: v ∧ ¬ v <+: u)

/-- Total encoded size of a weighted code: the sum of weight times codeword length. -/
def codeCost (C : List (Nat × List Bool)) : Nat :=
  (C.map (fun p => p.1 * p.2.length)).sum

/-- The number `h` is a lower bound for the cost of every prefix-free binary code whose
weights are `ws`. -/
def CostLowerBound (ws : List Nat) (h : Nat) : Prop :=
  ∀ C : List (Nat × List Bool), PrefixFree (C.map Prod.snd) → (C.map Prod.fst).Perm ws →
    h ≤ codeCost C

/-- Sum of the codeword lengths of a weighted code. -/
def totalLength (C : List (Nat × List Bool)) : Nat :=
  (C.map (fun p => p.2.length)).sum

/-- Sum of the table frequencies of the symbols at the leaves of a tree. -/
def symWeight (freq : Nat → Nat) (t : HuffmanNode) : Nat :=
  ((leafSyms t).map freq).sum

/-- Weighted path length of a tree: the sum over its leaves of frequency times depth. -/
def pathCost (freq : Nat → Nat) (t : HuffmanNode) : Nat :=
  ((leafCodes t).map (fun e => freq e.1 * e.2.length)).sum

/-- Total encoded size, in bits, of an input with byte frequencies `freq` under a code whose
codeword for `s` has `len s` bits. -/
def encodedSize (freq : Nat → Nat) (len : Nat → Nat) : Nat :=
  (((List.range MAX_CHAR).filter (fun s => freq s > 0)).map (fun s => freq s * len s)).sum

/-- A prefix-free code for `'A'`, `'B'`, `'C'`: `00`, `01`, `1`. -/
def sampleCode : Nat → List Bool :=
  fun s => if s = 65 then [false, false] else if s = 66 then [false, true] else [true]

/-! ## Theorems -/

/-! ## Slot arithmetic on the queue array -/

theorem swapNodes_data (q : PriorityQueue) (a b : Nat) :
    (swapNodes q a b).data = swapSlots q.data a b := rfl

theorem swapNodes_capacity (q : PriorityQueue) (a b : Nat) :
    (swapNodes q a b).capacity = q.capacity := rfl

theorem length_swapSlots (d : List HuffmanNode) (a b : Nat) :
    (swapSlots d a b).length = d.length := by
  simp [swapSlots]

theorem swapNodes_size (q : PriorityQueue) (a b : Nat) :
    (swapNodes q a b).size = q.size := by
  simp [PriorityQueue.size, swapNodes_data, length_swapSlots]

theorem getD_set_slot (d : List HuffmanNode) (i j : Nat) (x : HuffmanNode) (hi : i < d.length) :
    (d.set i x).getD j HuffmanNode.null = if i = j then x else d.getD j HuffmanNode.null := by
  simp only [List.getD_eq_getElem?_getD, List.getElem?_set]
  by_cases h : i = j
  · subst h
    simp [hi]
  · simp [h]

theorem getD_swapSlots (d : List HuffmanNode) (a b k : Nat) (ha : a < d.length)
    (hb : b < d.length) :
    (swapSlots d a b).getD k HuffmanNode.null =
      if k = b then d.getD a HuffmanNode.null
      else if k = a then d.getD b HuffmanNode.null else d.getD k HuffmanNode.null := by
  unfold swapSlots
  rw [getD_set_slot _ _ _ _ (by simpa using hb), getD_set_slot _ _ _ _ ha]
  by_cases h1 : b = k
  · simp [h1]
  · by_cases h2 : a = k
    · simp [h1, h2, Ne.symm h1]
    · simp [h1, h2, Ne.symm h1, Ne.symm h2]

theorem wt_swapSlots (d : List HuffmanNode) (a b k : Nat) (ha : a < d.length)
    (hb : b < d.length) :
    wt (swapSlots d a b) k = if k = b then wt d a else if k = a then wt d b else wt d k := by
  unfold wt
  rw [getD_swapSlots d a b k ha hb]
  split
  · rfl
  · split <;> rfl

theorem perm_swapSlots (d : List HuffmanNode) (a b : Nat) (ha : a < d.length)
    (hb : b < d.length) : (swapSlots d a b).Perm d := by
  rw [List.perm_iff_count]
  intro x
  unfold swapSlots
  rw [List.getD_eq_getElem _ _ ha, List.getD_eq_getElem _ _ hb]
  have hb' : b < (d.set a d[b]).length := by simpa using hb
  rw [List.count_set _ _ _ _ hb', List.count_set _ _ _ _ ha]
  rw [List.getElem_set]
  have h1 : (if d[a] == x then 1 else 0) ≤ d.count x := by
    split
    · rename_i h
      have : d[a] = x := by simpa using h
      exact List.count_pos_iff.mpr (this ▸ List.getElem_mem _)
    · exact Nat.zero_le _
  have h2 : (if d[b] == x then 1 else 0) ≤ d.count x := by
    split
    · rename_i h
      have : d[b] = x := by simpa using h
      exact List.count_pos_iff.mpr (this ▸ List.getElem_mem _)
    · exact Nat.zero_le _
  by_cases hab : a = b
  · subst hab
    simp only [if_true]
    omega
  · simp only [hab, if_false]
    omega

/-! ## Heap order -/

theorem slot_freq (q : PriorityQueue) (i : Nat) : (q.slot i).freq = wt q.data i := rfl

theorem downInv_swap (d : List HuffmanNode) (i s : Nat) (hs : s = 2 * i + 1 ∨ s = 2 * i + 2)
    (hlt : s < d.length) (hmin : wt d s < wt d i)
    (hsib : ∀ t, t = 2 * i + 1 ∨ t = 2 * i + 2 → t < d.length → wt d s ≤ wt d t)
    (h : DownInv d i) : DownInv (swapSlots d s i) s := by
  have hi : i < d.length := by omega
  obtain ⟨h1, h2⟩ := h
  refine ⟨?_, ?_⟩
  · intro j hj0 hjlt hpar
    rw [length_swapSlots] at hjlt
    rw [wt_swapSlots d s i _ hlt hi, wt_swapSlots d s i _ hlt hi]
    by_cases e1 : j = i
    · subst e1
      have n1 : (j - 1) / 2 ≠ j := by omega
      have n2 : (j - 1) / 2 ≠ s := by omega
      simp only [n1, n2, if_false, if_true]
      exact h2 s (by omega) hlt (by omega) hj0
    · by_cases e2 : j = s
      · subst e2
        have n1 : (j - 1) / 2 = i := by omega
        simp only [n1, e1, if_false, if_true]
        omega
      · by_cases e3 : (j - 1) / 2 = i
        · simp only [e1, e2, e3, if_false, if_true]
          exact hsib j (by omega) hjlt
        · simp only [e1, e2, e3, hpar, if_false, if_true]
          exact h1 j hj0 hjlt e3
  · intro j hj0 hjlt hpar _
    rw [length_swapSlots] at hjlt
    rw [wt_swapSlots d s i _ hlt hi, wt_swapSlots d s i _ hlt hi]
    have n1 : (s - 1) / 2 = i := by omega
    have n2 : j ≠ i := by omega
    have n3 : j ≠ s := by omega
    simp only [n1, n2, n3, if_false, if_true]
    have h3 := h1 j hj0 hjlt (by omega)
    rwa [hpar] at h3

theorem heapOrdered_of_downInv (d : List HuffmanNode) (i : Nat) (h : DownInv d i)
    (hl : 2 * i + 1 < d.length → wt d i ≤ wt d (2 * i + 1))
    (hr : 2 * i + 2 < d.length → wt d i ≤ wt d (2 * i + 2)) : HeapOrdered d := by
  intro j hj0 hjlt
  by_cases e : (j - 1) / 2 = i
  · rw [e]
    have : j = 2 * i + 1 ∨ j = 2 * i + 2 := by omega
    rcases this with rfl | rfl
    · exact hl hjlt
    · exact hr hjlt
  · exact h.1 j hj0 hjlt e

theorem heapifyAux_heapOrdered (fuel : Nat) :
    ∀ (q : PriorityQueue) (i : Nat), q.size ≤ fuel + i → DownInv q.data i →
      HeapOrdered (heapifyAux fuel q i).data := by
  induction fuel with
  | zero =>
    intro q i hf h
    simp only [heapifyAux]
    apply heapOrdered_of_downInv q.data i h
    · intro hlt; simp only [PriorityQueue.size] at hf; omega
    · intro hlt; simp only [PriorityQueue.size] at hf; omega
  | succ fuel ih =>
    intro q i hf h
    simp only [heapifyAux, slot_freq, PriorityQueue.size] at hf ⊢
    by_cases c1 : 2 * i + 1 < q.data.length ∧ wt q.data (2 * i + 1) < wt q.data i
    · rw [if_pos c1]
      by_cases c2 : 2 * i + 2 < q.data.length ∧ wt q.data (2 * i + 2) < wt q.data (2 * i + 1)
      · rw [if_pos c2, if_pos (by omega)]
        apply ih
        · rw [swapNodes_size]; simp only [PriorityQueue.size]; omega
        · rw [swapNodes_data]
          apply downInv_swap q.data i (2 * i + 2) (Or.inr rfl) c2.1 (by omega) _ h
          intro t ht htl
          rcases ht with rfl | rfl
          · omega
          · exact Nat.le_refl _
      · rw [if_neg c2, if_pos (by omega)]
        apply ih
        · rw [swapNodes_size]; simp only [PriorityQueue.size]; omega
        · rw [swapNodes_data]
          apply downInv_swap q.data i (2 * i + 1) (Or.inl rfl) c1.1 c1.2 _ h
          intro t ht htl
          rcases ht with rfl | rfl
          · exact Nat.le_refl _
          · have := not_and.mp c2 htl
            omega
    · rw [if_neg c1]
      by_cases c2 : 2 * i + 2 < q.data.length ∧ wt q.data (2 * i + 2) < wt q.data i
      · rw [if_pos c2, if_pos (by omega)]
        apply ih
        · rw [swapNodes_size]; simp only [PriorityQueue.size]; omega
        · rw [swapNodes_data]
          apply downInv_swap q.data i (2 * i + 2) (Or.inr rfl) c2.1 c2.2 _ h
          intro t ht htl
          rcases ht with rfl | rfl
          · have := not_and.mp c1 htl
            omega
          · exact Nat.le_refl _
      · rw [if_neg c2, if_neg (by simp)]
        apply heapOrdered_of_downInv q.data i h
        · intro hlt; have := not_and.mp c1 hlt; omega
        · intro hlt; have := not_and.mp c2 hlt; omega

theorem heapifyAux_perm (fuel : Nat) :
    ∀ (q : PriorityQueue) (i : Nat), (heapifyAux fuel q i).data.Perm q.data := by
  induction fuel with
  | zero => intro q i; exact List.Perm.refl _
  | succ fuel ih =>
    intro q i
    simp only [heapifyAux, slot_freq, PriorityQueue.size]
    by_cases c1 : 2 * i + 1 < q.data.length ∧ wt q.data (2 * i + 1) < wt q.data i
    · rw [if_pos c1]
      by_cases c2 : 2 * i + 2 < q.data.length ∧ wt q.data (2 * i + 2) < wt q.data (2 * i + 1)
      · rw [if_pos c2, if_pos (by omega)]
        exact (ih _ _).trans (perm_swapSlots _ _ _ c2.1 (by omega))
      · rw [if_neg c2, if_pos (by omega)]
        exact (ih _ _).trans (perm_swapSlots _ _ _ c1.1 (by omega))
    · rw [if_neg c1]
      by_cases c2 : 2 * i + 2 < q.data.length ∧ wt q.data (2 * i + 2) < wt q.data i
      · rw [if_pos c2, if_pos (by omega)]
        exact (ih _ _).trans (perm_swapSlots _ _ _ c2.1 (by omega))
      · rw [if_neg c2, if_neg (by simp)]

theorem heapifyAux_capacity (fuel : Nat) :
    ∀ (q : PriorityQueue) (i : Nat), (heapifyAux fuel q i).capacity = q.capacity := by
  induction fuel with
  | zero => intro q i; rfl
  | succ fuel ih =>
    intro q i
    simp only [heapifyAux]
    split_ifs <;> first | rfl | rw [ih, swapNodes_capacity]

theorem upInv_swap (d : List HuffmanNode) (i : Nat) (hi0 : 0 < i) (hi : i < d.length)
    (hgt : wt d i < wt d ((i - 1) / 2)) (h : UpInv d i) :
    UpInv (swapSlots d i ((i - 1) / 2)) ((i - 1) / 2) := by
  have hp : (i - 1) / 2 < d.length := by omega
  obtain ⟨h1, h2⟩ := h
  refine ⟨?_, ?_⟩
  · intro j hj0 hjlt hne
    rw [length_swapSlots] at hjlt
    rw [wt_swapSlots d i _ _ hi hp, wt_swapSlots d i _ _ hi hp]
    by_cases e1 : j = i
    · subst e1
      have n1 : (j - 1) / 2 ≠ j := by omega
      simp only [hne, n1, if_false, if_true]
      omega
    · by_cases e2 : (j - 1) / 2 = (i - 1) / 2
      · simp only [e1, e2, hne, if_false, if_true]
        have h3 := h1 j hj0 hjlt e1
        rw [e2] at h3
        omega
      · by_cases e3 : (j - 1) / 2 = i
        · simp only [e1, e2, e3, hne, if_false, if_true]
          have n1 : i ≠ (i - 1) / 2 := by omega
          simp only [n1, if_false]
          exact h2 j hj0 hjlt e3 hi0
        · simp only [e1, e2, e3, hne, if_false, if_true]
          exact h1 j hj0 hjlt e1
  · intro j hj0 hjlt hpar hp0
    rw [length_swapSlots] at hjlt
    rw [wt_swapSlots d i _ _ hi hp, wt_swapSlots d i _ _ hi hp]
    have n1 : ((i - 1) / 2 - 1) / 2 ≠ (i - 1) / 2 := by omega
    have n2 : ((i - 1) / 2 - 1) / 2 ≠ i := by omega
    have n3 : j ≠ (i - 1) / 2 := by omega
    have h4 := h1 ((i - 1) / 2) hp0 hp (by omega)
    have n4 : i ≠ (i - 1) / 2 := by omega
    by_cases e1 : j = i
    · simp only [n1, n2, n3, n4, e1, if_false, if_true]
      exact h4
    · simp only [n1, n2, n3, e1, if_false, if_true]
      have h3 := h1 j hj0 hjlt e1
      rw [hpar] at h3
      omega

theorem insertQueueLoop_heapOrdered (fuel : Nat) :
    ∀ (q : PriorityQueue) (i : Nat), i ≤ fuel → i < q.size → UpInv q.data i →
      HeapOrdered (insertQueueLoop fuel q i).data := by
  induction fuel with
  | zero =>
    intro q i hf _ h
    simp only [insertQueueLoop]
    intro j hj0 hjlt
    exact h.1 j hj0 hjlt (by omega)
  | succ fuel ih =>
    intro q i hf hi h
    simp only [insertQueueLoop, slot_freq]
    simp only [PriorityQueue.size] at hi
    by_cases c : i ≠ 0 ∧ wt q.data ((i - 1) / 2) > wt q.data i
    · rw [if_pos c]
      apply ih
      · omega
      · rw [swapNodes_size]; simp only [PriorityQueue.size]; omega
      · rw [swapNodes_data]
        exact upInv_swap q.data i (by omega) hi c.2 h
    · rw [if_neg c]
      intro j hj0 hjlt
      by_cases e : j = i
      · subst e
        have := not_and.mp c (by omega)
        omega
      · exact h.1 j hj0 hjlt e

theorem insertQueueLoop_perm (fuel : Nat) :
    ∀ (q : PriorityQueue) (i : Nat), i < q.size → (insertQueueLoop fuel q i).data.Perm q.data := by
  induction fuel with
  | zero => intro q i _; exact List.Perm.refl _
  | succ fuel ih =>
    intro q i hi
    simp only [insertQueueLoop]
    simp only [PriorityQueue.size] at hi
    split
    · refine (ih _ _ ?_).trans (perm_swapSlots _ _ _ hi (by omega))
      rw [swapNodes_size]; simp only [PriorityQueue.size]; omega
    · exact List.Perm.refl _

theorem insertQueueLoop_capacity (fuel : Nat) :
    ∀ (q : PriorityQueue) (i : Nat), (insertQueueLoop fuel q i).capacity = q.capacity := by
  induction fuel with
  | zero => intro q i; rfl
  | succ fuel ih =>
    intro q i
    simp only [insertQueueLoop]
    split_ifs <;> first | rfl | rw [ih, swapNodes_capacity]

theorem wt_append_left (d : List HuffmanNode) (x : HuffmanNode) (j : Nat) (hj : j < d.length) :
    wt (d ++ [x]) j = wt d j := by
  unfold wt
  rw [List.getD_eq_getElem?_getD, List.getD_eq_getElem?_getD, List.getElem?_append_left hj]

theorem upInv_append (d : List HuffmanNode) (x : HuffmanNode) (h : HeapOrdered d) :
    UpInv (d ++ [x]) d.length := by
  refine ⟨?_, ?_⟩
  · intro j hj0 hjlt hne
    have hj : j < d.length := by
      simp only [List.length_append, List.length_singleton] at hjlt
      omega
    rw [wt_append_left d x j hj, wt_append_left d x _ (by omega)]
    exact h j hj0 hj
  · intro j hj0 hjlt hpar _
    simp only [List.length_append, List.length_singleton] at hjlt
    omega

/-- Effect of `insertQueue` below capacity: the node joins the queue. -/
theorem insertQueue_perm (q : PriorityQueue) (x : HuffmanNode) (hc : q.size ≠ q.capacity) :
    (insertQueue q x).data.Perm (x :: q.data) := by
  unfold insertQueue
  rw [if_neg hc]
  refine (insertQueueLoop_perm _ _ _ ?_).trans ?_
  · simp [PriorityQueue.size]
  · exact List.perm_append_comm

theorem insertQueue_capacity (q : PriorityQueue) (x : HuffmanNode) :
    (insertQueue q x).capacity = q.capacity := by
  unfold insertQueue
  split
  · rfl
  · rw [insertQueueLoop_capacity]

theorem insertQueue_heapOrdered (q : PriorityQueue) (x : HuffmanNode)
    (h : HeapOrdered q.data) : HeapOrdered (insertQueue q x).data := by
  unfold insertQueue
  split
  · exact h
  · apply insertQueueLoop_heapOrdered
    · simp [PriorityQueue.size]
    · simp [PriorityQueue.size]
    · have := upInv_append q.data x h
      simp [PriorityQueue.size, this]

theorem insertQueue_size (q : PriorityQueue) (x : HuffmanNode) (hc : q.size ≠ q.capacity) :
    (insertQueue q x).size = q.size + 1 := by
  have := (insertQueue_perm q x hc).length_eq
  simpa [PriorityQueue.size] using this

/-- In a heap-ordered slot list the weight in slot 0 is a lower bound for every slot. -/
theorem heapOrdered_root_le (d : List HuffmanNode) (h : HeapOrdered d) :
    ∀ j, j < d.length → wt d 0 ≤ wt d j := by
  intro j
  induction j using Nat.strong_induction_on with
  | _ j ih =>
    intro hj
    by_cases h0 : j = 0
    · subst h0; exact Nat.le_refl _
    · have h1 := ih ((j - 1) / 2) (by omega) (by omega)
      have h2 := h j (by omega) hj
      omega

theorem heapOrdered_root_min (d : List HuffmanNode) (h : HeapOrdered d) :
    ∀ x ∈ d, wt d 0 ≤ x.freq := by
  intro x hx
  obtain ⟨j, hj, rfl⟩ := List.getElem_of_mem hx
  have := heapOrdered_root_le d h j hj
  unfold wt at this ⊢
  rwa [List.getD_eq_getElem _ _ hj] at this

theorem wt_cons_dropLast (a b : HuffmanNode) (t : List HuffmanNode) (j : Nat) (hj0 : 0 < j)
    (hj : j < t.length) : wt (b :: t.dropLast) j = wt (a :: t) j := by
  unfold wt
  obtain ⟨k, rfl⟩ : ∃ k, j = k + 1 := ⟨j - 1, by omega⟩
  simp only [List.getD_eq_getElem?_getD, List.getElem?_cons_succ]
  rw [List.dropLast_eq_take, List.getElem?_take_of_lt (by omega)]

theorem downInv_cons_dropLast (a b : HuffmanNode) (t : List HuffmanNode)
    (h : HeapOrdered (a :: t)) : DownInv (b :: t.dropLast) 0 := by
  refine ⟨?_, ?_⟩
  · intro j hj0 hjlt hpar
    simp only [List.length_cons, List.length_dropLast] at hjlt
    rw [wt_cons_dropLast a b t j hj0 (by omega),
      wt_cons_dropLast a b t ((j - 1) / 2) (by omega) (by omega)]
    exact h j hj0 (by simp only [List.length_cons]; omega)
  · intro j _ _ _ h0
    omega

theorem extractMin_fst (q : PriorityQueue) : (extractMin q).1 = q.slot 0 := by
  unfold extractMin
  split
  · rename_i h
    have : q.data = [] := by
      simpa [PriorityQueue.size] using h
    simp [PriorityQueue.slot, this]
  · split <;> rfl

theorem extractMin_capacity (q : PriorityQueue) : (extractMin q).2.capacity = q.capacity := by
  unfold extractMin
  split
  · rfl
  · split
    · rfl
    · simp only [heapify, heapifyAux_capacity]

/-- The queue data after `extractMin`, by cases on the shape of the slot list. -/
theorem extractMin_cons (a : HuffmanNode) (t : List HuffmanNode) (c : Nat) :
    (extractMin { data := a :: t, capacity := c }).1 = a ∧
      ((extractMin { data := a :: t, capacity := c }).2.data.Perm t) ∧
      (HeapOrdered (a :: t) → HeapOrdered (extractMin { data := a :: t, capacity := c }).2.data) := by
  refine ⟨by rw [extractMin_fst]; rfl, ?_, ?_⟩
  · unfold extractMin
    simp only [PriorityQueue.size, List.length_cons]
    rw [if_neg (by omega)]
    by_cases ht : t = []
    · subst ht; simp
    · have hl : 0 < t.length := List.length_pos.mpr ht
      rw [if_neg (by omega)]
      simp only [heapify]
      refine (heapifyAux_perm _ _ _).trans ?_
      simp only [List.set_cons_zero, PriorityQueue.slot]
      rw [List.dropLast_cons_of_ne_nil ht]
      have e : (a :: t).getD (t.length + 1 - 1) HuffmanNode.null = t.getLast ht := by
        rw [List.getD_eq_getElem _ _ (by simp only [List.length_cons]; omega)]
        simp only [Nat.add_sub_cancel]
        rw [List.getLast_eq_getElem]
        obtain ⟨k, hk⟩ : ∃ k, t.length = k + 1 := ⟨t.length - 1, by omega⟩
        simp only [hk, List.getElem_cons_succ, Nat.add_sub_cancel]
      rw [e]
      have e2 := List.dropLast_append_getLast ht
      exact (@List.perm_append_comm _ [t.getLast ht] t.dropLast).trans (by rw [e2])
  · intro h
    unfold extractMin
    simp only [PriorityQueue.size, List.length_cons]
    rw [if_neg (by omega)]
    by_cases ht : t = []
    · subst ht
      simp only [List.length_nil, Nat.zero_add, if_true, List.dropLast]
      intro j hj0 hjlt
      simp at hjlt
    · have hl : 0 < t.length := List.length_pos.mpr ht
      rw [if_neg (by omega)]
      simp only [heapify]
      apply heapifyAux_heapOrdered
      · omega
      · simp only [List.set_cons_zero]
        rw [List.dropLast_cons_of_ne_nil ht]
        exact downInv_cons_dropLast a _ t h

/-- Contract of `extractMin` on a non-empty queue. -/
theorem extractMin_spec (q : PriorityQueue) (hq : 0 < q.size) :
    (extractMin q).1 ∈ q.data ∧ q.data.Perm ((extractMin q).1 :: (extractMin q).2.data) ∧
      (HeapOrdered q.data →
        HeapOrdered (extractMin q).2.data ∧ ∀ x ∈ q.data, (extractMin q).1.freq ≤ x.freq) := by
  obtain ⟨d, c⟩ := q
  cases d with
  | nil => simp [PriorityQueue.size] at hq
  | cons a t =>
    obtain ⟨h1, h2, h3⟩ := extractMin_cons a t c
    refine ⟨?_, ?_, ?_⟩
    · rw [h1]; exact List.mem_cons_self _ _
    · rw [h1]; exact (List.Perm.cons a h2).symm
    · intro h
      refine ⟨h3 h, ?_⟩
      rw [h1]
      have := heapOrdered_root_min (a :: t) h
      simpa [wt] using this

theorem extractMin_size (q : PriorityQueue) (hq : 0 < q.size) :
    (extractMin q).2.size + 1 = q.size := by
  have := (extractMin_spec q hq).2.1.length_eq
  simp only [List.length_cons] at this
  simp only [PriorityQueue.size]
  omega

/-! ## The merge loop -/

theorem mergeStep_eq (q : PriorityQueue) :
    mergeStep q =
      insertQueue (extractMin (extractMin q).2).2
        (mergeNodes (extractMin q).1 (extractMin (extractMin q).2).1) := rfl

theorem mergeStep_capacity (q : PriorityQueue) : (mergeStep q).capacity = q.capacity := by
  rw [mergeStep_eq, insertQueue_capacity, extractMin_capacity, extractMin_capacity]

/-- One merge step on a queue with at least two nodes: the two extracted nodes leave the
queue and their merge joins it. -/
theorem mergeStep_perm (q : PriorityQueue) (h2 : 2 ≤ q.size) (hc : q.size ≤ q.capacity) :
    q.data.Perm ((extractMin q).1 :: (extractMin (extractMin q).2).1 ::
        (extractMin (extractMin q).2).2.data) ∧
      (mergeStep q).data.Perm
        (mergeNodes (extractMin q).1 (extractMin (extractMin q).2).1 ::
          (extractMin (extractMin q).2).2.data) := by
  have s1 := extractMin_size q (by omega)
  have p1 := (extractMin_spec q (by omega)).2.1
  have s2 := extractMin_size (extractMin q).2 (by omega)
  have p2 := (extractMin_spec (extractMin q).2 (by omega)).2.1
  refine ⟨p1.trans (List.Perm.cons _ p2), ?_⟩
  rw [mergeStep_eq]
  apply insertQueue_perm
  rw [extractMin_capacity, extractMin_capacity]
  omega

theorem mergeStep_size (q : PriorityQueue) (h2 : 2 ≤ q.size) (hc : q.size ≤ q.capacity) :
    (mergeStep q).size + 1 = q.size := by
  obtain ⟨p1, p2⟩ := mergeStep_perm q h2 hc
  have l1 := p1.length_eq
  have l2 := p2.length_eq
  simp only [List.length_cons] at l1 l2
  simp only [PriorityQueue.size]
  omega

theorem mergeStep_heapOrdered (q : PriorityQueue) (h2 : 2 ≤ q.size) (h : HeapOrdered q.data) :
    HeapOrdered (mergeStep q).data := by
  rw [mergeStep_eq]
  apply insertQueue_heapOrdered
  have s1 := extractMin_size q (by omega)
  have h1 := ((extractMin_spec q (by omega)).2.2 h).1
  exact ((extractMin_spec (extractMin q).2 (by omega)).2.2 h1).1

/-- Induction over the merge loop: a property of the multiset of queued nodes that survives
every merge holds when the loop ends. -/
theorem mergeLoop_induction (Inv : List HuffmanNode → Prop)
    (hperm : ∀ a b : List HuffmanNode, a.Perm b → Inv a → Inv b)
    (hmerge : ∀ l r rest, Inv (l :: r :: rest) → Inv (mergeNodes l r :: rest)) (fuel : Nat) :
    ∀ q : PriorityQueue, q.size ≤ q.capacity → Inv q.data → Inv (mergeLoop fuel q).data := by
  induction fuel with
  | zero => intro q _ h; exact h
  | succ fuel ih =>
    intro q hc h
    simp only [mergeLoop]
    split
    · rename_i h2
      obtain ⟨p1, p2⟩ := mergeStep_perm q h2 hc
      apply ih
      · rw [mergeStep_capacity]
        have := mergeStep_size q h2 hc
        omega
      · exact hperm _ _ p2.symm (hmerge _ _ _ (hperm _ _ p1 h))
    · exact h

/-- With a budget of at least `size - 1` iterations the loop ends on its own condition. -/
theorem mergeLoop_size_le (fuel : Nat) :
    ∀ q : PriorityQueue, q.size ≤ q.capacity → q.size ≤ fuel + 1 → (mergeLoop fuel q).size ≤ 1 := by
  induction fuel with
  | zero => intro q _ h; simpa [mergeLoop] using h
  | succ fuel ih =>
    intro q hc h
    simp only [mergeLoop]
    split
    · rename_i h2
      have := mergeStep_size q h2 hc
      apply ih
      · rw [mergeStep_capacity]; omega
      · omega
    · omega

/-! ## The initial queue -/

theorem leavesOf_cons (freq : Nat → Nat) (i : Nat) (is : List Nat) :
    leavesOf freq (i :: is) =
      if freq i > 0 then createNode i (freq i) :: leavesOf freq is else leavesOf freq is := by
  unfold leavesOf
  by_cases h : freq i > 0
  · simp [List.filter_cons, h]
  · simp [List.filter_cons, h]

theorem length_leavesOf_le (freq : Nat → Nat) (is : List Nat) :
    (leavesOf freq is).length ≤ is.length := by
  unfold leavesOf
  rw [List.length_map]
  exact List.length_filter_le _ _

theorem insertLoop_spec (freq : Nat → Nat) (is : List Nat) :
    ∀ q : PriorityQueue, q.size + is.length ≤ q.capacity →
      (is.foldl
          (fun queue i => if freq i > 0 then insertQueue queue (createNode i (freq i)) else queue)
          q).data.Perm (leavesOf freq is ++ q.data) ∧
      (is.foldl
          (fun queue i => if freq i > 0 then insertQueue queue (createNode i (freq i)) else queue)
          q).capacity = q.capacity ∧
      (HeapOrdered q.data →
        HeapOrdered (is.foldl
          (fun queue i => if freq i > 0 then insertQueue queue (createNode i (freq i)) else queue)
          q).data) := by
  induction is with
  | nil => intro q _; exact ⟨by simp [leavesOf], rfl, fun h => h⟩
  | cons i is ih =>
    intro q hc
    simp only [List.length_cons] at hc
    simp only [List.foldl_cons]
    rw [leavesOf_cons]
    by_cases h : freq i > 0
    · simp only [h, if_true]
      have hne : q.size ≠ q.capacity := by omega
      have hs := insertQueue_size q (createNode i (freq i)) hne
      have hcap := insertQueue_capacity q (createNode i (freq i))
      obtain ⟨p, c, ho⟩ := ih (insertQueue q (createNode i (freq i))) (by omega)
      refine ⟨?_, by rw [c, hcap], fun hh => ho (insertQueue_heapOrdered _ _ hh)⟩
      refine p.trans ?_
      have p2 := insertQueue_perm q (createNode i (freq i)) hne
      refine (List.Perm.append_left _ p2).trans ?_
      exact List.perm_middle
    · simp only [h, if_false]
      exact ih q (by omega)

theorem initialQueue_spec (freq : Nat → Nat) :
    (initialQueue freq).data.Perm (leavesOf freq (List.range MAX_CHAR)) ∧
      (initialQueue freq).capacity = MAX_CHAR ∧ (initialQueue freq).size ≤ MAX_CHAR ∧
      HeapOrdered (initialQueue freq).data := by
  have h := insertLoop_spec freq (List.range MAX_CHAR) (createQueue MAX_CHAR)
    (by simp [createQueue, PriorityQueue.size])
  obtain ⟨p, c, ho⟩ := h
  have p' : (initialQueue freq).data.Perm (leavesOf freq (List.range MAX_CHAR)) := by
    simpa [createQueue] using p
  refine ⟨p', c, ?_, ?_⟩
  · have := p'.length_eq
    have l := length_leavesOf_le freq (List.range MAX_CHAR)
    simp only [List.length_range] at l
    simp only [PriorityQueue.size]
    omega
  · apply ho
    intro j _ hj
    simp [createQueue] at hj

/-- Induction over `buildHuffmanTree`: a property of the multiset of queued nodes that holds
for the initial leaves and survives every merge holds for the returned root. -/
theorem buildHuffmanTree_induction (Inv : List HuffmanNode → Prop)
    (hperm : ∀ a b : List HuffmanNode, a.Perm b → Inv a → Inv b)
    (hmerge : ∀ l r rest, Inv (l :: r :: rest) → Inv (mergeNodes l r :: rest))
    (freq : Nat → Nat) (h0 : Inv (leavesOf freq (List.range MAX_CHAR)))
    (hne : leavesOf freq (List.range MAX_CHAR) ≠ []) : Inv [buildHuffmanTree freq] := by
  obtain ⟨p, c, s, _⟩ := initialQueue_spec freq
  have hc : (initialQueue freq).size ≤ (initialQueue freq).capacity := by rw [c]; exact s
  have hI := mergeLoop_induction (fun d => Inv d ∧ d ≠ [])
    (fun a b pab h => ⟨hperm a b pab h.1, fun e => h.2 (by rw [e] at pab; exact pab.eq_nil)⟩)
    (fun l r rest h => ⟨hmerge l r rest h.1, by simp⟩)
    (initialQueue freq).size (initialQueue freq) hc
    ⟨hperm _ _ p.symm h0, fun e => hne (by rw [e] at p; exact p.symm.eq_nil)⟩
  have hs := mergeLoop_size_le (initialQueue freq).size (initialQueue freq) hc (by omega)
  unfold buildHuffmanTree
  simp only []
  rw [extractMin_fst]
  generalize mergeLoop (initialQueue freq).size (initialQueue freq) = qf at hI hs
  obtain ⟨d, cap⟩ := qf
  simp only [PriorityQueue.size] at hs
  match d, hI, hs with
  | [], hI, _ => exact absurd rfl hI.2
  | [x], hI, _ => exact hI.1
  | _ :: _ :: _, _, hs => simp at hs

theorem buildHuffmanTree_empty (freq : Nat → Nat)
    (h : leavesOf freq (List.range MAX_CHAR) = []) : buildHuffmanTree freq = HuffmanNode.null := by
  obtain ⟨p, _, _, _⟩ := initialQueue_spec freq
  rw [h] at p
  have e : (initialQueue freq).data = [] := p.eq_nil
  unfold buildHuffmanTree
  simp only []
  rw [extractMin_fst]
  have e2 : (initialQueue freq).size = 0 := by simp [PriorityQueue.size, e]
  rw [e2]
  simp [mergeLoop, PriorityQueue.slot, e]

/-! ## Sufficiency of the step budgets -/

/-- The recursion of `heapify` never exhausts its budget: any budget of at least `size - i` steps gives the
same result. -/
theorem heapifyAux_fuel (fuel : Nat) :
    ∀ (k : Nat) (q : PriorityQueue) (i : Nat), q.size ≤ fuel + i →
      heapifyAux (fuel + k) q i = heapifyAux fuel q i := by
  induction fuel with
  | zero =>
    intro k q i h
    cases k with
    | zero => rfl
    | succ k =>
      simp only [PriorityQueue.size] at h
      simp only [Nat.zero_add, heapifyAux, PriorityQueue.size, slot_freq]
      have c1 : ¬ (2 * i + 1 < q.data.length ∧ wt q.data (2 * i + 1) < wt q.data i) :=
        fun h' => by omega
      have c2 : ¬ (2 * i + 2 < q.data.length ∧ wt q.data (2 * i + 2) < wt q.data i) :=
        fun h' => by omega
      rw [if_neg c1, if_neg c2, if_neg (by simp)]
  | succ fuel ih =>
    intro k q i h
    have e : fuel + 1 + k = (fuel + k) + 1 := by omega
    rw [e]
    simp only [heapifyAux, slot_freq, PriorityQueue.size] at h ⊢
    by_cases c1 : 2 * i + 1 < q.data.length ∧ wt q.data (2 * i + 1) < wt q.data i
    · rw [if_pos c1]
      by_cases c2 : 2 * i + 2 < q.data.length ∧ wt q.data (2 * i + 2) < wt q.data (2 * i + 1)
      · rw [if_pos c2, if_pos (by omega), if_pos (by omega)]
        apply ih
        rw [swapNodes_size]; simp only [PriorityQueue.size]; omega
      · rw [if_neg c2, if_pos (by omega), if_pos (by omega)]
        apply ih
        rw [swapNodes_size]; simp only [PriorityQueue.size]; omega
    · rw [if_neg c1]
      by_cases c2 : 2 * i + 2 < q.data.length ∧ wt q.data (2 * i + 2) < wt q.data i
      · rw [if_pos c2, if_pos (by omega), if_pos (by omega)]
        apply ih
        rw [swapNodes_size]; simp only [PriorityQueue.size]; omega
      · rw [if_neg c2, if_neg (by simp), if_neg (by simp)]

/-- The sift-up loop of `insertQueue` never exhausts its budget: any budget of at least `i`
iterations gives the same result. -/
theorem insertQueueLoop_fuel (fuel : Nat) :
    ∀ (k : Nat) (q : PriorityQueue) (i : Nat), i ≤ fuel →
      insertQueueLoop (fuel + k) q i = insertQueueLoop fuel q i := by
  induction fuel with
  | zero =>
    intro k q i h
    cases k with
    | zero => rfl
    | succ k =>
      simp only [Nat.zero_add, insertQueueLoop]
      rw [if_neg (by omega)]
  | succ fuel ih =>
    intro k q i h
    have e : fuel + 1 + k = (fuel + k) + 1 := by omega
    rw [e]
    simp only [insertQueueLoop]
    split
    · apply ih
      omega
    · rfl

/-- The merge loop never exhausts its budget: any budget of at least `size - 1` iterations
gives the same result. -/
theorem mergeLoop_fuel (fuel : Nat) :
    ∀ (k : Nat) (q : PriorityQueue), q.size ≤ q.capacity → q.size ≤ fuel + 1 →
      mergeLoop (fuel + k) q = mergeLoop fuel q := by
  induction fuel with
  | zero =>
    intro k q _ h
    cases k with
    | zero => rfl
    | succ k =>
      simp only [Nat.zero_add, mergeLoop]
      rw [if_neg (by omega)]
  | succ fuel ih =>
    intro k q hc h
    have e : fuel + 1 + k = (fuel + k) + 1 := by omega
    rw [e]
    simp only [mergeLoop]
    split
    · rename_i h2
      have := mergeStep_size q h2 hc
      apply ih
      · rw [mergeStep_capacity]; omega
      · omega
    · rfl

/-! ## Code generation -/

theorem isNull_iff (t : HuffmanNode) : t.isNull = true ↔ t = HuffmanNode.null := by
  cases t <;> simp [HuffmanNode.isNull]

theorem generateCodes_null (code : List Nat) (ht : HuffmanTree) :
    generateCodes HuffmanNode.null code ht = ht := rfl

theorem generateCodes_node (ch f : Nat) (l r : HuffmanNode) (code : List Nat)
    (ht : HuffmanTree) :
    generateCodes (HuffmanNode.node ch f l r) code ht =
      if l.isNull && r.isNull then ht.setCode ch code
      else generateCodes r (code ++ [49]) (generateCodes l (code ++ [48]) ht) := by
  rw [generateCodes]
  cases hl : l.isNull <;> cases hr : r.isNull <;>
    simp_all [isNull_iff, generateCodes_null]

/-- The walk of `generateCodes` stores, leaf by leaf, the current path followed by the leaf's
path below the starting node. -/
theorem generateCodes_eq_foldl (t : HuffmanNode) :
    ∀ (code : List Nat) (ht : HuffmanTree),
      generateCodes t code ht =
        (leafCodes t).foldl (fun ht p => ht.setCode p.1 (code ++ p.2)) ht := by
  induction t with
  | null => intro code ht; rfl
  | node ch f l r ihl ihr =>
    intro code ht
    rw [generateCodes_node, leafCodes]
    by_cases h : (l.isNull && r.isNull) = true
    · simp [h]
    · simp only [h, if_false, Bool.false_eq_true]
      rw [ihl, ihr, List.foldl_append, List.foldl_map, List.foldl_map]
      simp

theorem foldl_setCode_not_mem (code : List Nat) (s : Nat) (ps : List (Nat × List Nat)) :
    ∀ ht : HuffmanTree, s ∉ ps.map Prod.fst →
      (ps.foldl (fun ht p => ht.setCode p.1 (code ++ p.2)) ht).codes s = ht.codes s := by
  induction ps with
  | nil => intro ht _; rfl
  | cons p ps ih =>
    intro ht hs
    simp only [List.map_cons, List.mem_cons, not_or] at hs
    rw [List.foldl_cons, ih _ hs.2]
    simp [HuffmanTree.setCode, hs.1]

theorem foldl_setCode_mem (code : List Nat) (s : Nat) (path : List Nat)
    (ps : List (Nat × List Nat)) :
    ∀ ht : HuffmanTree, (ps.map Prod.fst).Nodup → (s, path) ∈ ps →
      (ps.foldl (fun ht p => ht.setCode p.1 (code ++ p.2)) ht).codes s = some (code ++ path) := by
  induction ps with
  | nil => intro ht _ h; simp at h
  | cons p ps ih =>
    intro ht hnd hmem
    simp only [List.map_cons, List.nodup_cons] at hnd
    rw [List.foldl_cons]
    rcases List.mem_cons.mp hmem with e | e
    · subst e
      rw [foldl_setCode_not_mem _ _ _ _ hnd.1]
      simp [HuffmanTree.setCode]
    · exact ih _ hnd.2 e

/-- With pairwise distinct leaf symbols, the table produced from the empty table holds for
each symbol exactly the path of its leaf. -/
theorem generateCodes_codes_iff (t : HuffmanNode) (hnd : (leafSyms t).Nodup) (s : Nat)
    (path : List Nat) :
    (generateCodes t [] { codes := fun _ => none }).codes s = some path ↔
      (s, path) ∈ leafCodes t := by
  rw [generateCodes_eq_foldl]
  constructor
  · intro h
    by_cases hs : s ∈ (leafCodes t).map Prod.fst
    · obtain ⟨⟨s', p'⟩, hp, rfl⟩ := List.mem_map.mp hs
      have := foldl_setCode_mem [] s' p' (leafCodes t) { codes := fun _ => none } hnd hp
      rw [this] at h
      simp only [List.nil_append, Option.some.injEq] at h
      rw [← h]; exact hp
    · rw [foldl_setCode_not_mem _ _ _ _ hs] at h
      simp at h
  · intro h
    have := foldl_setCode_mem [] s path (leafCodes t) { codes := fun _ => none } hnd h
    simpa using this

theorem generateCodes_codes_none (t : HuffmanNode) (s : Nat) (hs : s ∉ leafSyms t) :
    (generateCodes t [] { codes := fun _ => none }).codes s = none := by
  rw [generateCodes_eq_foldl, foldl_setCode_not_mem _ _ _ _ hs]

/-- Two leaves of one tree whose paths are in the prefix relation are the same leaf. -/
theorem leafCodes_prefix_eq (t : HuffmanNode) :
    ∀ e1 ∈ leafCodes t, ∀ e2 ∈ leafCodes t, e1.2 <+: e2.2 → e1 = e2 := by
  induction t with
  | null => intro e1 h; simp [leafCodes] at h
  | node ch f l r ihl ihr =>
    intro e1 h1 e2 h2 hp
    rw [leafCodes] at h1 h2
    by_cases h : (l.isNull && r.isNull) = true
    · simp only [h, if_true, List.mem_singleton] at h1 h2
      rw [h1, h2]
    · simp only [h, if_false, Bool.false_eq_true, List.mem_append, List.mem_map] at h1 h2
      rcases h1 with ⟨a, ha, rfl⟩ | ⟨a, ha, rfl⟩ <;> rcases h2 with ⟨b, hb, rfl⟩ | ⟨b, hb, rfl⟩
      · have := ihl a ha b hb (by simpa using hp)
        rw [this]
      · have := List.cons_prefix_cons.mp hp
        simp at this
      · have := List.cons_prefix_cons.mp hp
        simp at this
      · have := ihr a ha b hb (by simpa using hp)
        rw [this]

/-! ## Leaf symbols of the built tree -/

theorem leafSyms_createNode (i f : Nat) : leafSyms (createNode i f) = [i % 256] := by
  simp [leafSyms, createNode, leafCodes, HuffmanNode.isNull]

theorem leafSyms_mergeNodes (l r : HuffmanNode) (hl : l ≠ HuffmanNode.null) :
    leafSyms (mergeNodes l r) = leafSyms l ++ leafSyms r := by
  have : l.isNull = false := by
    cases l with
    | null => exact absurd rfl hl
    | node _ _ _ _ => rfl
  simp [leafSyms, mergeNodes, leafCodes, this, Function.comp_def]

theorem flatMap_leafSyms_leavesOf (freq : Nat → Nat) (is : List Nat) (h : ∀ i ∈ is, i < 256) :
    (leavesOf freq is).flatMap leafSyms = is.filter (fun i => freq i > 0) := by
  induction is with
  | nil => rfl
  | cons i is ih =>
    have hi : i < 256 := h i (List.mem_cons_self _ _)
    have ih' := ih (fun j hj => h j (List.mem_cons_of_mem _ hj))
    rw [leavesOf_cons]
    by_cases c : freq i > 0
    · simp only [c, if_true, List.flatMap_cons, leafSyms_createNode, ih', List.filter_cons,
        decide_True, Nat.mod_eq_of_lt hi, List.singleton_append]
    · simp only [c, if_false, ih', List.filter_cons, decide_False, Bool.false_eq_true]

/-- The leaves of the tree returned by `buildHuffmanTree` carry, each exactly once, the
symbols of nonzero frequency. -/
theorem leafSyms_buildHuffmanTree (freq : Nat → Nat) :
    (leafSyms (buildHuffmanTree freq)).Perm
      ((List.range MAX_CHAR).filter (fun i => freq i > 0)) := by
  have hr : ∀ i ∈ List.range MAX_CHAR, i < 256 := fun i hi => List.mem_range.mp hi
  by_cases hne : leavesOf freq (List.range MAX_CHAR) = []
  · rw [buildHuffmanTree_empty freq hne]
    rw [← flatMap_leafSyms_leavesOf freq _ hr, hne]
    simp [leafSyms, leafCodes]
  · have key := buildHuffmanTree_induction
      (fun d => (∀ t ∈ d, t ≠ HuffmanNode.null) ∧
        (d.flatMap leafSyms).Perm ((List.range MAX_CHAR).filter (fun i => freq i > 0)))
      (fun a b pab h => ⟨fun t ht => h.1 t (pab.symm.subset ht),
        (List.Perm.flatMap_right leafSyms pab.symm).trans h.2⟩)
      (fun l r rest h => by
        refine ⟨?_, ?_⟩
        · intro t ht
          rcases List.mem_cons.mp ht with e | e
          · rw [e]; simp [mergeNodes]
          · exact h.1 t (List.mem_cons_of_mem _ (List.mem_cons_of_mem _ e))
        · have hl := h.1 l (List.mem_cons_self _ _)
          have := h.2
          simp only [List.flatMap_cons] at this ⊢
          rw [leafSyms_mergeNodes l r hl, List.append_assoc]
          exact this)
      freq
      ⟨by
        intro t ht
        simp only [leavesOf, List.mem_map] at ht
        obtain ⟨i, _, rfl⟩ := ht
        simp [createNode],
       by rw [flatMap_leafSyms_leavesOf freq _ hr]⟩
      hne
    simpa using key.2

theorem nodup_leafSyms_buildHuffmanTree (freq : Nat → Nat) :
    (leafSyms (buildHuffmanTree freq)).Nodup :=
  (leafSyms_buildHuffmanTree freq).nodup_iff.mpr ((List.nodup_range _).filter _)

/-! ## Frequency counting -/

theorem map_getD_range' (data : List Nat) (n : Nat) :
    ∀ s, s + n ≤ data.length →
      (List.range' s n).map (fun i => data.getD i 0) = (data.drop s).take n := by
  induction n with
  | zero => intro s _; simp
  | succ n ih =>
    intro s h
    rw [List.range'_succ, List.map_cons, ih (s + 1) (by omega)]
    have hs : s < data.length := by omega
    rw [List.getD_eq_getElem _ _ hs]
    rw [List.drop_eq_getElem_cons hs, List.take_succ_cons]

theorem countFrequency_eq (data : List Nat) (start stop : Nat) (freq : Nat → Nat)
    (h : start ≤ stop) (hs : stop ≤ data.length) :
    countFrequency data start stop freq = countAll ((data.drop start).take (stop - start)) freq := by
  unfold countFrequency countAll
  rw [← map_getD_range' data (stop - start) start (by omega), List.foldl_map]

theorem countAll_append (a b : List Nat) (freq : Nat → Nat) :
    countAll (a ++ b) freq = countAll b (countAll a freq) := by
  simp [countAll, List.foldl_append]

theorem take_drop_chunks (data : List Nat) (c : Nat) :
    (data.drop 0).take c ++ ((data.drop c).take c ++ ((data.drop (2 * c)).take c ++
      (data.drop (3 * c)).take (data.length - 3 * c))) = data := by
  have e1 : (data.drop (3 * c)).take (data.length - 3 * c) = data.drop (3 * c) := by
    apply List.take_of_length_le
    simp
  have e2 : data.drop (3 * c) = (data.drop (2 * c)).drop c := by
    rw [List.drop_drop]; congr 1; omega
  have e3 : data.drop (2 * c) = (data.drop c).drop c := by
    rw [List.drop_drop]; congr 1; omega
  rw [e1, e2, List.take_append_drop, e3, List.take_append_drop, List.drop_zero,
    List.take_append_drop]

/-- The four workers of `encrypt` together count every input byte exactly once. -/
theorem frequencies_eq_countAll (in_data : List Nat) :
    frequencies in_data = countAll in_data (fun _ => 0) := by
  unfold frequencies
  have h4 : List.range 4 = [0, 1, 2, 3] := by decide
  simp only [h4, List.foldl_cons, List.foldl_nil]
  have hc : 3 * (in_data.length / 4) ≤ in_data.length := by omega
  simp only [show (0 : Nat) = 4 - 1 ↔ False by decide, show (1 : Nat) = 4 - 1 ↔ False by decide,
    show (2 : Nat) = 4 - 1 ↔ False by decide, show (3 : Nat) = 4 - 1 ↔ True by decide,
    if_false, if_true]
  rw [countFrequency_eq _ _ _ _ (by omega) (by omega),
    countFrequency_eq _ _ _ _ (by omega) (by omega),
    countFrequency_eq _ _ _ _ (by omega) (by omega),
    countFrequency_eq _ _ _ _ (by omega) (by omega)]
  rw [← countAll_append, ← countAll_append, ← countAll_append]
  have e := take_drop_chunks in_data (in_data.length / 4)
  have a1 : (0 + 1) * (in_data.length / 4) - 0 * (in_data.length / 4) = in_data.length / 4 := by
    simp
  have a2 : (1 + 1) * (in_data.length / 4) - 1 * (in_data.length / 4) = in_data.length / 4 := by
    omega
  have a3 : (2 + 1) * (in_data.length / 4) - 2 * (in_data.length / 4) = in_data.length / 4 := by
    omega
  rw [a1, a2, a3]
  simp only [Nat.zero_mul, Nat.one_mul]
  rw [e]

theorem countAll_apply (data : List Nat) :
    ∀ (freq : Nat → Nat) (k : Nat), freq k < 2 ^ 32 →
      countAll data freq k = (freq k + data.count k) % 2 ^ 32 := by
  induction data with
  | nil =>
    intro freq k h
    simp only [countAll, List.foldl_nil, List.count_nil, Nat.add_zero]
    exact (Nat.mod_eq_of_lt h).symm
  | cons b rest ih =>
    intro freq k h
    have e : countAll (b :: rest) freq =
        countAll rest (fun k => if k = b then (freq k + 1) % 2 ^ 32 else freq k) := rfl
    rw [e, ih]
    · by_cases hk : k = b
      · subst hk
        simp only [if_true, List.count_cons_self]
        omega
      · have hb : (b == k) = false := by simpa using fun e => hk e.symm
        simp only [hk, if_false, List.count_cons, hb, Bool.false_eq_true, Nat.add_zero]
    · by_cases hk : k = b
      · simp only [hk, if_true]
        exact Nat.mod_lt _ (by decide)
      · simpa [hk] using h

/-- The frequency table of `encrypt` holds each byte count modulo `2 ^ 32`. -/
theorem frequencies_apply (in_data : List Nat) (k : Nat) :
    frequencies in_data k = in_data.count k % 2 ^ 32 := by
  rw [frequencies_eq_countAll, countAll_apply _ _ _ (by decide)]
  simp

theorem sum_map_indicator (b : Nat) (l : List Nat) (hnd : l.Nodup) (hb : b ∈ l) :
    (l.map (fun i => if b = i then 1 else 0)).sum = 1 := by
  induction l with
  | nil => simp at hb
  | cons a l ih =>
    simp only [List.nodup_cons] at hnd
    simp only [List.map_cons, List.sum_cons]
    rcases List.mem_cons.mp hb with e | e
    · subst e
      have : (l.map (fun i => if b = i then 1 else 0)).sum = 0 := by
        apply List.sum_eq_zero
        intro x hx
        obtain ⟨i, hi, rfl⟩ := List.mem_map.mp hx
        have : b ≠ i := fun e => hnd.1 (e ▸ hi)
        simp [this]
      simp [this]
    · have : b ≠ a := fun e' => hnd.1 (e' ▸ e)
      simp [this, ih hnd.2 e]

theorem sum_count_range (data : List Nat) (h : ∀ b ∈ data, b < 256) :
    ((List.range MAX_CHAR).map (fun i => data.count i)).sum = data.length := by
  induction data with
  | nil => simp
  | cons b rest ih =>
    have hb : b < 256 := h b (List.mem_cons_self _ _)
    have ih' := ih (fun x hx => h x (List.mem_cons_of_mem _ hx))
    have e : (fun i => (b :: rest).count i) =
        (fun i => rest.count i + (if b = i then 1 else 0)) := by
      funext i
      by_cases c : b = i
      · simp [c]
      · have : (b == i) = false := by simpa using c
        simp [List.count_cons, c, this]
    have hi := sum_map_indicator b (List.range MAX_CHAR) (List.nodup_range _)
      (List.mem_range.mpr hb)
    rw [e, List.sum_map_add, ih', hi]
    simp

theorem sum_frequencies (in_data : List Nat) (h : ∀ b ∈ in_data, b < 256)
    (hlen : in_data.length < 2 ^ 32) :
    ((List.range MAX_CHAR).map (frequencies in_data)).sum = in_data.length := by
  rw [← sum_count_range in_data h]
  congr 1
  apply List.map_congr_left
  intro i _
  rw [frequencies_apply]
  exact Nat.mod_eq_of_lt (Nat.lt_of_le_of_lt (List.count_le_length _ _) hlen)

/-! ## Prefix-freeness of the generated codes -/

/-- C2: in the code table that `generateCodes` produces from the tree returned by
`buildHuffmanTree`, the code of a symbol is never a prefix of the code of a different symbol;
in particular the two codes differ.  This holds for every frequency table. -/
theorem codes_prefix_free (freq : Nat → Nat) (a b : Nat) (ca cb : List Nat) (hab : a ≠ b)
    (ha : (codeTable freq).codes a = some ca) (hb : (codeTable freq).codes b = some cb) :
    ¬ ca <+: cb ∧ ca ≠ cb := by
  have hnd := nodup_leafSyms_buildHuffmanTree freq
  unfold codeTable at ha hb
  rw [generateCodes_codes_iff _ hnd] at ha hb
  have key : ¬ ca <+: cb := by
    intro hp
    have := leafCodes_prefix_eq _ (a, ca) ha (b, cb) hb hp
    exact hab (congrArg Prod.fst this)
  exact ⟨key, fun e => key (e ▸ List.prefix_refl _)⟩

set_option maxRecDepth 100000 in
/-- The table built from `sampleFreq` gives `'B'` the code `"10"` and `'C'` the code `"11"`,
and neither is a prefix of the other. -/
theorem codes_prefix_free_witness :
    (codeTable sampleFreq).codes 66 = some [49, 48] ∧
      (codeTable sampleFreq).codes 67 = some [49, 49] ∧
      (¬ [49, 48] <+: [49, 49] ∧ [49, 48] ≠ [49, 49]) :=
  ⟨by decide, by decide,
    codes_prefix_free sampleFreq 66 67 [49, 48] [49, 49] (by decide) (by decide) (by decide)⟩

/-! ## Weight conservation -/

theorem sum_freq_leavesOf (freq : Nat → Nat) (is : List Nat) (h : ∀ i ∈ is, freq i < 2 ^ 32) :
    ((leavesOf freq is).map HuffmanNode.freq).sum = (is.map freq).sum := by
  induction is with
  | nil => rfl
  | cons i is ih =>
    have hi := h i (List.mem_cons_self _ _)
    have ih' := ih (fun j hj => h j (List.mem_cons_of_mem _ hj))
    rw [leavesOf_cons]
    by_cases c : freq i > 0
    · have e : (createNode i (freq i)).freq = freq i := Nat.mod_eq_of_lt hi
      simp only [c, if_true, List.map_cons, List.sum_cons, ih', e]
    · simp only [c, if_false, List.map_cons, List.sum_cons, ih']
      omega

theorem freq_mergeNodes (l r : HuffmanNode) :
    (mergeNodes l r).freq = (l.freq + r.freq) % 2 ^ 32 := rfl

theorem leafWeight_mergeNodes (l r : HuffmanNode) (hl : l ≠ HuffmanNode.null) :
    leafWeight (mergeNodes l r) = leafWeight l + leafWeight r := by
  have : l.isNull = false := by
    cases l with
    | null => exact absurd rfl hl
    | node _ _ _ _ => rfl
  simp [mergeNodes, leafWeight, this]

theorem treeNodes_mergeNodes (l r : HuffmanNode) :
    treeNodes (mergeNodes l r) = mergeNodes l r :: (treeNodes l ++ treeNodes r) := rfl

theorem self_mem_treeNodes (t : HuffmanNode) (h : t ≠ HuffmanNode.null) : t ∈ treeNodes t := by
  cases t with
  | null => exact absurd rfl h
  | node _ _ _ _ => simp [treeNodes]

theorem le_sum_of_mem_range (freq : Nat → Nat) (l : List Nat) (i : Nat) (hi : i ∈ l) :
    freq i ≤ (l.map freq).sum := by
  induction l with
  | nil => simp at hi
  | cons a l ih =>
    simp only [List.map_cons, List.sum_cons]
    rcases List.mem_cons.mp hi with e | e
    · subst e; omega
    · have := ih e; omega

/-- Weight conservation for a frequency table whose sum fits in 32 bits. -/
theorem buildHuffmanTree_weight (freq : Nat → Nat)
    (hpos : 0 < ((List.range MAX_CHAR).map freq).sum)
    (hlt : ((List.range MAX_CHAR).map freq).sum < 2 ^ 32) :
    (∀ n ∈ treeNodes (buildHuffmanTree freq), n.freq = leafWeight n) ∧
      (buildHuffmanTree freq).freq = ((List.range MAX_CHAR).map freq).sum := by
  have hb : ∀ i ∈ List.range MAX_CHAR, freq i < 2 ^ 32 := fun i hi =>
    Nat.lt_of_le_of_lt (le_sum_of_mem_range freq _ i hi) hlt
  have hsum := sum_freq_leavesOf freq (List.range MAX_CHAR) hb
  have hne : leavesOf freq (List.range MAX_CHAR) ≠ [] := by
    intro e
    rw [e] at hsum
    simp only [List.map_nil, List.sum_nil] at hsum
    omega
  have key := buildHuffmanTree_induction
    (fun d => (∀ t ∈ d, t ≠ HuffmanNode.null ∧ ∀ n ∈ treeNodes t, n.freq = leafWeight n) ∧
      (d.map HuffmanNode.freq).sum = ((List.range MAX_CHAR).map freq).sum)
    (fun a b pab h => ⟨fun t ht => h.1 t (pab.symm.subset ht),
      by rw [← h.2]; exact (pab.map _).sum_eq.symm⟩)
    (fun l r rest h => by
      obtain ⟨h1, h2⟩ := h
      have hl := h1 l (List.mem_cons_self _ _)
      have hr := h1 r (List.mem_cons_of_mem _ (List.mem_cons_self _ _))
      simp only [List.map_cons, List.sum_cons] at h2
      have hmod : (l.freq + r.freq) % 2 ^ 32 = l.freq + r.freq :=
        Nat.mod_eq_of_lt (by omega)
      refine ⟨?_, ?_⟩
      · intro t ht
        rcases List.mem_cons.mp ht with e | e
        · subst e
          refine ⟨by simp [mergeNodes], ?_⟩
          intro n hn
          rw [treeNodes_mergeNodes] at hn
          simp only [List.mem_cons, List.mem_append] at hn
          rcases hn with e | e | e
          · subst e
            rw [freq_mergeNodes, leafWeight_mergeNodes l r hl.1, hmod,
              hl.2 l (self_mem_treeNodes l hl.1), hr.2 r (self_mem_treeNodes r hr.1)]
          · exact hl.2 n e
          · exact hr.2 n e
        · exact h1 t (List.mem_cons_of_mem _ (List.mem_cons_of_mem _ e))
      · simp only [List.map_cons, List.sum_cons, freq_mergeNodes]
        rw [hmod]
        omega)
    freq
    ⟨by
      intro t ht
      simp only [leavesOf, List.mem_map] at ht
      obtain ⟨i, _, rfl⟩ := ht
      refine ⟨by simp [createNode], ?_⟩
      intro n hn
      simp only [createNode, treeNodes, List.append_nil, List.mem_singleton] at hn
      subst hn
      simp [leafWeight, HuffmanNode.freq, HuffmanNode.isNull],
     hsum⟩
    hne
  refine ⟨(key.1 _ (List.mem_singleton_self _)).2, ?_⟩
  have := key.2
  simpa using this

/-- C4: for every non-empty input of fewer than `2 ^ 32` bytes, every node of the tree
returned by `buildHuffmanTree` (in particular every internal node) has a `freq` equal to the
sum of the `freq` fields of the leaves below it, and the root's `freq` equals the number of
input bytes, which is the sum of the frequency table. -/
theorem weight_conservation (in_data : List Nat) (hbytes : ∀ b ∈ in_data, b < 256)
    (hne : in_data ≠ []) (hlen : in_data.length < 2 ^ 32) :
    (∀ n ∈ treeNodes (buildHuffmanTree (frequencies in_data)), n.freq = leafWeight n) ∧
      (buildHuffmanTree (frequencies in_data)).freq = in_data.length ∧
      in_data.length = ((List.range MAX_CHAR).map (frequencies in_data)).sum := by
  have hs := sum_frequencies in_data hbytes hlen
  have hpos : 0 < in_data.length := List.length_pos.mpr hne
  have := buildHuffmanTree_weight (frequencies in_data) (by omega) (by omega)
  exact ⟨this.1, by rw [this.2, hs], hs.symm⟩

set_option maxRecDepth 100000 in
/-- Weight conservation on the input `"ABCA"`. -/
theorem weight_conservation_witness :
    (∀ b ∈ [65, 66, 67, 65], b < 256) ∧ [65, 66, 67, 65] ≠ [] ∧
      [65, 66, 67, 65].length < 2 ^ 32 ∧
      ((∀ n ∈ treeNodes (buildHuffmanTree (frequencies [65, 66, 67, 65])),
          n.freq = leafWeight n) ∧
        (buildHuffmanTree (frequencies [65, 66, 67, 65])).freq = [65, 66, 67, 65].length ∧
        [65, 66, 67, 65].length =
          ((List.range MAX_CHAR).map (frequencies [65, 66, 67, 65])).sum) :=
  ⟨by decide, by decide, by decide,
    weight_conservation [65, 66, 67, 65] (by decide) (by decide) (by decide)⟩

/-! ## Greedy merge -/

/-- The loop result is the merge step applied to the last queue of the trace. -/
theorem mergeLoop_eq_trace (fuel : Nat) :
    ∀ q : PriorityQueue,
      mergeLoop fuel q =
        match (mergeTrace fuel q).getLast? with
        | none => q
        | some last => mergeStep last := by
  induction fuel with
  | zero => intro q; rfl
  | succ fuel ih =>
    intro q
    simp only [mergeLoop, mergeTrace]
    by_cases h : q.size > 1
    · simp only [h, if_true]
      rw [ih (mergeStep q)]
      cases hm : mergeTrace fuel (mergeStep q) with
      | nil => simp
      | cons a rest =>
        have e : (a :: rest).getLast? = some ((a :: rest).getLast (by simp)) :=
          List.getLast?_eq_getLast _ _
        simp only [List.getLast?_cons_cons, e]
    · simp [h]

theorem mergeTrace_heapOrdered (fuel : Nat) :
    ∀ q : PriorityQueue, HeapOrdered q.data → q.size ≤ q.capacity →
      ∀ q' ∈ mergeTrace fuel q, HeapOrdered q'.data ∧ 2 ≤ q'.size := by
  induction fuel with
  | zero => intro q _ _ q' h; simp [mergeTrace] at h
  | succ fuel ih =>
    intro q ho hc q' h
    simp only [mergeTrace] at h
    by_cases h2 : q.size > 1
    · simp only [h2, if_true, List.mem_cons] at h
      rcases h with e | e
      · subst e; exact ⟨ho, h2⟩
      · refine ih (mergeStep q) (mergeStep_heapOrdered q h2 ho) ?_ q' e
        rw [mergeStep_capacity]
        have := mergeStep_size q h2 hc
        omega
    · simp [h2] at h

/-- C5: at every iteration of the merge loop of `buildHuffmanTree`, the node returned by the
first `extractMin` has the least weight of the whole queue, the node returned by the second
has the least weight of the rest (the queue without the first node), and these two are the
nodes that are merged. -/
theorem greedy_merge (freq : Nat → Nat) (q : PriorityQueue)
    (hq : q ∈ mergeTrace (initialQueue freq).size (initialQueue freq)) :
    (extractMin q).1 ∈ q.data ∧
      (∀ x ∈ q.data, (extractMin q).1.freq ≤ x.freq) ∧
      q.data.Perm ((extractMin q).1 :: (extractMin q).2.data) ∧
      (extractMin (extractMin q).2).1 ∈ (extractMin q).2.data ∧
      (∀ x ∈ (extractMin q).2.data, (extractMin (extractMin q).2).1.freq ≤ x.freq) ∧
      mergeStep q =
        insertQueue (extractMin (extractMin q).2).2
          (HuffmanNode.node 0
            (((extractMin q).1.freq + (extractMin (extractMin q).2).1.freq) % 2 ^ 32)
            (extractMin q).1 (extractMin (extractMin q).2).1) := by
  obtain ⟨_, c, s, ho⟩ := initialQueue_spec freq
  obtain ⟨h1, h2⟩ := mergeTrace_heapOrdered _ _ ho (by rw [c]; exact s) q hq
  obtain ⟨m1, p1, k1⟩ := extractMin_spec q (by omega)
  have s1 := extractMin_size q (by omega)
  obtain ⟨m2, _, k2⟩ := extractMin_spec (extractMin q).2 (by omega)
  exact ⟨m1, (k1 h1).2, p1, m2, (k2 (k1 h1).1).2, rfl⟩

set_option maxRecDepth 100000 in
/-- The first iteration on `sampleFreq`: the queue holds `'B'`, `'A'`, `'C'` with weights 1, 2, 1
and the loop takes out `'B'` and then `'C'`. -/
theorem greedy_merge_witness :
    initialQueue sampleFreq ∈ mergeTrace (initialQueue sampleFreq).size (initialQueue sampleFreq) ∧
      (extractMin (initialQueue sampleFreq)).1 = createNode 66 1 ∧
      (extractMin (extractMin (initialQueue sampleFreq)).2).1 = createNode 67 1 ∧
      (∀ x ∈ (initialQueue sampleFreq).data,
        (extractMin (initialQueue sampleFreq)).1.freq ≤ x.freq) :=
  ⟨by decide, by decide, by decide,
    (greedy_merge sampleFreq (initialQueue sampleFreq) (by decide)).2.1⟩

/-! ## Coverage of the code table -/

theorem foldl_count_eq (p : Nat → Bool) (l : List Nat) :
    ∀ n : Nat, l.foldl (fun count i => if p i then count + 1 else count) n =
      n + (l.filter p).length := by
  induction l with
  | nil => intro n; rfl
  | cons a l ih =>
    intro n
    rw [List.foldl_cons, ih]
    by_cases h : p a
    · simp [h, List.filter_cons]; omega
    · simp [h, List.filter_cons]

theorem uniqueCount_eq (ht : HuffmanTree) :
    uniqueCount ht = ((List.range MAX_CHAR).filter (fun i => (ht.codes i).isSome)).length := by
  unfold uniqueCount
  rw [foldl_count_eq]
  simp

theorem mem_leafSyms_iff (t : HuffmanNode) (s : Nat) :
    s ∈ leafSyms t ↔ ∃ path, (s, path) ∈ leafCodes t := by
  simp [leafSyms]

/-- A symbol has a code in the encoder's table exactly when it labels a leaf of the tree. -/
theorem codeTable_isSome_iff (freq : Nat → Nat) (s : Nat) :
    ((codeTable freq).codes s).isSome ↔ s ∈ leafSyms (buildHuffmanTree freq) := by
  have hnd := nodup_leafSyms_buildHuffmanTree freq
  rw [mem_leafSyms_iff, Option.isSome_iff_exists, codeTable]
  constructor
  · rintro ⟨path, h⟩
    exact ⟨path, (generateCodes_codes_iff _ hnd s path).mp h⟩
  · rintro ⟨path, h⟩
    exact ⟨path, (generateCodes_codes_iff _ hnd s path).mpr h⟩

theorem codeTable_isSome_iff_freq (freq : Nat → Nat) (s : Nat) :
    ((codeTable freq).codes s).isSome ↔ s < 256 ∧ freq s > 0 := by
  rw [codeTable_isSome_iff, (leafSyms_buildHuffmanTree freq).mem_iff]
  simp [MAX_CHAR]

theorem frequencies_pos_iff (in_data : List Nat)
    (hwrap : ∀ b ∈ in_data, in_data.count b % 2 ^ 32 ≠ 0) (s : Nat) :
    frequencies in_data s > 0 ↔ s ∈ in_data := by
  rw [frequencies_apply]
  constructor
  · intro h
    by_contra hs
    rw [List.count_eq_zero_of_not_mem hs] at h
    simp at h
  · intro hs
    exact Nat.pos_of_ne_zero (hwrap s hs)

/-- Inputs shorter than `2 ^ 32` bytes never make a counter wrap to zero. -/
theorem no_wrap_of_length_lt (in_data : List Nat) (hlen : in_data.length < 2 ^ 32) :
    ∀ b ∈ in_data, in_data.count b % 2 ^ 32 ≠ 0 := by
  intro b hb
  rw [Nat.mod_eq_of_lt (Nat.lt_of_le_of_lt (List.count_le_length _ _) hlen)]
  exact Nat.ne_of_gt (List.count_pos_iff.mpr hb)

theorem frequencies_fourGiBOfA : frequencies fourGiBOfA = fun _ => 0 := by
  funext k
  rw [frequencies_apply, fourGiBOfA, List.count_replicate]
  by_cases h : (65 : Nat) = k
  · subst h; simp
  · have : ((65 : Nat) == k) = false := by simpa using h
    simp [this]

set_option maxRecDepth 100000 in
/-- C6, counterexample: for the input of `2 ^ 32` copies of `'A'` the counter of `'A'` wraps to
zero, so `'A'` occurs in the input but has no code, and the entry count is 0 although the
input has one distinct byte value. -/
theorem coverage_fails_on_wrapped_counter :
    65 ∈ fourGiBOfA ∧ (codeTable (frequencies fourGiBOfA)).codes 65 = none ∧
      uniqueCount (codeTable (frequencies fourGiBOfA)) = 0 ∧ distinctBytes fourGiBOfA = 1 := by
  rw [frequencies_fourGiBOfA]
  have hmem : ∀ s, s ∈ fourGiBOfA ↔ s = 65 := fun s =>
    List.mem_replicate.trans ⟨fun h => h.2, fun h => ⟨by decide, h⟩⟩
  refine ⟨(hmem 65).mpr rfl, by decide, by decide, ?_⟩
  have e : (fun s => decide (s ∈ fourGiBOfA)) = fun s => decide (s = 65) := by
    funext s
    exact decide_eq_decide.mpr (hmem s)
  rw [distinctBytes, e]
  decide

theorem ne_nil_of_distinctBytes (in_data : List Nat) (h : 1 ≤ distinctBytes in_data) :
    in_data ≠ [] := by
  intro e
  subst e
  simp [distinctBytes] at h

/-- Coverage for an input whose counters have not wrapped to zero: the entry count is the
number of distinct byte values and every input byte has a code. -/
theorem coverage_of_input (in_data : List Nat) (hb : ∀ b ∈ in_data, b < 256)
    (hw : ∀ b ∈ in_data, in_data.count b % 2 ^ 32 ≠ 0) :
    uniqueCount (codeTable (frequencies in_data)) = distinctBytes in_data ∧
      ∀ b ∈ in_data, ((codeTable (frequencies in_data)).codes b).isSome := by
  refine ⟨?_, ?_⟩
  · rw [uniqueCount_eq, distinctBytes]
    apply congrArg List.length
    apply List.filter_congr
    intro s hs
    have h256 : s < 256 := List.mem_range.mp hs
    have h1 := codeTable_isSome_iff_freq (frequencies in_data) s
    have h2 := frequencies_pos_iff in_data hw s
    by_cases c : s ∈ in_data
    · simp [c, h1.mpr ⟨h256, h2.mpr c⟩]
    · have : ((codeTable (frequencies in_data)).codes s).isSome = false := by
        rw [Bool.eq_false_iff]
        intro h
        exact c (h2.mp (h1.mp h).2)
      simp [c, this]
  · intro b hbm
    exact (codeTable_isSome_iff_freq _ b).mpr
      ⟨hb b hbm, (frequencies_pos_iff in_data hw b).mpr hbm⟩

/-- C6, amended: for every frequency table a symbol below 256 has a code exactly when its
frequency is nonzero, no other index has a code, and the entry count is the number of nonzero
frequencies; for every input in which no occurring byte value has a count divisible by
`2 ^ 32`, the entry count is the number of distinct byte values of the input and every input
byte has a code. -/
theorem code_table_coverage :
    (∀ (freq : Nat → Nat) (s : Nat),
        (s < 256 → (((codeTable freq).codes s).isSome ↔ freq s > 0)) ∧
        (256 ≤ s → (codeTable freq).codes s = none)) ∧
      (∀ freq : Nat → Nat,
        uniqueCount (codeTable freq) =
          ((List.range MAX_CHAR).filter (fun s => decide (freq s > 0))).length) ∧
      (∀ in_data : List Nat, (∀ b ∈ in_data, b < 256) →
        (∀ b ∈ in_data, in_data.count b % 2 ^ 32 ≠ 0) →
        uniqueCount (codeTable (frequencies in_data)) = distinctBytes in_data ∧
          ∀ b ∈ in_data, ((codeTable (frequencies in_data)).codes b).isSome) := by
  refine ⟨?_, ?_, ?_⟩
  · intro freq s
    refine ⟨fun hs => ?_, fun hs => ?_⟩
    · rw [codeTable_isSome_iff_freq]
      exact ⟨fun h => h.2, fun h => ⟨hs, h⟩⟩
    · have := codeTable_isSome_iff_freq freq s
      cases h : (codeTable freq).codes s with
      | none => rfl
      | some c =>
        rw [h] at this
        have := (this.mp rfl).1
        omega
  · intro freq
    rw [uniqueCount_eq]
    apply congrArg List.length
    apply List.filter_congr
    intro s hs
    have h256 : s < 256 := List.mem_range.mp hs
    have := codeTable_isSome_iff_freq freq s
    by_cases c : freq s > 0
    · simp [c, this.mpr ⟨h256, c⟩]
    · have : ((codeTable freq).codes s).isSome = false := by
        rw [Bool.eq_false_iff]
        intro h
        exact c (this.mp h).2
      simp [c, this]
  · intro in_data hb hw
    exact coverage_of_input in_data hb hw

set_option maxRecDepth 100000 in
/-- Coverage on the input `"ABCA"`: three entries, three distinct byte values. -/
theorem code_table_coverage_witness :
    (∀ b ∈ [65, 66, 67, 65], b < 256) ∧
      (∀ b ∈ [65, 66, 67, 65], [65, 66, 67, 65].count b % 2 ^ 32 ≠ 0) ∧
      uniqueCount (codeTable (frequencies [65, 66, 67, 65])) = 3 ∧
      distinctBytes [65, 66, 67, 65] = 3 ∧
      (uniqueCount (codeTable (frequencies [65, 66, 67, 65])) = distinctBytes [65, 66, 67, 65] ∧
        ∀ b ∈ [65, 66, 67, 65], ((codeTable (frequencies [65, 66, 67, 65])).codes b).isSome) :=
  ⟨by decide, by decide, by decide, by decide,
    code_table_coverage.2.2 [65, 66, 67, 65] (by decide) (by decide)⟩

/-! ## Bit packing of the payload -/

theorem bitsValue_append_singleton (p : List Nat) (b : Nat) :
    bitsValue (p ++ [b]) = 2 * bitsValue p + b := by
  simp [bitsValue, List.foldl_append]

theorem bitsValue_lt (p : List Nat) (h : ∀ b ∈ p, b < 2) : bitsValue p < 2 ^ p.length := by
  induction p using List.reverseRecOn with
  | nil => simp [bitsValue]
  | append_singleton p b ih =>
    rw [bitsValue_append_singleton, List.length_append, List.length_singleton, Nat.pow_succ]
    have h1 := ih (fun x hx => h x (List.mem_append_left _ hx))
    have h2 := h b (List.mem_append_right _ (List.mem_singleton_self _))
    omega

theorem shift_or_bit : ∀ byte < 128, ∀ bit < 2, ((byte <<< 1) ||| bit) % 256 = 2 * byte + bit := by
  decide

theorem packedByte_append_chunk (chunk rest : List Nat) (h : chunk.length = 8) (k : Nat) :
    packedByte (chunk ++ rest) (k + 1) = packedByte rest k := by
  unfold packedByte
  apply List.foldl_ext
  intro v j hj
  have hj8 : j < 8 := List.mem_range.mp hj
  rw [List.getD_eq_getElem?_getD, List.getD_eq_getElem?_getD,
    List.getElem?_append_right (by omega)]
  congr 3
  omega

theorem packedByte_zero_chunk (chunk rest : List Nat) (h : chunk.length = 8) :
    packedByte (chunk ++ rest) 0 = bitsValue chunk := by
  match chunk, h with
  | [a, b, c, d, e, f, g, i], _ =>
    simp [packedByte, bitsValue, List.range_succ]

theorem packBits_append_chunk (chunk rest : List Nat) (h : chunk.length = 8) :
    packBits (chunk ++ rest) = bitsValue chunk :: packBits rest := by
  unfold packBits
  have e : ((chunk ++ rest).length + 7) / 8 = (rest.length + 7) / 8 + 1 := by
    rw [List.length_append, h]; omega
  rw [e, List.range_succ_eq_map, List.map_cons, List.map_map, packedByte_zero_chunk _ _ h]
  congr 1
  apply List.map_congr_left
  intro k _
  exact packedByte_append_chunk chunk rest h k

theorem packBits_short (p : List Nat) (h : p.length < 8) :
    packBits p = if 0 < p.length then [bitsValue p * 2 ^ (8 - p.length)] else [] := by
  match p, h with
  | [], _ => rfl
  | [a], _ => simp [packBits, packedByte, bitsValue, List.range_succ]; omega
  | [a, b], _ => simp [packBits, packedByte, bitsValue, List.range_succ]; omega
  | [a, b, c], _ => simp [packBits, packedByte, bitsValue, List.range_succ]; omega
  | [a, b, c, d], _ => simp [packBits, packedByte, bitsValue, List.range_succ]; omega
  | [a, b, c, d, e], _ => simp [packBits, packedByte, bitsValue, List.range_succ]; omega
  | [a, b, c, d, e, f], _ => simp [packBits, packedByte, bitsValue, List.range_succ]; omega
  | [a, b, c, d, e, f, g], _ => simp [packBits, packedByte, bitsValue, List.range_succ]; omega
  | _ :: _ :: _ :: _ :: _ :: _ :: _ :: _ :: _, h => simp at h; omega

theorem length_packBits (bits : List Nat) : (packBits bits).length = (bits.length + 7) / 8 := by
  simp [packBits]

theorem emitCodeChar_pending (p : List Nat) (st : PayloadState) (c : Nat) (hp : Pending p st)
    (hc : c = 48 ∨ c = 49) :
    (p.length + 1 = 8 →
        (emitCodeChar st c).written ++ (emitCodeChar st c).out_buffer =
          st.written ++ st.out_buffer ++ [bitsValue (p ++ [c - 48])] ∧
        Pending [] (emitCodeChar st c)) ∧
      (p.length + 1 ≠ 8 →
        (emitCodeChar st c).written ++ (emitCodeChar st c).out_buffer =
          st.written ++ st.out_buffer ∧
        Pending (p ++ [c - 48]) (emitCodeChar st c)) := by
  obtain ⟨h1, h2, h3, h4⟩ := hp
  have hbit : c - 48 < 2 := by rcases hc with rfl | rfl <;> decide
  have hlt := bitsValue_lt p h4
  have h128 : st.buffer.byte < 128 := by
    rw [h2]
    have : 2 ^ p.length ≤ 2 ^ 7 := Nat.pow_le_pow_right (by decide) (by omega)
    omega
  have hbyte : ((st.buffer.byte <<< 1) ||| (c - 48)) % 256 = bitsValue (p ++ [c - 48]) := by
    rw [shift_or_bit _ h128 _ hbit, bitsValue_append_singleton, h2]
  unfold emitCodeChar
  simp only [hbyte, h1]
  refine ⟨fun h8 => ?_, fun h8 => ?_⟩
  · simp only [h8, if_true]
    split
    · refine ⟨by simp, ?_⟩
      unfold Pending
      simp [bitsValue]
    · refine ⟨by simp, ?_⟩
      unfold Pending
      simp [bitsValue]
  · simp only [h8, if_false]
    refine ⟨by simp, ?_⟩
    unfold Pending
    refine ⟨by simp, by simp, by simp; omega, ?_⟩
    intro b hb
    rcases List.mem_append.mp hb with e | e
    · exact h4 b e
    · rw [List.mem_singleton.mp e]; exact hbit

theorem finishPayload_pending (p : List Nat) (st : PayloadState) (hp : Pending p st) :
    finishPayload st = st.written ++ st.out_buffer ++ packBits p := by
  obtain ⟨h1, h2, h3, h4⟩ := hp
  rw [packBits_short p h3]
  unfold finishPayload
  rw [h1, h2]
  by_cases h0 : 0 < p.length
  · have hlt := bitsValue_lt p h4
    have hpad : (bitsValue p <<< (8 - p.length)) % 256 = bitsValue p * 2 ^ (8 - p.length) := by
      rw [Nat.shiftLeft_eq]
      apply Nat.mod_eq_of_lt
      calc bitsValue p * 2 ^ (8 - p.length) < 2 ^ p.length * 2 ^ (8 - p.length) :=
            Nat.mul_lt_mul_of_pos_right hlt (Nat.two_pow_pos _)
        _ = 2 ^ 8 := by rw [← Nat.pow_add]; congr 1; omega
        _ = 256 := by decide
    simp [h0, hpad]
  · simp only [h0, if_false, List.append_nil]
    by_cases hl : st.out_buffer.length > 0
    · simp [hl]
    · have : st.out_buffer = [] := List.length_eq_zero.mp (by omega)
      simp [this]

/-- The inner loop followed by the final flush appends the packed form of the pending bits
and the emitted code bits, whatever the state of the 8192-byte output buffer. -/
theorem finishPayload_foldl (cs : List Nat) :
    ∀ (p : List Nat) (st : PayloadState), Pending p st → (∀ c ∈ cs, c = 48 ∨ c = 49) →
      finishPayload (cs.foldl emitCodeChar st) =
        st.written ++ st.out_buffer ++ packBits (p ++ codeBits cs) := by
  induction cs with
  | nil =>
    intro p st hp _
    simpa [codeBits] using finishPayload_pending p st hp
  | cons c cs ih =>
    intro p st hp hcs
    have hc := hcs c (List.mem_cons_self _ _)
    have hcs' : ∀ x ∈ cs, x = 48 ∨ x = 49 := fun x hx => hcs x (List.mem_cons_of_mem _ hx)
    obtain ⟨k1, k2⟩ := emitCodeChar_pending p st c hp hc
    rw [List.foldl_cons]
    have e : p ++ codeBits (c :: cs) = (p ++ [c - 48]) ++ codeBits cs := by
      simp [codeBits]
    rw [e]
    by_cases h8 : p.length + 1 = 8
    · obtain ⟨w, pend⟩ := k1 h8
      rw [ih [] _ pend hcs', w,
        packBits_append_chunk (p ++ [c - 48]) (codeBits cs) (by simpa using h8)]
      simp
    · obtain ⟨w, pend⟩ := k2 h8
      rw [ih _ _ pend hcs', w]

theorem payloadLoop_eq (ht : HuffmanTree) (data : List Nat) :
    ∀ st : PayloadState, (∀ b ∈ data, (ht.codes b).isSome) →
      payloadLoop ht data st = Except.ok ((inputCodeChars ht data).foldl emitCodeChar st) := by
  induction data with
  | nil => intro st _; rfl
  | cons b rest ih =>
    intro st h
    have hb := h b (List.mem_cons_self _ _)
    obtain ⟨code, hcode⟩ := Option.isSome_iff_exists.mp hb
    simp only [payloadLoop, emitByte, hcode]
    rw [ih _ (fun x hx => h x (List.mem_cons_of_mem _ hx))]
    simp [inputCodeChars, hcode, List.foldl_append]

theorem leafCodes_chars (t : HuffmanNode) :
    ∀ e ∈ leafCodes t, ∀ c ∈ e.2, c = 48 ∨ c = 49 := by
  induction t with
  | null => intro e h; simp [leafCodes] at h
  | node ch f l r ihl ihr =>
    intro e he c hc
    rw [leafCodes] at he
    by_cases h : (l.isNull && r.isNull) = true
    · simp only [h, if_true, List.mem_singleton] at he
      rw [he] at hc
      simp at hc
    · simp only [h, if_false, Bool.false_eq_true, List.mem_append, List.mem_map] at he
      rcases he with ⟨a, ha, rfl⟩ | ⟨a, ha, rfl⟩
      · rcases List.mem_cons.mp hc with e | e
        · exact Or.inl e
        · exact ihl a ha c e
      · rcases List.mem_cons.mp hc with e | e
        · exact Or.inr e
        · exact ihr a ha c e

/-- Every code in the encoder's table is a string of `'0'` and `'1'` characters. -/
theorem codeTable_chars (freq : Nat → Nat) (s : Nat) (code : List Nat)
    (h : (codeTable freq).codes s = some code) : ∀ c ∈ code, c = 48 ∨ c = 49 := by
  rw [codeTable, generateCodes_codes_iff _ (nodup_leafSyms_buildHuffmanTree freq)] at h
  exact leafCodes_chars _ _ h

theorem inputCodeChars_chars (freq : Nat → Nat) (data : List Nat) :
    ∀ c ∈ inputCodeChars (codeTable freq) data, c = 48 ∨ c = 49 := by
  intro c hc
  simp only [inputCodeChars, List.mem_flatMap] at hc
  obtain ⟨b, _, hcb⟩ := hc
  cases h : (codeTable freq).codes b with
  | none => simp [h] at hcb
  | some code =>
    rw [h] at hcb
    exact codeTable_chars freq b code h c hcb

/-- The archive written by `encrypt` when every input byte has a code: the header followed by
the packed code bits of the input. -/
theorem encrypt_eq (inputFile in_data : List Nat) (hne : in_data ≠ [])
    (h : ∀ b ∈ in_data, ((codeTable (frequencies in_data)).codes b).isSome) :
    encrypt inputFile in_data =
      Except.ok
        (encryptHeader inputFile (frequencies in_data) (codeTable (frequencies in_data)) ++
          packBits (codeBits (inputCodeChars (codeTable (frequencies in_data)) in_data))) := by
  unfold encrypt
  simp only []
  rw [if_neg (fun e => hne (List.length_eq_zero.mp e)), payloadLoop_eq _ _ _ h]
  simp only []
  rw [finishPayload_foldl _ [] _ ⟨rfl, rfl, by decide, by simp⟩
    (inputCodeChars_chars _ _)]
  simp

/-! ## Payload layout -/

/-- When the first input byte has no code, the payload loop faults at its first step. -/
theorem encrypt_nullDeref (inputFile : List Nat) (b : Nat) (rest : List Nat)
    (h : (codeTable (frequencies (b :: rest))).codes b = none) :
    encrypt inputFile (b :: rest) = Except.error Fault.nullDeref := by
  unfold encrypt
  simp only []
  rw [if_neg (by simp)]
  simp only [payloadLoop, emitByte, h]

/-- The archive of a non-empty input whose counters have not wrapped to zero: every input
byte has a code of `'0'` and `'1'` characters and the payload is the packed concatenation of
the codes. -/
theorem encrypt_layout (inputFile in_data : List Nat) (hne : in_data ≠ [])
    (hbytes : ∀ b ∈ in_data, b < 256)
    (hwrap : ∀ b ∈ in_data, in_data.count b % 2 ^ 32 ≠ 0) :
    (∀ b ∈ in_data, ∃ code, (codeTable (frequencies in_data)).codes b = some code ∧
        ∀ c ∈ code, c = 48 ∨ c = 49) ∧
      encrypt inputFile in_data =
        Except.ok
          (encryptHeader inputFile (frequencies in_data) (codeTable (frequencies in_data)) ++
            packBits (codeBits (inputCodeChars (codeTable (frequencies in_data)) in_data))) ∧
      (packBits (codeBits (inputCodeChars (codeTable (frequencies in_data)) in_data))).length =
        ((inputCodeChars (codeTable (frequencies in_data)) in_data).length + 7) / 8 := by
  have hsome := (coverage_of_input in_data hbytes hwrap).2
  refine ⟨?_, encrypt_eq inputFile in_data hne hsome, ?_⟩
  · intro b hb
    obtain ⟨code, hcode⟩ := Option.isSome_iff_exists.mp (hsome b hb)
    exact ⟨code, hcode, codeTable_chars _ b code hcode⟩
  · rw [length_packBits]
    simp [codeBits]

theorem perm_pair_cases (l r x y : HuffmanNode) (h : [l, r].Perm [x, y]) :
    (l = x ∧ r = y) ∨ (l = y ∧ r = x) := by
  have hl : l ∈ [x, y] := h.subset (List.mem_cons_self _ _)
  simp only [List.mem_cons, List.mem_singleton, List.not_mem_nil, or_false] at hl
  rcases hl with e | e
  · subst e
    have := (List.perm_cons l).mp h
    exact Or.inl ⟨rfl, List.perm_singleton.mp this.symm |> List.singleton_inj.mp |> Eq.symm⟩
  · subst e
    have h' : [l, r].Perm [l, x] := h.trans (List.Perm.swap _ _ _)
    have := (List.perm_cons l).mp h'
    exact Or.inr ⟨rfl, List.perm_singleton.mp this.symm |> List.singleton_inj.mp |> Eq.symm⟩

theorem filter_two (freq : Nat → Nat) (a b : Nat) (ha : a < 256) (hb : b < 256) (hab : a ≠ b)
    (hf : ∀ s, s < 256 → (freq s > 0 ↔ s = a ∨ s = b)) :
    ((List.range MAX_CHAR).filter (fun i => freq i > 0)).Perm [a, b] := by
  rw [List.perm_ext_iff_of_nodup ((List.nodup_range _).filter _) (by simp [hab])]
  intro s
  simp only [List.mem_filter, List.mem_range, MAX_CHAR, decide_eq_true_eq, List.mem_cons,
    List.mem_singleton, List.not_mem_nil, or_false]
  constructor
  · rintro ⟨h1, h2⟩
    exact (hf s h1).mp h2
  · intro h
    have hs : s < 256 := by rcases h with rfl | rfl <;> assumption
    exact ⟨hs, (hf s hs).mpr h⟩

/-- With exactly two symbols of nonzero frequency the built tree is one merge of their two
leaves. -/
theorem buildHuffmanTree_two (freq : Nat → Nat) (a b : Nat) (ha : a < 256) (hb : b < 256)
    (hab : a ≠ b) (hf : ∀ s, s < 256 → (freq s > 0 ↔ s = a ∨ s = b)) :
    buildHuffmanTree freq = mergeNodes (createNode a (freq a)) (createNode b (freq b)) ∨
      buildHuffmanTree freq = mergeNodes (createNode b (freq b)) (createNode a (freq a)) := by
  have h0 : (leavesOf freq (List.range MAX_CHAR)).Perm
      [createNode a (freq a), createNode b (freq b)] :=
    (filter_two freq a b ha hb hab hf).map _
  have key := buildHuffmanTree_induction
    (fun d => d.Perm [createNode a (freq a), createNode b (freq b)] ∨
      d = [mergeNodes (createNode a (freq a)) (createNode b (freq b))] ∨
      d = [mergeNodes (createNode b (freq b)) (createNode a (freq a))])
    (fun x y pxy h => by
      rcases h with h | h | h
      · exact Or.inl (pxy.symm.trans h)
      · rw [h] at pxy
        exact Or.inr (Or.inl (List.perm_singleton.mp pxy.symm))
      · rw [h] at pxy
        exact Or.inr (Or.inr (List.perm_singleton.mp pxy.symm)))
    (fun l r rest h => by
      rcases h with h | h | h
      · have hlen := h.length_eq
        simp only [List.length_cons, List.length_nil] at hlen
        have hrest : rest = [] := List.length_eq_zero.mp (by omega)
        subst hrest
        rcases perm_pair_cases _ _ _ _ h with ⟨rfl, rfl⟩ | ⟨rfl, rfl⟩
        · exact Or.inr (Or.inl rfl)
        · exact Or.inr (Or.inr rfl)
      · simp at h
      · simp at h)
    freq (Or.inl h0) (fun e => by rw [e] at h0; simpa using h0.length_eq)
  rcases key with h | h | h
  · simpa using h.length_eq
  · exact Or.inl (List.singleton_inj.mp h)
  · exact Or.inr (List.singleton_inj.mp h)

theorem codes_mergeNodes_leaves (x y fx fy : Nat) (hx : x < 256) (hy : y < 256) (hxy : x ≠ y) :
    (generateCodes (mergeNodes (createNode x fx) (createNode y fy)) []
        { codes := fun _ => none }).codes x = some [48] ∧
      (generateCodes (mergeNodes (createNode x fx) (createNode y fy)) []
        { codes := fun _ => none }).codes y = some [49] := by
  simp [mergeNodes, createNode, generateCodes_node, HuffmanNode.isNull, HuffmanTree.setCode,
    Nat.mod_eq_of_lt hx, Nat.mod_eq_of_lt hy, hxy]

/-- With exactly two symbols of nonzero frequency one gets the code `"0"`, the other `"1"`. -/
theorem two_symbol_codes (freq : Nat → Nat) (a b : Nat) (ha : a < 256) (hb : b < 256)
    (hab : a ≠ b) (hf : ∀ s, s < 256 → (freq s > 0 ↔ s = a ∨ s = b)) :
    ((codeTable freq).codes a = some [48] ∧ (codeTable freq).codes b = some [49]) ∨
      ((codeTable freq).codes a = some [49] ∧ (codeTable freq).codes b = some [48]) := by
  unfold codeTable
  rcases buildHuffmanTree_two freq a b ha hb hab hf with h | h
  · rw [h]
    exact Or.inl (codes_mergeNodes_leaves a b _ _ ha hb hab)
  · rw [h]
    have := codes_mergeNodes_leaves b a (freq b) (freq a) hb ha (Ne.symm hab)
    exact Or.inr ⟨this.2, this.1⟩

theorem length_inputCodeChars (ht : HuffmanTree) (data : List Nat)
    (h : ∀ x ∈ data, ((ht.codes x).getD []).length = 1) :
    (inputCodeChars ht data).length = data.length := by
  induction data with
  | nil => rfl
  | cons x rest ih =>
    have hx := h x (List.mem_cons_self _ _)
    have ih' := ih (fun y hy => h y (List.mem_cons_of_mem _ hy))
    simp only [inputCodeChars, List.flatMap_cons, List.length_append, List.length_cons] at ih' ⊢
    rw [hx, ih']
    omega

theorem frequencies_fourGiBOfAThenB :
    frequencies fourGiBOfAThenB = fun k => if k = 66 then 1 else 0 := by
  funext k
  rw [frequencies_apply, fourGiBOfAThenB, List.count_append, List.count_replicate]
  by_cases h : k = 66
  · subst h; decide
  · by_cases h2 : k = 65
    · subst h2; decide
    · have e1 : ((65 : Nat) == k) = false := by simpa using fun e => h2 e.symm
      have e2 : ((66 : Nat) == k) = false := by simpa using fun e => h e.symm
      simp [e1, e2, h, List.count_cons]

set_option maxRecDepth 100000 in
theorem codeTable_onlyB :
    (codeTable (fun k => if k = 66 then 1 else 0)).codes 65 = none ∧
      (codeTable (fun k => if k = 66 then 1 else 0)).codes 66 = some [] := by
  decide

/-- C8, counterexample: the input of `2 ^ 32` copies of `'A'` followed by one `'B'` contains
exactly the two byte values `'A'` and `'B'`, but the counter of `'A'` has wrapped to zero:
`'A'` gets no code at all and `'B'` gets the empty code, not codes of length 1. -/
theorem two_symbols_fail_on_wrapped_counter :
    65 ∈ fourGiBOfAThenB ∧ 66 ∈ fourGiBOfAThenB ∧
      (∀ x ∈ fourGiBOfAThenB, x = 65 ∨ x = 66) ∧
      (codeTable (frequencies fourGiBOfAThenB)).codes 65 = none ∧
      (codeTable (frequencies fourGiBOfAThenB)).codes 66 = some [] := by
  have hmem : ∀ s, s ∈ fourGiBOfAThenB ↔ s = 65 ∨ s = 66 := by
    intro s
    rw [fourGiBOfAThenB, List.mem_append, List.mem_replicate, List.mem_singleton]
    exact ⟨fun h => h.imp (fun h => h.2) id, fun h => h.imp (fun h => ⟨by decide, h⟩) id⟩
  rw [frequencies_fourGiBOfAThenB]
  exact ⟨(hmem 65).mpr (Or.inl rfl), (hmem 66).mpr (Or.inr rfl), fun x hx => (hmem x).mp hx,
    codeTable_onlyB.1, codeTable_onlyB.2⟩

/-- C8, amended: for every input that contains exactly two distinct byte values, neither with
a count divisible by `2 ^ 32` (so for every such input shorter than `2 ^ 32` bytes), one of
the two symbols gets the code `"0"` and the other the code `"1"`, and the payload written
after the header is the packed sequence of these one-bit codes in input order, `ceil (n / 8)`
bytes for `n` input bytes. -/
theorem two_symbol_alphabet (inputFile in_data : List Nat) (a b : Nat) (ha : a < 256)
    (hb : b < 256) (hab : a ≠ b) (hia : a ∈ in_data) (hib : b ∈ in_data)
    (hall : ∀ x ∈ in_data, x = a ∨ x = b)
    (hwa : in_data.count a % 2 ^ 32 ≠ 0) (hwb : in_data.count b % 2 ^ 32 ≠ 0) :
    (((codeTable (frequencies in_data)).codes a = some [48] ∧
          (codeTable (frequencies in_data)).codes b = some [49]) ∨
        ((codeTable (frequencies in_data)).codes a = some [49] ∧
          (codeTable (frequencies in_data)).codes b = some [48])) ∧
      encrypt inputFile in_data =
        Except.ok
          (encryptHeader inputFile (frequencies in_data) (codeTable (frequencies in_data)) ++
            packBits (codeBits (inputCodeChars (codeTable (frequencies in_data)) in_data))) ∧
      (inputCodeChars (codeTable (frequencies in_data)) in_data).length = in_data.length ∧
      (packBits (codeBits (inputCodeChars (codeTable (frequencies in_data)) in_data))).length =
        (in_data.length + 7) / 8 := by
  have hwrap : ∀ x ∈ in_data, in_data.count x % 2 ^ 32 ≠ 0 := by
    intro x hx
    rcases hall x hx with rfl | rfl <;> assumption
  have hbytes : ∀ x ∈ in_data, x < 256 := by
    intro x hx
    rcases hall x hx with rfl | rfl <;> assumption
  have hf : ∀ s, s < 256 → (frequencies in_data s > 0 ↔ s = a ∨ s = b) := by
    intro s _
    rw [frequencies_pos_iff in_data hwrap s]
    exact ⟨hall s, fun h => by rcases h with rfl | rfl <;> assumption⟩
  have hcodes := two_symbol_codes (frequencies in_data) a b ha hb hab hf
  have hlen : (inputCodeChars (codeTable (frequencies in_data)) in_data).length =
      in_data.length := by
    apply length_inputCodeChars
    intro x hx
    rcases hall x hx with rfl | rfl <;> rcases hcodes with ⟨h1, h2⟩ | ⟨h1, h2⟩ <;>
      simp [h1, h2]
  obtain ⟨_, henc, hpl⟩ :=
    encrypt_layout inputFile in_data (List.ne_nil_of_mem hia) hbytes hwrap
  refine ⟨hcodes, henc, hlen, ?_⟩
  rw [hpl, hlen]

set_option maxRecDepth 100000 in
/-- The input `"AAAABBBB"` in a file named `"a"`: `'A'` gets `"0"`, `'B'` gets `"1"`, and the
payload is the single byte `00001111`, the eight one-bit codes in input order. -/
theorem two_symbol_alphabet_witness :
    (65 ∈ inputAAAABBBB ∧ 66 ∈ inputAAAABBBB ∧ ∀ x ∈ inputAAAABBBB, x = 65 ∨ x = 66) ∧
      (inputAAAABBBB.count 65 % 2 ^ 32 ≠ 0 ∧ inputAAAABBBB.count 66 % 2 ^ 32 ≠ 0) ∧
      (codeTable (frequencies inputAAAABBBB)).codes 65 = some [48] ∧
      (codeTable (frequencies inputAAAABBBB)).codes 66 = some [49] ∧
      inputCodeChars (codeTable (frequencies inputAAAABBBB)) inputAAAABBBB =
        [48, 48, 48, 48, 49, 49, 49, 49] ∧
      packBits (codeBits (inputCodeChars (codeTable (frequencies inputAAAABBBB)) inputAAAABBBB)) =
        [15] ∧
      encrypt [97] inputAAAABBBB =
        Except.ok
          (encryptHeader [97] (frequencies inputAAAABBBB)
              (codeTable (frequencies inputAAAABBBB)) ++
            packBits (codeBits
              (inputCodeChars (codeTable (frequencies inputAAAABBBB)) inputAAAABBBB))) :=
  ⟨by decide, by decide, by decide, by decide, by decide, by decide,
    (two_symbol_alphabet [97] inputAAAABBBB 65 66 (by decide) (by decide) (by decide)
      (by decide) (by decide) (by decide) (by decide) (by decide)).2.1⟩

/-! ## The table reader -/

theorem length_leBytes (n v : Nat) : (leBytes n v).length = n := by
  induction n generalizing v with
  | zero => rfl
  | succ n ih => simp [leBytes, ih]

theorem readBytes_at (in_data a b c : List Nat) (h : in_data = a ++ (b ++ c)) (offset n : Nat)
    (ho : offset = a.length) (hn : n = b.length) :
    readBytes in_data offset n = Except.ok b := by
  subst h ho hn
  unfold readBytes
  rw [if_pos (by simp only [List.length_append]; omega)]
  simp

theorem readBytes_ok_length (a : List Nat) (offset k : Nat) (bs : List Nat)
    (h : readBytes a offset k = Except.ok bs) : offset + k ≤ a.length := by
  unfold readBytes at h
  split at h
  · assumption
  · cases h

theorem cstr_eq_self (code : List Nat) (h : ∀ c ∈ code, c ≠ 0) : cstr code = code := by
  unfold cstr
  rw [List.takeWhile_eq_self_iff]
  intro c hc
  simpa using h c hc

/-- The table reader of `decrypt` reads back an entry written by `encrypt`: symbol, four
frequency bytes, length byte, and the code as that many characters. -/
theorem readTable_writeEntry (pre post : List Nat) (i f : Nat) (code : List Nat) (n : Nat)
    (ht : HuffmanTree) (hi : i < 256) (hl : code.length < 256) (hc : ∀ c ∈ code, c ≠ 0) :
    readTable (pre ++ (writeEntry i f code ++ post)) (n + 1) pre.length ht =
      readTable (pre ++ (writeEntry i f code ++ post)) n (pre.length + 6 + code.length)
        (ht.setCode i code) := by
  have hw : writeEntry i f code = [i] ++ leBytes 4 f ++ [code.length] ++ code := by
    unfold writeEntry
    simp only [Nat.mod_eq_of_lt hi, Nat.mod_eq_of_lt hl, List.take_length]
  rw [hw]
  generalize hd : pre ++ ([i] ++ leBytes 4 f ++ [code.length] ++ code ++ post) = in_data
  have r1 : readBytes in_data pre.length 1 = Except.ok [i] :=
    readBytes_at in_data pre [i] (leBytes 4 f ++ [code.length] ++ code ++ post)
      (by rw [← hd]; simp) _ _ rfl rfl
  have r2 : readBytes in_data (pre.length + 1) 4 = Except.ok (leBytes 4 f) :=
    readBytes_at in_data (pre ++ [i]) (leBytes 4 f) ([code.length] ++ code ++ post)
      (by rw [← hd]; simp) _ _ (by simp) (by rw [length_leBytes])
  have r3 : readBytes in_data (pre.length + 5) 1 = Except.ok [code.length] :=
    readBytes_at in_data (pre ++ [i] ++ leBytes 4 f) [code.length] (code ++ post)
      (by rw [← hd]; simp) _ _ (by simp [length_leBytes]) rfl
  have r4 : readBytes in_data (pre.length + 6) code.length = Except.ok code :=
    readBytes_at in_data (pre ++ [i] ++ leBytes 4 f ++ [code.length]) code post
      (by rw [← hd]; simp) _ _ (by simp [length_leBytes]) rfl
  have v1 : leValue [i] = i := by simp [leValue]
  have v2 : leValue [code.length] = code.length := by simp [leValue]
  rw [readTable]
  simp only [r1, r2, r3, v1, v2, r4, cstr_eq_self code hc]

/-! ## Code lengths -/

theorem leafCodes_ne_nil (t : HuffmanNode) (h : t ≠ HuffmanNode.null) : leafCodes t ≠ [] := by
  induction t with
  | null => exact absurd rfl h
  | node ch f l r ihl ihr =>
    rw [leafCodes]
    by_cases c : (l.isNull && r.isNull) = true
    · simp [c]
    · simp only [c, if_false, Bool.false_eq_true]
      have : l ≠ HuffmanNode.null ∨ r ≠ HuffmanNode.null := by
        by_contra hn
        simp only [not_or, not_not] at hn
        apply c
        rw [hn.1, hn.2]
        rfl
      rcases this with hl | hr
      · have := ihl hl
        simp [this]
      · have := ihr hr
        simp [this]

theorem leafCodes_mergeNodes (l r : HuffmanNode) (hl : l ≠ HuffmanNode.null) :
    leafCodes (mergeNodes l r) =
      (leafCodes l).map (fun p => (p.1, 48 :: p.2)) ++
        (leafCodes r).map (fun p => (p.1, 49 :: p.2)) := by
  have : l.isNull = false := by
    cases l with
    | null => exact absurd rfl hl
    | node _ _ _ _ => rfl
  simp [mergeNodes, leafCodes, this]

/-- In the tree returned by `buildHuffmanTree` every leaf lies at a depth below the number of
leaves. -/
theorem leafCodes_length_lt (freq : Nat → Nat) :
    ∀ e ∈ leafCodes (buildHuffmanTree freq),
      e.2.length + 1 ≤ (leafCodes (buildHuffmanTree freq)).length := by
  by_cases hne : leavesOf freq (List.range MAX_CHAR) = []
  · rw [buildHuffmanTree_empty freq hne]
    intro e he
    simp [leafCodes] at he
  · have key := buildHuffmanTree_induction
      (fun d => ∀ t ∈ d, t ≠ HuffmanNode.null ∧
        ∀ e ∈ leafCodes t, e.2.length + 1 ≤ (leafCodes t).length)
      (fun a b pab h t ht => h t (pab.symm.subset ht))
      (fun l r rest h t ht => by
        have hl := h l (List.mem_cons_self _ _)
        have hr := h r (List.mem_cons_of_mem _ (List.mem_cons_self _ _))
        rcases List.mem_cons.mp ht with e | e
        · subst e
          refine ⟨by simp [mergeNodes], ?_⟩
          intro e he
          rw [leafCodes_mergeNodes l r hl.1] at he ⊢
          have nl : 0 < (leafCodes l).length := List.length_pos.mpr (leafCodes_ne_nil l hl.1)
          have nr : 0 < (leafCodes r).length := List.length_pos.mpr (leafCodes_ne_nil r hr.1)
          simp only [List.length_append, List.length_map]
          simp only [List.mem_append, List.mem_map] at he
          rcases he with ⟨a, ha, rfl⟩ | ⟨a, ha, rfl⟩
          · have := hl.2 a ha
            simp only [List.length_cons]
            omega
          · have := hr.2 a ha
            simp only [List.length_cons]
            omega
        · exact h t (List.mem_cons_of_mem _ (List.mem_cons_of_mem _ e)))
      freq
      (by
        intro t ht
        simp only [leavesOf, List.mem_map] at ht
        obtain ⟨i, _, rfl⟩ := ht
        refine ⟨by simp [createNode], ?_⟩
        intro e he
        simp only [createNode, leafCodes, HuffmanNode.isNull, Bool.and_self, if_true,
          List.mem_singleton] at he
        subst he
        simp [createNode, leafCodes, HuffmanNode.isNull])
      hne
    exact (key _ (List.mem_singleton_self _)).2

/-- Every code of the encoder's table is at most 255 characters long. -/
theorem codeTable_length_le (freq : Nat → Nat) (s : Nat) (code : List Nat)
    (h : (codeTable freq).codes s = some code) : code.length ≤ 255 := by
  rw [codeTable, generateCodes_codes_iff _ (nodup_leafSyms_buildHuffmanTree freq)] at h
  have h1 := leafCodes_length_lt freq _ h
  have h2 : (leafCodes (buildHuffmanTree freq)).length =
      (leafSyms (buildHuffmanTree freq)).length := by simp [leafSyms]
  have h3 := (leafSyms_buildHuffmanTree freq).length_eq
  have h4 : ((List.range MAX_CHAR).filter (fun i => freq i > 0)).length ≤ 256 := by
    have := List.length_filter_le (fun i => decide (freq i > 0)) (List.range MAX_CHAR)
    simpa [MAX_CHAR] using this
  simp only at h1
  omega

/-! ## Layout of a table entry -/

set_option maxRecDepth 100000 in
/-- C10, counterexample: in the table built from `sampleFreq` the symbol `'B'` has the 2-bit
code `"10"`; `encrypt` stores it as the two characters `'1'`, `'0'`, so the entry takes
8 bytes, not `6 + ceil (2 / 8) = 7`, and differs from the packed layout, whose code byte
would be `10000000`. -/
theorem entry_stores_code_as_characters :
    (codeTable sampleFreq).codes 66 = some [49, 48] ∧
      writeEntry 66 (sampleFreq 66) [49, 48] = [66, 1, 0, 0, 0, 2, 49, 48] ∧
      (writeEntry 66 (sampleFreq 66) [49, 48]).length ≠ 6 + ([49, 48].length + 7) / 8 ∧
      packedEntry 66 (sampleFreq 66) [49, 48] = [66, 1, 0, 0, 0, 2, 128] ∧
      writeEntry 66 (sampleFreq 66) [49, 48] ≠ packedEntry 66 (sampleFreq 66) [49, 48] := by
  decide

/-- C10, amended: for every entry of the encoder's code table with a code of `L` characters,
`encrypt` serialises the entry as the symbol (1 byte), its frequency (4 bytes, unsigned
32-bit), the length `L` (1 byte, `L ≤ 255`) and then the code itself as `L` bytes, one
character `'0'` or `'1'` per code bit; the entry occupies `6 + L` bytes, and one iteration of
the table loop of `decrypt` reads exactly these `6 + L` bytes back as that symbol's code. -/
theorem table_entry_layout (freq : Nat → Nat) (i : Nat) (code : List Nat)
    (h : (codeTable freq).codes i = some code) :
    writeEntry i (freq i) code = [i] ++ leBytes 4 (freq i) ++ [code.length] ++ code ∧
      (writeEntry i (freq i) code).length = 6 + code.length ∧
      code.length ≤ 255 ∧ (∀ c ∈ code, c = 48 ∨ c = 49) ∧
      ∀ (pre post : List Nat) (n : Nat) (ht : HuffmanTree),
        readTable (pre ++ (writeEntry i (freq i) code ++ post)) (n + 1) pre.length ht =
          readTable (pre ++ (writeEntry i (freq i) code ++ post)) n
            (pre.length + 6 + code.length) (ht.setCode i code) := by
  have hlen := codeTable_length_le freq i code h
  have hi : i < 256 := ((codeTable_isSome_iff_freq freq i).mp (by rw [h]; rfl)).1
  have e : writeEntry i (freq i) code = [i] ++ leBytes 4 (freq i) ++ [code.length] ++ code := by
    unfold writeEntry
    simp only [Nat.mod_eq_of_lt hi, Nat.mod_eq_of_lt (show code.length < 256 by omega),
      List.take_length]
  have hch := codeTable_chars freq i code h
  refine ⟨e, ?_, hlen, hch, ?_⟩
  · rw [e]
    simp only [List.length_append, List.length_singleton, length_leBytes]
  · intro pre post n ht
    apply readTable_writeEntry pre post i (freq i) code n ht hi (by omega)
    intro c hc
    rcases hch c hc with rfl | rfl <;> decide

set_option maxRecDepth 100000 in
/-- The entry of `'B'` in the table built from `sampleFreq`. -/
theorem table_entry_layout_witness :
    (codeTable sampleFreq).codes 66 = some [49, 48] ∧
      writeEntry 66 (sampleFreq 66) [49, 48] =
        [66] ++ leBytes 4 (sampleFreq 66) ++ [[49, 48].length] ++ [49, 48] :=
  ⟨by decide, (table_entry_layout sampleFreq 66 [49, 48] (by decide)).1⟩

/-! ## Round trip -/

set_option maxRecDepth 100000 in
/-- C1, counterexample: for the input `"AAB"` in a file named `"a"`, `'B'` gets
the code `"0"` and `'A'` the code `"1"`; the payload is the single byte `11000000`, whose five
padding bits `decrypt` decodes as five more `'B'`: it writes `"AABBBBBB"` to `"a"`. -/
theorem round_trip_fails_on_padding :
    encrypt [97] inputAAB =
        Except.ok [1, 0, 0, 0, 0, 0, 0, 0, 97, 2, 0, 0, 0, 65, 2, 0, 0, 0, 1, 49,
          66, 1, 0, 0, 0, 1, 48, 192] ∧
      decrypt [1, 0, 0, 0, 0, 0, 0, 0, 97, 2, 0, 0, 0, 65, 2, 0, 0, 0, 1, 49,
          66, 1, 0, 0, 0, 1, 48, 192] =
        Except.ok ([97], [65, 65, 66, 66, 66, 66, 66, 66]) ∧
      [65, 65, 66, 66, 66, 66, 66, 66] ≠ inputAAB := by
  refine ⟨?_, ?_, by decide⟩
  · rfl
  · rfl

theorem frequencies_replicate (n b : Nat) :
    frequencies (List.replicate n b) = fun k => if k = b then n % 2 ^ 32 else 0 := by
  funext k
  rw [frequencies_apply, List.count_replicate]
  by_cases h : k = b
  · subst h; simp
  · have : (b == k) = false := by simpa using fun e => h e.symm
    simp [this, h]

/-- With a single symbol of nonzero frequency the built tree is that symbol's leaf. -/
theorem buildHuffmanTree_single (freq : Nat → Nat) (b : Nat) (hb : b < 256)
    (hf : ∀ s, s < 256 → (freq s > 0 ↔ s = b)) :
    buildHuffmanTree freq = createNode b (freq b) := by
  have hfil : ((List.range MAX_CHAR).filter (fun i => freq i > 0)).Perm [b] := by
    rw [List.perm_ext_iff_of_nodup ((List.nodup_range _).filter _) (List.nodup_singleton _)]
    intro s
    simp only [List.mem_filter, List.mem_range, MAX_CHAR, decide_eq_true_eq,
      List.mem_singleton]
    constructor
    · rintro ⟨h1, h2⟩
      exact (hf s h1).mp h2
    · rintro rfl
      exact ⟨hb, (hf s hb).mpr rfl⟩
  have h0 : leavesOf freq (List.range MAX_CHAR) = [createNode b (freq b)] :=
    List.perm_singleton.mp (hfil.map _)
  have key := buildHuffmanTree_induction (fun d => d = [createNode b (freq b)])
    (fun x y pxy h => by rw [h] at pxy; exact List.perm_singleton.mp pxy.symm)
    (fun l r rest h => by simp at h)
    freq h0 (by rw [h0]; simp)
  exact List.singleton_inj.mp key

/-- The code table of an input made of copies of one byte: that byte gets the empty code. -/
theorem single_symbol_code_empty (b n : Nat) (hb : b < 256) (hn : n % 2 ^ 32 ≠ 0) :
    (codeTable (frequencies (List.replicate n b))).codes b = some [] := by
  have hf : ∀ s, s < 256 → (frequencies (List.replicate n b) s > 0 ↔ s = b) := by
    intro s _
    rw [frequencies_replicate]
    by_cases h : s = b
    · simp [h]; omega
    · simp [h]
  rw [codeTable, buildHuffmanTree_single _ b hb hf]
  simp [createNode, generateCodes_node, HuffmanNode.isNull, HuffmanTree.setCode,
    Nat.mod_eq_of_lt hb]

set_option maxRecDepth 100000 in
/-- C3, evaluation at the failing input: for 1000 copies of `0x41` in a file named `"a"` the
code table has exactly one entry, but its code is empty, no payload byte is written, and
`decrypt` writes an empty file. -/
theorem degenerate_alphabet_decodes_to_nothing :
    uniqueCount (codeTable (frequencies thousandA)) = 1 ∧
      (codeTable (frequencies thousandA)).codes 65 = some [] ∧
      encrypt [97] thousandA = Except.ok archiveThousandA ∧
      decrypt archiveThousandA = Except.ok ([97], []) := by
  have hfreq : frequencies thousandA = fun k => if k = 65 then 1000 else 0 := by
    rw [thousandA, frequencies_replicate]
    rfl
  have hchars : inputCodeChars (codeTable (fun k => if k = 65 then 1000 else 0)) thousandA = [] := by
    decide
  refine ⟨?_, ?_, ?_, by rfl⟩
  · rw [hfreq]; decide
  · rw [hfreq]; decide
  · rw [encrypt_eq [97] thousandA (by decide) ?_]
    · rw [hfreq, hchars]
      exact congrArg Except.ok (by decide)
    · intro b hb
      rw [thousandA] at hb
      rw [List.mem_replicate] at hb
      rw [hb.2, hfreq]
      decide

set_option maxRecDepth 100000 in
/-- C7, evaluation at the failing input: for the one-byte input `"A"` the tree is a lone leaf
and `generateCodes` stores the empty string for `'A'`: a code of length 0, not a one-bit
code. -/
theorem lone_leaf_gets_empty_code :
    buildHuffmanTree (frequencies [65]) =
        HuffmanNode.node 65 1 HuffmanNode.null HuffmanNode.null ∧
      (codeTable (frequencies [65])).codes 65 = some [] := by
  decide

/-! ## Further facts about the encoder -/

/-- When at least two symbols have nonzero frequency, every code has at least one bit. -/
theorem codeTable_length_pos (freq : Nat → Nat)
    (h2 : 2 ≤ ((List.range MAX_CHAR).filter (fun i => freq i > 0)).length) (s : Nat)
    (code : List Nat) (h : (codeTable freq).codes s = some code) : 1 ≤ code.length := by
  rw [codeTable, generateCodes_codes_iff _ (nodup_leafSyms_buildHuffmanTree freq)] at h
  have hlen : (leafCodes (buildHuffmanTree freq)).length =
      ((List.range MAX_CHAR).filter (fun i => freq i > 0)).length := by
    rw [← (leafSyms_buildHuffmanTree freq).length_eq]
    simp [leafSyms]
  generalize buildHuffmanTree freq = root at h hlen
  cases root with
  | null => simp [leafCodes] at h
  | node ch f l r =>
    rw [leafCodes] at h hlen
    by_cases c : (l.isNull && r.isNull) = true
    · simp only [c, if_true, List.length_singleton] at hlen
      omega
    · simp only [c, if_false, Bool.false_eq_true, List.mem_append, List.mem_map] at h
      rcases h with ⟨a, _, e⟩ | ⟨a, _, e⟩
      · have := congrArg Prod.snd e
        simp only at this
        rw [← this]
        simp
      · have := congrArg Prod.snd e
        simp only at this
        rw [← this]
        simp

/-! ## The bit writer -/

theorem writeBit_eq (fd : List Nat) (buffer : BitBuffer) (bit : Nat) :
    writeBit fd buffer bit =
      if buffer.bit_count + 1 = 8 then
        (fd ++ [((buffer.byte <<< 1) ||| bit) % 256], { byte := 0, bit_count := 0 })
      else
        (fd, { byte := ((buffer.byte <<< 1) ||| bit) % 256, bit_count := buffer.bit_count + 1 }) :=
  rfl

theorem flushBuffer_foldl_writeBit (bits : List Nat) :
    ∀ (p fd : List Nat) (buffer : BitBuffer), buffer.bit_count = p.length →
      buffer.byte = bitsValue p → p.length < 8 → (∀ b ∈ p, b < 2) → (∀ b ∈ bits, b < 2) →
      flushBuffer (bits.foldl (fun s b => writeBit s.1 s.2 b) (fd, buffer)).1
          (bits.foldl (fun s b => writeBit s.1 s.2 b) (fd, buffer)).2 =
        fd ++ packBits (p ++ bits) := by
  induction bits with
  | nil =>
    intro p fd buffer h1 h2 h3 h4 _
    simp only [List.foldl_nil, List.append_nil]
    rw [packBits_short p h3]
    unfold flushBuffer
    rw [h1, h2]
    by_cases h0 : 0 < p.length
    · have hlt := bitsValue_lt p h4
      have hpad : (bitsValue p <<< (8 - p.length)) % 256 = bitsValue p * 2 ^ (8 - p.length) := by
        rw [Nat.shiftLeft_eq]
        apply Nat.mod_eq_of_lt
        calc bitsValue p * 2 ^ (8 - p.length) < 2 ^ p.length * 2 ^ (8 - p.length) :=
              Nat.mul_lt_mul_of_pos_right hlt (Nat.two_pow_pos _)
          _ = 2 ^ 8 := by rw [← Nat.pow_add]; congr 1; omega
          _ = 256 := by decide
      simp [h0, hpad]
    · simp [h0]
  | cons b bits ih =>
    intro p fd buffer h1 h2 h3 h4 hb
    have hbit : b < 2 := hb b (List.mem_cons_self _ _)
    have hb' : ∀ x ∈ bits, x < 2 := fun x hx => hb x (List.mem_cons_of_mem _ hx)
    have hlt := bitsValue_lt p h4
    have h128 : buffer.byte < 128 := by
      rw [h2]
      have : 2 ^ p.length ≤ 2 ^ 7 := Nat.pow_le_pow_right (by decide) (by omega)
      omega
    have hbyte : ((buffer.byte <<< 1) ||| b) % 256 = bitsValue (p ++ [b]) := by
      rw [shift_or_bit _ h128 _ hbit, bitsValue_append_singleton, h2]
    have e : p ++ b :: bits = (p ++ [b]) ++ bits := by simp
    rw [List.foldl_cons, e]
    simp only []
    rw [writeBit_eq fd buffer b, hbyte, h1]
    by_cases h8 : p.length + 1 = 8
    · rw [if_pos h8]
      rw [ih [] (fd ++ [bitsValue (p ++ [b])]) { byte := 0, bit_count := 0 } rfl rfl
          (by decide) (by simp) hb',
        packBits_append_chunk (p ++ [b]) bits (by simpa using h8)]
      simp
    · rw [if_neg h8]
      apply ih (p ++ [b]) _ _ (by simp) rfl (by simp; omega) _ hb'
      intro x hx
      rcases List.mem_append.mp hx with h | h
      · exact h4 x h
      · rw [List.mem_singleton.mp h]; exact hbit

/-- The bit writer: emitting a bit sequence with `writeBit` from an empty accumulator and
then calling `flushBuffer` appends the sequence packed 8 bits per byte, most significant bit
first, the last byte zero-padded in its low-order bits. -/
theorem writeBit_flushBuffer (fd bits : List Nat) (h : ∀ b ∈ bits, b < 2) :
    flushBuffer
        (bits.foldl (fun s b => writeBit s.1 s.2 b) (fd, { byte := 0, bit_count := 0 })).1
        (bits.foldl (fun s b => writeBit s.1 s.2 b) (fd, { byte := 0, bit_count := 0 })).2 =
      fd ++ packBits bits := by
  have := flushBuffer_foldl_writeBit bits [] fd { byte := 0, bit_count := 0 } rfl rfl
    (by decide) (by simp) h
  simpa using this

/-! ## Further properties -/

/-- The bit writer of the program: for every bit sequence, emitting the bits one by one with
`writeBit` from an empty accumulator and then calling `flushBuffer` appends to the output the
sequence packed 8 bits per byte, most significant bit first, with the last byte zero-padded
in its low-order bits. -/
theorem bit_writer_packs (fd bits : List Nat) (h : ∀ b ∈ bits, b < 2) :
    flushBuffer
        (bits.foldl (fun s b => writeBit s.1 s.2 b) (fd, { byte := 0, bit_count := 0 })).1
        (bits.foldl (fun s b => writeBit s.1 s.2 b) (fd, { byte := 0, bit_count := 0 })).2 =
      fd ++ packBits bits :=
  writeBit_flushBuffer fd bits h

/-- Ten bits written after the byte 7: one full byte `10110011` and the byte `01000000`. -/
theorem bit_writer_packs_witness :
    (∀ b ∈ [1, 0, 1, 1, 0, 0, 1, 1, 0, 1], b < 2) ∧
      packBits [1, 0, 1, 1, 0, 0, 1, 1, 0, 1] = [179, 64] ∧
      flushBuffer
          ([1, 0, 1, 1, 0, 0, 1, 1, 0, 1].foldl (fun s b => writeBit s.1 s.2 b)
            ([7], { byte := 0, bit_count := 0 })).1
          ([1, 0, 1, 1, 0, 0, 1, 1, 0, 1].foldl (fun s b => writeBit s.1 s.2 b)
            ([7], { byte := 0, bit_count := 0 })).2 =
        [7] ++ packBits [1, 0, 1, 1, 0, 0, 1, 1, 0, 1] :=
  ⟨by decide, by decide, bit_writer_packs [7] [1, 0, 1, 1, 0, 0, 1, 1, 0, 1] (by decide)⟩

/-- Codes are non-empty as soon as two symbols occur: for every frequency table with at least
two nonzero entries, every code in the table produced by `generateCodes` from the tree of
`buildHuffmanTree` has at least one character. -/
theorem codes_nonempty_of_two_symbols (freq : Nat → Nat)
    (h2 : 2 ≤ ((List.range MAX_CHAR).filter (fun i => freq i > 0)).length) (s : Nat)
    (code : List Nat) (h : (codeTable freq).codes s = some code) : 1 ≤ code.length :=
  codeTable_length_pos freq h2 s code h

set_option maxRecDepth 100000 in
/-- In the table built from `sampleFreq`, which has three nonzero entries, the code of `'A'`
is `"0"`. -/
theorem codes_nonempty_of_two_symbols_witness :
    2 ≤ ((List.range MAX_CHAR).filter (fun i => sampleFreq i > 0)).length ∧
      (codeTable sampleFreq).codes 65 = some [48] ∧ 1 ≤ [48].length :=
  ⟨by decide, by decide,
    codes_nonempty_of_two_symbols sampleFreq (by decide) 65 [48] (by decide)⟩

/-! ## Reconstruction of the tree from the code table -/

theorem Built.ne_null {t : HuffmanNode} (h : Built t) : t ≠ HuffmanNode.null := by
  cases t with
  | null => exact absurd h (by simp [Built])
  | node _ _ _ _ => simp

theorem Built.isNull {t : HuffmanNode} (h : Built t) : t.isNull = false := by
  cases t with
  | null => exact absurd h (by simp [Built])
  | node _ _ _ _ => rfl

theorem built_createNode (i f : Nat) : Built (createNode i f) := by
  unfold createNode Built
  exact Or.inl ⟨rfl, Nat.mod_lt _ (by decide)⟩

theorem built_mergeNodes (l r : HuffmanNode) (hl : Built l) (hr : Built r) :
    Built (mergeNodes l r) := by
  unfold mergeNodes Built
  exact Or.inr ⟨rfl, hl, hr⟩

/-- The tree returned for a table with a nonzero entry has the shape `Built`. -/
theorem built_buildHuffmanTree (freq : Nat → Nat)
    (hne : leavesOf freq (List.range MAX_CHAR) ≠ []) : Built (buildHuffmanTree freq) := by
  have key := buildHuffmanTree_induction (fun d => ∀ t ∈ d, Built t)
    (fun a b pab h t ht => h t (pab.symm.subset ht))
    (fun l r rest h t ht => by
      rcases List.mem_cons.mp ht with e | e
      · rw [e]
        exact built_mergeNodes l r (h l (List.mem_cons_self _ _))
          (h r (List.mem_cons_of_mem _ (List.mem_cons_self _ _)))
      · exact h t (List.mem_cons_of_mem _ (List.mem_cons_of_mem _ e)))
    freq
    (by
      intro t ht
      simp only [leavesOf, List.mem_map] at ht
      obtain ⟨i, _, rfl⟩ := ht
      exact built_createNode _ _)
    hne
  exact key _ (List.mem_singleton_self _)

theorem placeCode_null (code : List Nat) (i : Nat) :
    placeCode code i HuffmanNode.null = HuffmanNode.null := by
  cases code <;> rfl

theorem placeCode_nil (i ch f : Nat) (l r : HuffmanNode) :
    placeCode [] i (HuffmanNode.node ch f l r) = HuffmanNode.node (i % 256) f l r := rfl

theorem placeCode_cons_zero (cs : List Nat) (i ch f : Nat) (l r : HuffmanNode) :
    placeCode (48 :: cs) i (HuffmanNode.node ch f l r) =
      HuffmanNode.node ch f (placeCode cs i (if l.isNull then createNode 0 0 else l)) r := by
  simp [placeCode]

theorem placeCode_cons_one (c : Nat) (cs : List Nat) (i ch f : Nat) (l r : HuffmanNode)
    (hc : c ≠ 48) :
    placeCode (c :: cs) i (HuffmanNode.node ch f l r) =
      HuffmanNode.node ch f l (placeCode cs i (if r.isNull then createNode 0 0 else r)) := by
  simp [placeCode, hc]

theorem placeCode_isNull (code : List Nat) (i : Nat) (t : HuffmanNode) (h : t.isNull = false) :
    (placeCode code i t).isNull = false := by
  cases t with
  | null => simp [HuffmanNode.isNull] at h
  | node ch f l r =>
    cases code with
    | nil => rfl
    | cons c cs =>
      by_cases hc : c = 48
      · subst hc; rw [placeCode_cons_zero]; rfl
      · rw [placeCode_cons_one _ _ _ _ _ _ _ hc]; rfl

theorem orNew_isNull (t : HuffmanNode) :
    (if t.isNull then createNode 0 0 else t).isNull = false := by
  cases t <;> rfl

/-- Placing two different codes of `'0'` and `'1'` characters can be done in either order. -/
theorem placeCode_comm (c1 : List Nat) :
    ∀ (c2 : List Nat) (s1 s2 : Nat) (t : HuffmanNode), c1 ≠ c2 →
      (∀ c ∈ c1, c = 48 ∨ c = 49) → (∀ c ∈ c2, c = 48 ∨ c = 49) →
      placeCode c1 s1 (placeCode c2 s2 t) = placeCode c2 s2 (placeCode c1 s1 t) := by
  induction c1 with
  | nil =>
    intro c2 s1 s2 t hne _ _
    cases t with
    | null => simp [placeCode_null]
    | node ch f l r =>
      cases c2 with
      | nil => exact absurd rfl hne
      | cons d ds =>
        by_cases hd : d = 48
        · subst hd
          simp only [placeCode_cons_zero, placeCode_nil]
        · simp only [placeCode_cons_one _ _ _ _ _ _ _ hd, placeCode_nil]
  | cons a as ih =>
    intro c2 s1 s2 t hne h1 h2
    have h1' : ∀ c ∈ as, c = 48 ∨ c = 49 := fun c hc => h1 c (List.mem_cons_of_mem _ hc)
    cases t with
    | null => simp [placeCode_null]
    | node ch f l r =>
      cases c2 with
      | nil =>
        by_cases ha : a = 48
        · subst ha
          simp only [placeCode_cons_zero, placeCode_nil]
        · simp only [placeCode_cons_one _ _ _ _ _ _ _ ha, placeCode_nil]
      | cons d ds =>
        have h2' : ∀ c ∈ ds, c = 48 ∨ c = 49 := fun c hc => h2 c (List.mem_cons_of_mem _ hc)
        by_cases ha : a = 48
        · subst ha
          by_cases hd : d = 48
          · subst hd
            have hne' : as ≠ ds := fun e => hne (by rw [e])
            simp only [placeCode_cons_zero]
            rw [placeCode_isNull _ _ _ (orNew_isNull l), placeCode_isNull _ _ _ (orNew_isNull l)]
            simp only [Bool.false_eq_true, if_false]
            rw [ih ds s1 s2 _ hne' h1' h2']
          · simp only [placeCode_cons_zero, placeCode_cons_one _ _ _ _ _ _ _ hd]
        · by_cases hd : d = 48
          · subst hd
            simp only [placeCode_cons_zero, placeCode_cons_one _ _ _ _ _ _ _ ha]
          · have ea : a = 49 := (h1 a (List.mem_cons_self _ _)).resolve_left ha
            have ed : d = 49 := (h2 d (List.mem_cons_self _ _)).resolve_left hd
            have hne' : as ≠ ds := fun e => hne (by rw [ea, ed, e])
            simp only [placeCode_cons_one _ _ _ _ _ _ _ ha, placeCode_cons_one _ _ _ _ _ _ _ hd]
            rw [placeCode_isNull _ _ _ (orNew_isNull r), placeCode_isNull _ _ _ (orNew_isNull r)]
            simp only [Bool.false_eq_true, if_false]
            rw [ih ds s1 s2 _ hne' h1' h2']

theorem foldl_filterMap_eq {α β γ : Type} (g : α → Option β) (f : γ → β → γ) (l : List α) :
    ∀ init : γ,
      (l.filterMap g).foldl f init =
        l.foldl (fun acc x => match g x with
          | some y => f acc y
          | none => acc) init := by
  induction l with
  | nil => intro init; rfl
  | cons a l ih =>
    intro init
    cases h : g a with
    | none => simp [List.filterMap_cons, h, ih]
    | some y => simp [List.filterMap_cons, h, ih]

/-- The reconstruction places the table entries one after the other, in symbol order. -/
theorem buildHuffmanTreeFromCodes_eq_foldl (ht : HuffmanTree) :
    buildHuffmanTreeFromCodes ht =
      (tableEntries ht).foldl (fun root e => placeCode e.2 e.1 root) (createNode 0 0) := by
  unfold buildHuffmanTreeFromCodes tableEntries
  rw [foldl_filterMap_eq]
  apply List.foldl_ext
  intro root i _
  cases ht.codes i <;> rfl

theorem foldl_placeCode_left (es : List (Nat × List Nat)) :
    ∀ (ch f : Nat) (l r : HuffmanNode), l.isNull = false →
      (es.map (fun p => (p.1, 48 :: p.2))).foldl (fun root e => placeCode e.2 e.1 root)
          (HuffmanNode.node ch f l r) =
        HuffmanNode.node ch f (es.foldl (fun root e => placeCode e.2 e.1 root) l) r := by
  induction es with
  | nil => intro ch f l r _; rfl
  | cons e es ih =>
    intro ch f l r hl
    simp only [List.map_cons, List.foldl_cons, placeCode_cons_zero, hl, Bool.false_eq_true,
      if_false]
    rw [ih _ _ _ _ (placeCode_isNull _ _ _ hl)]

theorem foldl_placeCode_right (es : List (Nat × List Nat)) :
    ∀ (ch f : Nat) (l r : HuffmanNode), r.isNull = false →
      (es.map (fun p => (p.1, 49 :: p.2))).foldl (fun root e => placeCode e.2 e.1 root)
          (HuffmanNode.node ch f l r) =
        HuffmanNode.node ch f l (es.foldl (fun root e => placeCode e.2 e.1 root) r) := by
  induction es with
  | nil => intro ch f l r _; rfl
  | cons e es ih =>
    intro ch f l r hr
    simp only [List.map_cons, List.foldl_cons,
      placeCode_cons_one 49 _ _ _ _ _ _ (by decide), hr, Bool.false_eq_true, if_false]
    rw [ih _ _ _ _ (placeCode_isNull _ _ _ hr)]

theorem foldl_placeCode_left_new (es : List (Nat × List Nat)) (hes : es ≠ []) (ch f : Nat)
    (r : HuffmanNode) :
    (es.map (fun p => (p.1, 48 :: p.2))).foldl (fun root e => placeCode e.2 e.1 root)
        (HuffmanNode.node ch f HuffmanNode.null r) =
      HuffmanNode.node ch f
        (es.foldl (fun root e => placeCode e.2 e.1 root) (createNode 0 0)) r := by
  cases es with
  | nil => exact absurd rfl hes
  | cons e es =>
    simp only [List.map_cons, List.foldl_cons, placeCode_cons_zero, HuffmanNode.isNull, if_true]
    rw [foldl_placeCode_left es _ _ _ _ (placeCode_isNull e.2 e.1 (createNode 0 0) rfl)]

theorem foldl_placeCode_right_new (es : List (Nat × List Nat)) (hes : es ≠ []) (ch f : Nat)
    (l : HuffmanNode) :
    (es.map (fun p => (p.1, 49 :: p.2))).foldl (fun root e => placeCode e.2 e.1 root)
        (HuffmanNode.node ch f l HuffmanNode.null) =
      HuffmanNode.node ch f l
        (es.foldl (fun root e => placeCode e.2 e.1 root) (createNode 0 0)) := by
  cases es with
  | nil => exact absurd rfl hes
  | cons e es =>
    simp only [List.map_cons, List.foldl_cons, placeCode_cons_one 49 _ _ _ _ _ _ (by decide),
      HuffmanNode.isNull, if_true]
    rw [foldl_placeCode_right es _ _ _ _ (placeCode_isNull e.2 e.1 (createNode 0 0) rfl)]

/-- Placing the leaf codes of a built tree, in visiting order, into a fresh root yields the
tree itself with all weights set to 0. -/
theorem foldl_placeCode_leafCodes (t : HuffmanNode) (h : Built t) :
    (leafCodes t).foldl (fun root e => placeCode e.2 e.1 root) (createNode 0 0) =
      stripFreq t := by
  induction t with
  | null => exact absurd h (by simp [Built])
  | node ch f l r ihl ihr =>
    unfold Built at h
    rcases h with ⟨hleaf, hch⟩ | ⟨hch, hl, hr⟩
    · have hl : l = HuffmanNode.null := by
        have := (Bool.and_eq_true _ _).mp hleaf
        exact (isNull_iff l).mp this.1
      have hr : r = HuffmanNode.null := by
        have := (Bool.and_eq_true _ _).mp hleaf
        exact (isNull_iff r).mp this.2
      subst hl hr
      simp [leafCodes, HuffmanNode.isNull, createNode, placeCode_nil, stripFreq,
        Nat.mod_eq_of_lt hch]
    · have hnl := hl.isNull
      have hnr := hr.isNull
      rw [leafCodes]
      simp only [hnl, Bool.false_and, Bool.false_eq_true, if_false]
      rw [List.foldl_append]
      have e0 : createNode 0 0 =
          HuffmanNode.node 0 0 HuffmanNode.null HuffmanNode.null := rfl
      rw [e0, foldl_placeCode_left_new _ (leafCodes_ne_nil l hl.ne_null),
        foldl_placeCode_right_new _ (leafCodes_ne_nil r hr.ne_null), ihl hl, ihr hr, hch]
      rfl

theorem mem_tableEntries (ht : HuffmanTree) (e : Nat × List Nat) :
    e ∈ tableEntries ht ↔ e.1 < 256 ∧ ht.codes e.1 = some e.2 := by
  obtain ⟨i, code⟩ := e
  simp only [tableEntries, List.mem_filterMap, List.mem_range, MAX_CHAR, Option.map_eq_some',
    Prod.mk.injEq]
  constructor
  · rintro ⟨j, hj, c, hc, rfl, rfl⟩
    exact ⟨hj, hc⟩
  · rintro ⟨hi, hc⟩
    exact ⟨i, hi, code, hc, rfl, rfl⟩

theorem nodup_tableEntries (ht : HuffmanTree) : (tableEntries ht).Nodup := by
  unfold tableEntries
  apply List.Nodup.filterMap _ (List.nodup_range _)
  intro a a' b hb hb'
  simp only [Option.mem_def, Option.map_eq_some'] at hb hb'
  obtain ⟨c, _, rfl⟩ := hb
  obtain ⟨c', _, e⟩ := hb'
  exact (congrArg Prod.fst e).symm

/-- The entries of the encoder's table are the leaves of the built tree with their paths. -/
theorem tableEntries_perm (freq : Nat → Nat) :
    (tableEntries (codeTable freq)).Perm (leafCodes (buildHuffmanTree freq)) := by
  have hnd := nodup_leafSyms_buildHuffmanTree freq
  rw [List.perm_ext_iff_of_nodup (nodup_tableEntries _) (List.Nodup.of_map _ hnd)]
  intro e
  rw [mem_tableEntries]
  constructor
  · rintro ⟨_, h⟩
    rw [codeTable, generateCodes_codes_iff _ hnd] at h
    exact h
  · intro h
    have h' : (codeTable freq).codes e.1 = some e.2 := by
      rw [codeTable, generateCodes_codes_iff _ hnd]
      exact h
    exact ⟨((codeTable_isSome_iff_freq freq e.1).mp (by rw [h']; rfl)).1, h'⟩

/-- Reconstruction is faithful: from the encoder's code table `buildHuffmanTreeFromCodes`
rebuilds the tree of `buildHuffmanTree` with all weights set to 0. -/
theorem buildHuffmanTreeFromCodes_codeTable (freq : Nat → Nat)
    (hne : leavesOf freq (List.range MAX_CHAR) ≠ []) :
    buildHuffmanTreeFromCodes (codeTable freq) = stripFreq (buildHuffmanTree freq) := by
  rw [buildHuffmanTreeFromCodes_eq_foldl,
    ← foldl_placeCode_leafCodes _ (built_buildHuffmanTree freq hne)]
  apply List.Perm.foldl_eq' (tableEntries_perm freq)
  intro x hx y hy z
  by_cases hxy : x = y
  · rw [hxy]
  · have hx' := (tableEntries_perm freq).subset hx
    have hy' := (tableEntries_perm freq).subset hy
    have hne2 : y.2 ≠ x.2 := by
      intro e
      exact hxy (leafCodes_prefix_eq _ x hx' y hy' (by rw [e])).symm.symm
    exact placeCode_comm y.2 x.2 y.1 x.1 z hne2 (leafCodes_chars _ y hy') (leafCodes_chars _ x hx')

/-! ## Decoding along the tree -/

theorem decodeBits_append (root : HuffmanNode) (a : List Bool) :
    ∀ (b : List Bool) (st : HuffmanNode × List Nat),
      decodeBits root (a ++ b) st =
        match decodeBits root a st with
        | Except.error e => Except.error e
        | Except.ok st => decodeBits root b st := by
  induction a with
  | nil => intro b st; rfl
  | cons x a ih =>
    intro b st
    simp only [List.cons_append, decodeBits]
    cases decodeBit root st x with
    | error e => rfl
    | ok st' => exact ih b st'

theorem toBools_append (a b : List Nat) : toBools (a ++ b) = toBools a ++ toBools b := by
  simp [toBools]

theorem leafCodes_leaf (ch f : Nat) (l r : HuffmanNode) (h : (l.isNull && r.isNull) = true) :
    leafCodes (HuffmanNode.node ch f l r) = [(ch, [])] := by
  rw [leafCodes, if_pos h]

theorem leafCodes_inner (ch f : Nat) (l r : HuffmanNode) (h : (l.isNull && r.isNull) = false) :
    leafCodes (HuffmanNode.node ch f l r) =
      (leafCodes l).map (fun p => (p.1, 48 :: p.2)) ++
        (leafCodes r).map (fun p => (p.1, 49 :: p.2)) := by
  rw [leafCodes, if_neg (by simp [h])]

theorem decodeBit_node (root : HuffmanNode) (ch f : Nat) (l r : HuffmanNode) (out : List Nat)
    (bit : Bool) (ch' f' : Nat) (l' r' : HuffmanNode)
    (h : (if bit then r else l) = HuffmanNode.node ch' f' l' r') :
    decodeBit root (HuffmanNode.node ch f l r, out) bit =
      if l'.isNull && r'.isNull then Except.ok (root, out ++ [ch'])
      else Except.ok (HuffmanNode.node ch' f' l' r', out) := by
  simp only [decodeBit, h]

/-- One step of the walk: from an internal node, the bits of a leaf path below it lead to the
emission of that leaf's symbol and back to the root. -/
theorem decodeBits_path (root : HuffmanNode) (cur : HuffmanNode) :
    ∀ (ch f : Nat) (l r : HuffmanNode), cur = HuffmanNode.node ch f l r →
      (l.isNull && r.isNull) = false →
      ∀ e ∈ leafCodes cur, ∀ (rest : List Bool) (out : List Nat),
        decodeBits root (toBools (codeBits e.2) ++ rest) (cur, out) =
          decodeBits root rest (root, out ++ [e.1]) := by
  induction cur with
  | null => intro ch f l r h; exact absurd h (by simp)
  | node ch0 f0 l0 r0 ihl ihr =>
    intro ch f l r hcur hinner e he rest out
    simp only [HuffmanNode.node.injEq] at hcur
    obtain ⟨rfl, rfl, rfl, rfl⟩ := hcur
    rw [leafCodes_inner _ _ _ _ hinner] at he
    simp only [List.mem_append, List.mem_map] at he
    rcases he with ⟨a, ha, rfl⟩ | ⟨a, ha, rfl⟩
    · -- left edge
      cases hl : l0 with
      | null => rw [hl] at ha; simp [leafCodes] at ha
      | node ch' f' l' r' =>
        rw [hl] at ha ihl
        have hstep := decodeBit_node root ch0 f0 (HuffmanNode.node ch' f' l' r') r0 out false
          ch' f' l' r' rfl
        simp only [codeBits, toBools, List.map_cons, List.cons_append, decodeBits]
        have e48 : decide (48 - 48 ≠ 0) = false := by decide
        rw [e48, hstep]
        by_cases hleaf : (l'.isNull && r'.isNull) = true
        · rw [leafCodes_leaf _ _ _ _ hleaf] at ha
          simp only [List.mem_singleton] at ha
          subst ha
          simp [hleaf]
        · have hin : (l'.isNull && r'.isNull) = false := by simpa using hleaf
          simp only [hin, Bool.false_eq_true, if_false]
          have := ihl ch' f' l' r' rfl hin a ha rest out
          simpa [codeBits, toBools] using this
    · -- right edge
      cases hr : r0 with
      | null => rw [hr] at ha; simp [leafCodes] at ha
      | node ch' f' l' r' =>
        rw [hr] at ha ihr
        have hstep := decodeBit_node root ch0 f0 l0 (HuffmanNode.node ch' f' l' r') out true
          ch' f' l' r' rfl
        simp only [codeBits, toBools, List.map_cons, List.cons_append, decodeBits]
        have e49 : decide (49 - 48 ≠ 0) = true := by decide
        rw [e49, hstep]
        by_cases hleaf : (l'.isNull && r'.isNull) = true
        · rw [leafCodes_leaf _ _ _ _ hleaf] at ha
          simp only [List.mem_singleton] at ha
          subst ha
          simp [hleaf]
        · have hin : (l'.isNull && r'.isNull) = false := by simpa using hleaf
          simp only [hin, Bool.false_eq_true, if_false]
          have := ihr ch' f' l' r' rfl hin a ha rest out
          simpa [codeBits, toBools] using this

/-- Decoding the concatenated codes of a byte sequence from the root emits that sequence and
ends at the root. -/
theorem decodeBits_input (ht : HuffmanTree) (ch f : Nat) (l r : HuffmanNode)
    (hinner : (l.isNull && r.isNull) = false) (xs : List Nat) :
    (∀ x ∈ xs, ∃ code, ht.codes x = some code ∧
        (x, code) ∈ leafCodes (HuffmanNode.node ch f l r)) →
      ∀ (rest : List Bool) (out : List Nat),
        decodeBits (HuffmanNode.node ch f l r)
            (toBools (codeBits (inputCodeChars ht xs)) ++ rest)
            (HuffmanNode.node ch f l r, out) =
          decodeBits (HuffmanNode.node ch f l r) rest (HuffmanNode.node ch f l r, out ++ xs) := by
  induction xs with
  | nil => intro _ rest out; simp [inputCodeChars, codeBits, toBools]
  | cons x xs ih =>
    intro h rest out
    obtain ⟨code, hcode, hmem⟩ := h x (List.mem_cons_self _ _)
    have e : inputCodeChars ht (x :: xs) = code ++ inputCodeChars ht xs := by
      simp [inputCodeChars, hcode]
    have e2 : toBools (codeBits (code ++ inputCodeChars ht xs)) =
        toBools (codeBits code) ++ toBools (codeBits (inputCodeChars ht xs)) := by
      simp [codeBits, toBools]
    rw [e, e2, List.append_assoc,
      decodeBits_path _ _ ch f l r rfl hinner (x, code) hmem,
      ih (fun y hy => h y (List.mem_cons_of_mem _ hy))]
    simp

/-- A proper prefix of a leaf path is walked without emitting anything. -/
theorem decodeBits_partial (root : HuffmanNode) (cur : HuffmanNode) :
    ∀ (ch f : Nat) (l r : HuffmanNode), cur = HuffmanNode.node ch f l r →
      (l.isNull && r.isNull) = false →
      ∀ e ∈ leafCodes cur, ∀ (k : Nat) (out : List Nat), k < e.2.length →
        ∃ cur', decodeBits root (toBools (codeBits (e.2.take k))) (cur, out) =
          Except.ok (cur', out) := by
  induction cur with
  | null => intro ch f l r h; exact absurd h (by simp)
  | node ch0 f0 l0 r0 ihl ihr =>
    intro ch f l r hcur hinner e he k out hk
    simp only [HuffmanNode.node.injEq] at hcur
    obtain ⟨rfl, rfl, rfl, rfl⟩ := hcur
    cases k with
    | zero => exact ⟨_, rfl⟩
    | succ k =>
      rw [leafCodes_inner _ _ _ _ hinner] at he
      simp only [List.mem_append, List.mem_map] at he
      rcases he with ⟨a, ha, rfl⟩ | ⟨a, ha, rfl⟩
      · simp only [List.length_cons, Nat.add_lt_add_iff_right] at hk
        cases hl : l0 with
        | null => rw [hl] at ha; simp [leafCodes] at ha
        | node ch' f' l' r' =>
          rw [hl] at ha ihl
          have hstep := decodeBit_node root ch0 f0 (HuffmanNode.node ch' f' l' r') r0 out false
            ch' f' l' r' rfl
          simp only [List.take_succ_cons, codeBits, toBools, List.map_cons, decodeBits]
          have e48 : decide (48 - 48 ≠ 0) = false := by decide
          rw [e48, hstep]
          by_cases hleaf : (l'.isNull && r'.isNull) = true
          · rw [leafCodes_leaf _ _ _ _ hleaf] at ha
            simp only [List.mem_singleton] at ha
            subst ha
            simp at hk
          · have hin : (l'.isNull && r'.isNull) = false := by simpa using hleaf
            simp only [hin, Bool.false_eq_true, if_false]
            have := ihl ch' f' l' r' rfl hin a ha k out hk
            simpa [codeBits, toBools] using this
      · simp only [List.length_cons, Nat.add_lt_add_iff_right] at hk
        cases hr : r0 with
        | null => rw [hr] at ha; simp [leafCodes] at ha
        | node ch' f' l' r' =>
          rw [hr] at ha ihr
          have hstep := decodeBit_node root ch0 f0 l0 (HuffmanNode.node ch' f' l' r') out true
            ch' f' l' r' rfl
          simp only [List.take_succ_cons, codeBits, toBools, List.map_cons, decodeBits]
          have e49 : decide (49 - 48 ≠ 0) = true := by decide
          rw [e49, hstep]
          by_cases hleaf : (l'.isNull && r'.isNull) = true
          · rw [leafCodes_leaf _ _ _ _ hleaf] at ha
            simp only [List.mem_singleton] at ha
            subst ha
            simp at hk
          · have hin : (l'.isNull && r'.isNull) = false := by simpa using hleaf
            simp only [hin, Bool.false_eq_true, if_false]
            have := ihr ch' f' l' r' rfl hin a ha k out hk
            simpa [codeBits, toBools] using this

/-- The leftmost leaf of a built tree has a path of `'0'` characters only. -/
theorem exists_zero_code (t : HuffmanNode) (h : Built t) :
    ∃ e ∈ leafCodes t, ∀ c ∈ e.2, c = 48 := by
  induction t with
  | null => exact absurd h (by simp [Built])
  | node ch f l r ihl _ =>
    unfold Built at h
    rcases h with ⟨hleaf, _⟩ | ⟨_, hl, _⟩
    · exact ⟨(ch, []), by rw [leafCodes_leaf _ _ _ _ hleaf]; simp, by simp⟩
    · obtain ⟨e, he, hz⟩ := ihl hl
      refine ⟨(e.1, 48 :: e.2), ?_, ?_⟩
      · rw [leafCodes_inner _ _ _ _ (by simp [hl.isNull])]
        exact List.mem_append_left _ (List.mem_map.mpr ⟨e, he, rfl⟩)
      · intro c hc
        rcases List.mem_cons.mp hc with rfl | hc'
        · rfl
        · exact hz c hc'

theorem isNull_stripFreq (t : HuffmanNode) : (stripFreq t).isNull = t.isNull := by
  cases t <;> rfl

theorem leafCodes_stripFreq (t : HuffmanNode) : leafCodes (stripFreq t) = leafCodes t := by
  induction t with
  | null => rfl
  | node ch f l r ihl ihr =>
    simp only [stripFreq, leafCodes, isNull_stripFreq, ihl, ihr]

/-! ## Unpacking the payload bits -/

theorem decodeByte_eq (root : HuffmanNode) (byte : Nat) (js : List Nat) :
    ∀ st : HuffmanNode × List Nat,
      decodeByte root byte js st =
        decodeBits root (js.map (fun j => decide (byte &&& (1 <<< (7 - j)) ≠ 0))) st := by
  induction js with
  | nil => intro st; rfl
  | cons j js ih =>
    intro st
    simp only [decodeByte, List.map_cons, decodeBits]
    cases decodeBit root st (decide (byte &&& (1 <<< (7 - j)) ≠ 0)) with
    | error e => rfl
    | ok st' => exact ih st'

/-- The two nested decode loops of `decrypt` walk the payload bit by bit. -/
theorem decodeLoop_eq (root : HuffmanNode) (bytes : List Nat) :
    ∀ st : HuffmanNode × List Nat,
      decodeLoop root bytes st = decodeBits root (bytes.flatMap byteBits) st := by
  induction bytes with
  | nil => intro st; rfl
  | cons b bytes ih =>
    intro st
    simp only [decodeLoop, List.flatMap_cons]
    rw [decodeBits_append, decodeByte_eq]
    show _ = match decodeBits root (byteBits b) st with
      | Except.error e => Except.error e
      | Except.ok st => decodeBits root (bytes.flatMap byteBits) st
    unfold byteBits
    cases decodeBits root ((List.range 8).map (fun j => decide (b &&& (1 <<< (7 - j)) ≠ 0))) st with
    | error e => rfl
    | ok st' => exact ih st'

set_option maxRecDepth 100000 in
theorem byteBits_bitsValue :
    ∀ a b c d e f g h : Bool,
      byteBits (bitsValue [a.toNat, b.toNat, c.toNat, d.toNat, e.toNat, f.toNat, g.toNat,
        h.toNat]) = [a, b, c, d, e, f, g, h] := by
  decide

theorem bit_eq_toNat (a : Nat) (h : a < 2) : (decide (a ≠ 0)).toNat = a := by
  have : a = 0 ∨ a = 1 := by omega
  rcases this with rfl | rfl <;> rfl

theorem byteBits_chunk (chunk : List Nat) (hlen : chunk.length = 8) (h : ∀ b ∈ chunk, b < 2) :
    byteBits (bitsValue chunk) = toBools chunk := by
  match chunk, hlen with
  | [a, b, c, d, e, f, g, i], _ =>
    have key := byteBits_bitsValue (decide (a ≠ 0)) (decide (b ≠ 0)) (decide (c ≠ 0))
      (decide (d ≠ 0)) (decide (e ≠ 0)) (decide (f ≠ 0)) (decide (g ≠ 0)) (decide (i ≠ 0))
    rw [bit_eq_toNat a (h a (by simp)), bit_eq_toNat b (h b (by simp)),
      bit_eq_toNat c (h c (by simp)), bit_eq_toNat d (h d (by simp)),
      bit_eq_toNat e (h e (by simp)), bit_eq_toNat f (h f (by simp)),
      bit_eq_toNat g (h g (by simp)), bit_eq_toNat i (h i (by simp))] at key
    exact key

theorem bitsValue_append_zeros (p : List Nat) (m : Nat) :
    bitsValue (p ++ List.replicate m 0) = bitsValue p * 2 ^ m := by
  induction m with
  | zero => simp
  | succ m ih =>
    rw [List.replicate_succ', ← List.append_assoc, bitsValue_append_singleton, ih, Nat.pow_succ]
    ring

/-- Unpacking inverts packing up to the pad bits: the bits the decoder reads from the packed
payload are the code bits followed by the zero pad bits. -/
theorem flatMap_byteBits_packBits (n : Nat) :
    ∀ bits : List Nat, bits.length = n → (∀ b ∈ bits, b < 2) →
      (packBits bits).flatMap byteBits =
        toBools (bits ++ List.replicate (padBits bits.length) 0) := by
  induction n using Nat.strong_induction_on with
  | _ n ih =>
    intro bits hn hb
    by_cases hshort : bits.length < 8
    · rw [packBits_short bits hshort]
      by_cases h0 : 0 < bits.length
      · rw [if_pos h0]
        have hpad : padBits bits.length = 8 - bits.length := by
          unfold padBits
          rw [Nat.mod_eq_of_lt hshort, Nat.mod_eq_of_lt (by omega)]
        rw [hpad, ← bitsValue_append_zeros]
        simp only [List.flatMap_cons, List.flatMap_nil, List.append_nil]
        apply byteBits_chunk
        · simp; omega
        · intro b hmem
          rcases List.mem_append.mp hmem with h | h
          · exact hb b h
          · rw [(List.mem_replicate.mp h).2]; decide
      · have hnil : bits = [] := List.length_eq_zero.mp (by omega)
        subst hnil
        rfl
    · have hsplit : bits = bits.take 8 ++ bits.drop 8 := (List.take_append_drop 8 bits).symm
      have hl8 : (bits.take 8).length = 8 := by
        rw [List.length_take]; omega
      have hld : (bits.drop 8).length = bits.length - 8 := List.length_drop 8 bits
      have hpad : padBits (bits.drop 8).length = padBits bits.length := by
        unfold padBits
        rw [hld]
        congr 2
        omega
      have ihd := ih (bits.drop 8).length (by omega) (bits.drop 8) rfl
        (fun b hmem => hb b (List.mem_of_mem_drop hmem))
      have hchunk := byteBits_chunk (bits.take 8) hl8
        (fun b hmem => hb b (List.mem_of_mem_take hmem))
      rw [hpad] at ihd
      conv_lhs => rw [hsplit]
      rw [packBits_append_chunk _ _ hl8, List.flatMap_cons, hchunk, ihd, ← toBools_append,
        ← List.append_assoc, List.take_append_drop]

/-! ## Reading the header back -/

theorem leValue_leBytes (n : Nat) : ∀ v : Nat, leValue (leBytes n v) = v % 256 ^ n := by
  induction n with
  | zero => intro v; simp [leBytes, leValue, Nat.mod_one]
  | succ n ih =>
    intro v
    rw [leBytes, leValue, ih, Nat.pow_succ, Nat.mul_comm (256 ^ n) 256, Nat.mod_mul, Nat.add_comm]

theorem foldl_writeEntry_eq (freq : Nat → Nat) (ht : HuffmanTree) (is : List Nat) :
    ∀ out : List Nat,
      is.foldl
          (fun out i =>
            match ht.codes i with
            | some code => out ++ writeEntry i (freq i) code
            | none => out)
          out =
        out ++ (is.filterMap (fun i => (ht.codes i).map (fun code => (i, code)))).flatMap
          (fun e => writeEntry e.1 (freq e.1) e.2) := by
  induction is with
  | nil => intro out; simp
  | cons i is ih =>
    intro out
    rw [List.foldl_cons, ih]
    cases h : ht.codes i with
    | none => simp [List.filterMap_cons, h]
    | some code => simp [List.filterMap_cons, h]

/-- The header written by `encrypt`, field by field. -/
theorem encryptHeader_eq (inputFile : List Nat) (freq : Nat → Nat) (ht : HuffmanTree) :
    encryptHeader inputFile freq ht =
      leBytes 8 inputFile.length ++ (inputFile ++ (leBytes 4 (uniqueCount ht) ++
        (tableEntries ht).flatMap (fun e => writeEntry e.1 (freq e.1) e.2))) := by
  unfold encryptHeader
  simp only []
  rw [foldl_writeEntry_eq]
  simp [tableEntries]

theorem uniqueCount_eq_length (ht : HuffmanTree) :
    uniqueCount ht = (tableEntries ht).length := by
  rw [uniqueCount_eq]
  unfold tableEntries
  induction List.range MAX_CHAR with
  | nil => rfl
  | cons i is ih =>
    cases h : ht.codes i with
    | none => simp [List.filter_cons, List.filterMap_cons, h, ih]
    | some code => simp [List.filter_cons, List.filterMap_cons, h, ih]

theorem length_writeEntry (i f : Nat) (code : List Nat) (hl : code.length < 256) :
    (writeEntry i f code).length = 6 + code.length := by
  unfold writeEntry
  simp only [Nat.mod_eq_of_lt hl, List.take_length, List.length_append, List.length_singleton,
    length_leBytes]

/-- The table loop of `decrypt` reads a sequence of entries written by `encrypt` and stores
each code under its symbol. -/
theorem readTable_entries (freq : Nat → Nat) (entries : List (Nat × List Nat)) :
    ∀ (pre post : List Nat) (ht : HuffmanTree),
      (∀ e ∈ entries, e.1 < 256 ∧ e.2.length < 256 ∧ ∀ c ∈ e.2, c ≠ 0) →
      readTable (pre ++ (entries.flatMap (fun e => writeEntry e.1 (freq e.1) e.2) ++ post))
          entries.length pre.length ht =
        Except.ok
          (pre.length + (entries.flatMap (fun e => writeEntry e.1 (freq e.1) e.2)).length,
            entries.foldl (fun ht e => ht.setCode e.1 e.2) ht) := by
  induction entries with
  | nil => intro pre post ht _; simp [readTable]
  | cons e entries ih =>
    intro pre post ht h
    obtain ⟨hi, hl, hc⟩ := h e (List.mem_cons_self _ _)
    have h' : ∀ x ∈ entries, x.1 < 256 ∧ x.2.length < 256 ∧ ∀ c ∈ x.2, c ≠ 0 :=
      fun x hx => h x (List.mem_cons_of_mem _ hx)
    simp only [List.flatMap_cons, List.length_cons, List.append_assoc, List.foldl_cons]
    rw [readTable_writeEntry pre _ e.1 (freq e.1) e.2 entries.length ht hi hl hc]
    have key := ih (pre ++ writeEntry e.1 (freq e.1) e.2) post (ht.setCode e.1 e.2) h'
    simp only [List.append_assoc, List.length_append, length_writeEntry _ _ _ hl] at key
    rw [show pre.length + 6 + e.2.length = pre.length + (6 + e.2.length) by omega, key]
    simp only [List.length_append, length_writeEntry _ _ _ hl]
    congr 2
    omega

theorem HuffmanTree.ext_codes (a b : HuffmanTree) (h : ∀ i, a.codes i = b.codes i) : a = b := by
  cases a
  cases b
  simp only [HuffmanTree.mk.injEq]
  funext i
  exact h i

theorem foldl_setCode_apply (s : Nat) (ps : List (Nat × List Nat)) :
    ∀ ht : HuffmanTree,
      (ps.foldl (fun ht e => ht.setCode e.1 e.2) ht).codes s =
        (ps.foldl (fun ht p => ht.setCode p.1 ([] ++ p.2)) ht).codes s := by
  intro ht
  simp

/-- Storing the entries of a table into the empty table gives the table back. -/
theorem foldl_setCode_tableEntries (ht : HuffmanTree)
    (hwf : ∀ i code, ht.codes i = some code → i < 256) :
    (tableEntries ht).foldl (fun t e => t.setCode e.1 e.2) { codes := fun _ => none } = ht := by
  apply HuffmanTree.ext_codes
  intro s
  rw [foldl_setCode_apply]
  cases hs : ht.codes s with
  | none =>
    rw [foldl_setCode_not_mem]
    intro hmem
    obtain ⟨e, he, rfl⟩ := List.mem_map.mp hmem
    rw [mem_tableEntries] at he
    rw [he.2] at hs
    exact absurd hs (by simp)
  | some code =>
    have hmem : (s, code) ∈ tableEntries ht := (mem_tableEntries ht (s, code)).mpr
      ⟨hwf s code hs, hs⟩
    have hnd : ((tableEntries ht).map Prod.fst).Nodup := by
      unfold tableEntries
      rw [List.map_filterMap]
      have e : (fun x => Option.map Prod.fst (Option.map (fun code => (x, code)) (ht.codes x))) =
          fun x => if (ht.codes x).isSome then some x else none := by
        funext x
        cases ht.codes x <;> rfl
      rw [e]
      apply List.Nodup.filterMap _ (List.nodup_range _)
      intro a a' b hb hb'
      simp only [Option.mem_def] at hb hb'
      split at hb <;> split at hb' <;> simp_all
    rw [foldl_setCode_mem [] s code _ _ hnd hmem]
    rfl

/-- What `decrypt` does with an archive made of a header written by `encrypt` and any
payload: it parses the header, rebuilds the tree from the table and runs the decode loop on
the payload bytes. -/
theorem decrypt_header (inputFile : List Nat) (freq : Nat → Nat) (ht : HuffmanTree)
    (payload : List Nat) (hname : inputFile.length < 2 ^ 64) (hnul : ∀ c ∈ inputFile, c ≠ 0)
    (hwf : ∀ i code, ht.codes i = some code →
      i < 256 ∧ code.length < 256 ∧ ∀ c ∈ code, c ≠ 0) :
    decrypt (encryptHeader inputFile freq ht ++ payload) =
      match decodeLoop (buildHuffmanTreeFromCodes ht) payload
          (buildHuffmanTreeFromCodes ht, []) with
      | Except.error e => Except.error e
      | Except.ok st => Except.ok (inputFile, st.2) := by
  have hE : ∀ e ∈ tableEntries ht, e.1 < 256 ∧ e.2.length < 256 ∧ ∀ c ∈ e.2, c ≠ 0 := by
    intro e he
    exact hwf e.1 e.2 ((mem_tableEntries ht e).mp he).2
  have hcount : uniqueCount ht < 2 ^ 31 := by
    rw [uniqueCount_eq]
    have := List.length_filter_le (fun i => (ht.codes i).isSome) (List.range MAX_CHAR)
    rw [List.length_range] at this
    have h256 : MAX_CHAR = 256 := rfl
    omega
  rw [encryptHeader_eq]
  generalize hd : (leBytes 8 inputFile.length ++ (inputFile ++ (leBytes 4 (uniqueCount ht) ++
    (tableEntries ht).flatMap (fun e => writeEntry e.1 (freq e.1) e.2)))) ++ payload = in_data
  have r1 : readBytes in_data 0 8 = Except.ok (leBytes 8 inputFile.length) :=
    readBytes_at in_data [] (leBytes 8 inputFile.length)
      (inputFile ++ (leBytes 4 (uniqueCount ht) ++
        ((tableEntries ht).flatMap (fun e => writeEntry e.1 (freq e.1) e.2) ++ payload)))
      (by rw [← hd]; simp) _ _ rfl (by rw [length_leBytes])
  have v1 : leValue (leBytes 8 inputFile.length) = inputFile.length := by
    rw [leValue_leBytes]
    exact Nat.mod_eq_of_lt (by simpa using hname)
  have r2 : readBytes in_data 8 inputFile.length = Except.ok inputFile :=
    readBytes_at in_data (leBytes 8 inputFile.length) inputFile
      (leBytes 4 (uniqueCount ht) ++
        ((tableEntries ht).flatMap (fun e => writeEntry e.1 (freq e.1) e.2) ++ payload))
      (by rw [← hd]; simp) _ _ (by rw [length_leBytes]) rfl
  have r3 : readBytes in_data (8 + inputFile.length) 4 =
      Except.ok (leBytes 4 (uniqueCount ht)) :=
    readBytes_at in_data (leBytes 8 inputFile.length ++ inputFile) (leBytes 4 (uniqueCount ht))
      ((tableEntries ht).flatMap (fun e => writeEntry e.1 (freq e.1) e.2) ++ payload)
      (by rw [← hd]; simp) _ _ (by simp [length_leBytes]) (by rw [length_leBytes])
  have v3 : leValue (leBytes 4 (uniqueCount ht)) = (tableEntries ht).length := by
    rw [leValue_leBytes, ← uniqueCount_eq_length]
    exact Nat.mod_eq_of_lt (by
      have : (2 : Nat) ^ 31 < 256 ^ 4 := by decide
      omega)
  have r4 := readTable_entries freq (tableEntries ht)
    (leBytes 8 inputFile.length ++ inputFile ++ leBytes 4 (uniqueCount ht)) payload
    { codes := fun _ => none } hE
  have hd' : leBytes 8 inputFile.length ++ inputFile ++ leBytes 4 (uniqueCount ht) ++
      ((tableEntries ht).flatMap (fun e => writeEntry e.1 (freq e.1) e.2) ++ payload) =
      in_data := by
    rw [← hd]; simp
  rw [hd'] at r4
  have hoff : (leBytes 8 inputFile.length ++ inputFile ++ leBytes 4 (uniqueCount ht)).length =
      8 + inputFile.length + 4 := by
    simp [length_leBytes]; omega
  rw [hoff, foldl_setCode_tableEntries ht (fun i code h => (hwf i code h).1)] at r4
  have hdrop : in_data.drop (8 + inputFile.length + 4 +
      ((tableEntries ht).flatMap (fun e => writeEntry e.1 (freq e.1) e.2)).length) =
      payload := by
    rw [← hd]
    have : 8 + inputFile.length + 4 +
        ((tableEntries ht).flatMap (fun e => writeEntry e.1 (freq e.1) e.2)).length =
        (leBytes 8 inputFile.length ++ (inputFile ++ (leBytes 4 (uniqueCount ht) ++
          (tableEntries ht).flatMap (fun e => writeEntry e.1 (freq e.1) e.2)))).length := by
      simp [length_leBytes]; omega
    rw [this, List.drop_left]
  have hlt : (tableEntries ht).length < 2 ^ 31 := by
    rw [← uniqueCount_eq_length]; exact hcount
  have hpos : ¬ in_data.length = 0 := by
    have := readBytes_ok_length in_data 0 8 _ r1
    omega
  unfold decrypt
  simp only [hpos, if_false, r1, v1, r2, r3, v3, hlt, if_true, r4, hdrop,
    cstr_eq_self inputFile hnul]

/-! ## Round trip through `encrypt` and `decrypt` -/

/-- With at least two symbols of nonzero frequency the root of the built tree is an internal
node. -/
theorem buildHuffmanTree_inner (freq : Nat → Nat)
    (h2 : 2 ≤ ((List.range MAX_CHAR).filter (fun i => freq i > 0)).length) :
    ∃ ch f l r, buildHuffmanTree freq = HuffmanNode.node ch f l r ∧
      (l.isNull && r.isNull) = false := by
  have hlen : (leafCodes (buildHuffmanTree freq)).length =
      ((List.range MAX_CHAR).filter (fun i => freq i > 0)).length := by
    rw [← (leafSyms_buildHuffmanTree freq).length_eq]
    simp [leafSyms]
  generalize buildHuffmanTree freq = root at hlen
  cases root with
  | null =>
    simp only [leafCodes, List.length_nil] at hlen
    omega
  | node ch f l r =>
    refine ⟨ch, f, l, r, rfl, ?_⟩
    rw [leafCodes] at hlen
    by_cases c : (l.isNull && r.isNull) = true
    · simp only [c, if_true, List.length_singleton] at hlen
      omega
    · simpa using c

theorem filter_frequencies_eq (in_data : List Nat)
    (hw : ∀ b ∈ in_data, in_data.count b % 2 ^ 32 ≠ 0) :
    (List.range MAX_CHAR).filter (fun i => frequencies in_data i > 0) =
      (List.range MAX_CHAR).filter (fun s => decide (s ∈ in_data)) := by
  apply List.filter_congr
  intro s _
  exact decide_eq_decide.mpr (frequencies_pos_iff in_data hw s)

/-- Zero bits that stop short of the all-zero code leave the decoder inside the tree without
any output. -/
theorem decodeBits_padding (ch f : Nat) (l r : HuffmanNode)
    (hinner : (l.isNull && r.isNull) = false) (e : Nat × List Nat)
    (he : e ∈ leafCodes (HuffmanNode.node ch f l r)) (hz : ∀ c ∈ e.2, c = 48) (k : Nat)
    (hk : k < e.2.length) (out : List Nat) :
    ∃ cur, decodeBits (HuffmanNode.node ch f l r) (toBools (List.replicate k 0))
        (HuffmanNode.node ch f l r, out) = Except.ok (cur, out) := by
  have hbits : codeBits (e.2.take k) = List.replicate k 0 := by
    rw [List.eq_replicate_iff]
    refine ⟨?_, ?_⟩
    · simp only [codeBits, List.length_map, List.length_take]
      omega
    · intro b hb
      simp only [codeBits, List.mem_map] at hb
      obtain ⟨c, hc, rfl⟩ := hb
      rw [hz c (List.mem_of_mem_take hc)]
  rw [← hbits]
  exact decodeBits_partial _ _ ch f l r rfl hinner e he k out hk

/-- Round trip for inputs with at least two distinct byte values whose padding stops short of
the all-zero code: `encrypt` produces an archive and `decrypt` recovers from it the file
name and exactly the input bytes. -/
theorem round_trip_of_short_padding (inputFile in_data : List Nat)
    (hb : ∀ b ∈ in_data, b < 256)
    (hw : ∀ b ∈ in_data, in_data.count b % 2 ^ 32 ≠ 0)
    (h2 : 2 ≤ distinctBytes in_data)
    (hname : inputFile.length < 2 ^ 64) (hnul : ∀ c ∈ inputFile, c ≠ 0)
    (hpad : ∀ e ∈ tableEntries (codeTable (frequencies in_data)), (∀ c ∈ e.2, c = 48) →
      padBits (inputCodeChars (codeTable (frequencies in_data)) in_data).length <
        e.2.length) :
    ∃ archive, encrypt inputFile in_data = Except.ok archive ∧
      decrypt archive = Except.ok (inputFile, in_data) := by
  obtain ⟨_, hcov⟩ := coverage_of_input in_data hb hw
  refine ⟨_,
    encrypt_eq inputFile in_data (ne_nil_of_distinctBytes in_data (by omega)) hcov, ?_⟩
  have h2f : 2 ≤ ((List.range MAX_CHAR).filter
      (fun i => frequencies in_data i > 0)).length := by
    rw [filter_frequencies_eq in_data hw]
    exact h2
  generalize frequencies in_data = freq at hcov hpad h2f ⊢
  have hne : leavesOf freq (List.range MAX_CHAR) ≠ [] := by
    intro h
    have := congrArg List.length h
    simp only [leavesOf, List.length_map, List.length_nil] at this
    omega
  have hnd := nodup_leafSyms_buildHuffmanTree freq
  have hwf : ∀ i code, (codeTable freq).codes i = some code →
      i < 256 ∧ code.length < 256 ∧ ∀ c ∈ code, c ≠ 0 := by
    intro i code h
    refine ⟨((codeTable_isSome_iff_freq freq i).mp (by rw [h]; rfl)).1,
      Nat.lt_succ_of_le (codeTable_length_le freq i code h), ?_⟩
    intro c hc
    rcases codeTable_chars freq i code h c hc with rfl | rfl <;> decide
  have hbits : ∀ b ∈ codeBits (inputCodeChars (codeTable freq) in_data), b < 2 := by
    intro b hb
    simp only [codeBits, List.mem_map] at hb
    obtain ⟨c, hc, rfl⟩ := hb
    rcases inputCodeChars_chars freq in_data c hc with rfl | rfl <;> decide
  obtain ⟨ch, f, l, r, hroot, hinner⟩ := buildHuffmanTree_inner freq h2f
  have hR : stripFreq (buildHuffmanTree freq) =
      HuffmanNode.node ch 0 (stripFreq l) (stripFreq r) := by
    rw [hroot, stripFreq]
  have hinner' : ((stripFreq l).isNull && (stripFreq r).isNull) = false := by
    rw [isNull_stripFreq, isNull_stripFreq]
    exact hinner
  have hleaf : leafCodes (HuffmanNode.node ch 0 (stripFreq l) (stripFreq r)) =
      leafCodes (buildHuffmanTree freq) := by
    rw [← hR, leafCodes_stripFreq]
  have hx : ∀ x ∈ in_data, ∃ code, (codeTable freq).codes x = some code ∧
      (x, code) ∈ leafCodes (HuffmanNode.node ch 0 (stripFreq l) (stripFreq r)) := by
    intro x hxm
    obtain ⟨code, hcode⟩ := Option.isSome_iff_exists.mp (hcov x hxm)
    refine ⟨code, hcode, ?_⟩
    rw [hleaf]
    have hc := hcode
    rw [codeTable] at hc
    exact (generateCodes_codes_iff _ hnd x code).mp hc
  obtain ⟨e, he, hz⟩ := exists_zero_code _ (built_buildHuffmanTree freq hne)
  have hent : e ∈ tableEntries (codeTable freq) := by
    rw [mem_tableEntries]
    have hc : (codeTable freq).codes e.1 = some e.2 := by
      rw [codeTable]
      exact (generateCodes_codes_iff _ hnd e.1 e.2).mpr he
    exact ⟨(hwf e.1 e.2 hc).1, hc⟩
  have hk := hpad e hent hz
  rw [← hleaf] at he
  obtain ⟨cur, hcur⟩ := decodeBits_padding ch 0 (stripFreq l) (stripFreq r) hinner' e he hz _
    hk ([] ++ in_data)
  rw [decrypt_header inputFile freq (codeTable freq) _ hname hnul hwf,
    buildHuffmanTreeFromCodes_codeTable freq hne, hR, decodeLoop_eq,
    flatMap_byteBits_packBits _ _ rfl hbits, toBools_append,
    decodeBits_input (codeTable freq) ch 0 (stripFreq l) (stripFreq r) hinner' in_data hx]
  simp only [codeBits, List.length_map] at hcur ⊢
  rw [hcur]
  simp

/-- C1, amended: for every file name without a NUL byte and shorter than `2 ^ 64`, and every
input of byte values that has at least two distinct byte values, no byte value with a count
divisible by `2 ^ 32`, and fewer padding bits after the last code than the all-zero code has
characters (in particular when the code lengths of the input bytes sum to a multiple of 8),
`encrypt` produces an archive and `decrypt` of that archive yields the original file name and
exactly the original bytes. -/
theorem round_trip (inputFile in_data : List Nat)
    (hb : ∀ b ∈ in_data, b < 256)
    (hw : ∀ b ∈ in_data, in_data.count b % 2 ^ 32 ≠ 0)
    (h2 : 2 ≤ distinctBytes in_data)
    (hname : inputFile.length < 2 ^ 64) (hnul : ∀ c ∈ inputFile, c ≠ 0)
    (hpad : ∀ e ∈ tableEntries (codeTable (frequencies in_data)), (∀ c ∈ e.2, c = 48) →
      padBits (inputCodeChars (codeTable (frequencies in_data)) in_data).length <
        e.2.length) :
    ∃ archive, encrypt inputFile in_data = Except.ok archive ∧
      decrypt archive = Except.ok (inputFile, in_data) :=
  round_trip_of_short_padding inputFile in_data hb hw h2 hname hnul hpad

set_option maxRecDepth 100000 in
/-- The input `"AAABC"` in a file named `"a"`: the codes are `'A'` = `"1"`, `'B'` = `"00"`,
`'C'` = `"01"`, the payload has 7 code bits and one padding bit, which stops short of the
two-character all-zero code, and the archive decodes to `"AAABC"` under the name `"a"`. -/
theorem round_trip_witness :
    (∀ b ∈ inputAAABC, b < 256) ∧
      (∀ b ∈ inputAAABC, inputAAABC.count b % 2 ^ 32 ≠ 0) ∧
      2 ≤ distinctBytes inputAAABC ∧
      tableEntries (codeTable (frequencies inputAAABC)) =
        [(65, [49]), (66, [48, 48]), (67, [48, 49])] ∧
      padBits (inputCodeChars (codeTable (frequencies inputAAABC)) inputAAABC).length = 1 ∧
      ∃ archive, encrypt [97] inputAAABC = Except.ok archive ∧
        decrypt archive = Except.ok ([97], inputAAABC) :=
  ⟨by decide, by decide, by decide, by decide, by decide,
    round_trip [97] inputAAABC (by decide) (by decide) (by decide) (by decide) (by decide)
      (by decide)⟩

/-! ## Truncated archives -/

/-- The function `decrypt` is the check of the mapping, its header part and the decode
loop. -/
theorem decrypt_eq_readHeader (in_data : List Nat) :
    decrypt in_data =
      if in_data.length = 0 then Except.error Fault.mmapFailed
      else
        match readHeader in_data with
        | Except.error e => Except.error e
        | Except.ok (original_file, offset, ht) =>
          match decodeLoop (buildHuffmanTreeFromCodes ht) (in_data.drop offset)
              (buildHuffmanTreeFromCodes ht, []) with
          | Except.error e => Except.error e
          | Except.ok st => Except.ok (cstr original_file, st.2) := by
  unfold decrypt readHeader
  simp only []
  split
  · rfl
  · cases readBytes in_data 0 8 with
    | error e => rfl
    | ok name_len =>
      simp only []
      cases readBytes in_data 8 (leValue name_len) with
      | error e => rfl
      | ok original_file =>
        simp only []
        cases readBytes in_data (8 + leValue name_len) 4 with
        | error e => rfl
        | ok count =>
          simp only []
          cases readTable in_data (if leValue count < 2 ^ 31 then leValue count else 0)
              (8 + leValue name_len + 4) { codes := fun _ => none } with
          | error e => rfl
          | ok r => rfl

/-- A `memcpy` fails in the embedding exactly when its source range runs past the end of the
data. -/
theorem readBytes_error_iff (in_data : List Nat) (offset n : Nat) :
    readBytes in_data offset n = Except.error Fault.readPastEnd ↔
      in_data.length < offset + n := by
  unfold readBytes
  split
  · constructor
    · intro h; cases h
    · intro h; omega
  · constructor
    · intro _; omega
    · intro _; rfl

theorem readBytes_take_ok (a : List Nat) (n offset k : Nat) (h : offset + k ≤ n) :
    readBytes (a.take n) offset k = readBytes a offset k := by
  unfold readBytes
  by_cases c : offset + k ≤ a.length
  · rw [if_pos c, if_pos (by rw [List.length_take]; omega)]
    congr 1
    rw [List.drop_take, List.take_take]
    congr 1
    omega
  · rw [if_neg c, if_neg (by rw [List.length_take]; omega)]

theorem readBytes_take_error (a : List Nat) (n offset k : Nat) (h : n < offset + k) :
    readBytes (a.take n) offset k = Except.error Fault.readPastEnd := by
  rw [readBytes_error_iff, List.length_take]
  omega

/-- The table loop on a truncated archive: it faults as soon as an entry field crosses the
cut, and otherwise reads what it read from the whole archive. -/
theorem readTable_take (a : List Nat) (n : Nat) :
    ∀ (count offset : Nat) (ht : HuffmanTree) (offset' : Nat) (ht' : HuffmanTree),
      readTable a count offset ht = Except.ok (offset', ht') → offset ≤ n → n < offset' →
      readTable (a.take n) count offset ht = Except.error Fault.readPastEnd := by
  intro count
  induction count with
  | zero =>
    intro offset ht offset' ht' h hle hlt
    simp only [readTable, Except.ok.injEq, Prod.mk.injEq] at h
    omega
  | succ count ih =>
    intro offset ht offset' ht' h hle hlt
    simp only [readTable] at h ⊢
    cases h1 : readBytes a offset 1 with
    | error e => rw [h1] at h; cases h
    | ok ch =>
      rw [h1] at h
      simp only [] at h
      cases h2 : readBytes a (offset + 1) 4 with
      | error e => rw [h2] at h; cases h
      | ok fr =>
        rw [h2] at h
        simp only [] at h
        cases h3 : readBytes a (offset + 5) 1 with
        | error e => rw [h3] at h; cases h
        | ok len =>
          rw [h3] at h
          simp only [] at h
          cases h4 : readBytes a (offset + 6) (leValue len) with
          | error e => rw [h4] at h; cases h
          | ok code =>
            rw [h4] at h
            simp only [] at h
            by_cases c1 : offset + 1 ≤ n
            · rw [readBytes_take_ok a n offset 1 c1, h1]
              simp only []
              by_cases c2 : offset + 1 + 4 ≤ n
              · rw [readBytes_take_ok a n (offset + 1) 4 c2, h2]
                simp only []
                by_cases c3 : offset + 5 + 1 ≤ n
                · rw [readBytes_take_ok a n (offset + 5) 1 c3, h3]
                  simp only []
                  by_cases c4 : offset + 6 + leValue len ≤ n
                  · rw [readBytes_take_ok a n (offset + 6) (leValue len) c4, h4]
                    simp only []
                    exact ih _ _ offset' ht' h c4 hlt
                  · rw [readBytes_take_error a n (offset + 6) (leValue len) (by omega)]
                · rw [readBytes_take_error a n (offset + 5) 1 (by omega)]
              · rw [readBytes_take_error a n (offset + 1) 4 (by omega)]
            · rw [readBytes_take_error a n offset 1 (by omega)]

/-- Cutting an archive anywhere before the end of its header makes the header part of
`decrypt` run a `memcpy` past the end of the data. -/
theorem readHeader_take (a : List Nat) (n : Nat) (original_file : List Nat) (offset : Nat)
    (ht : HuffmanTree) (h : readHeader a = Except.ok (original_file, offset, ht))
    (hn : n < offset) : readHeader (a.take n) = Except.error Fault.readPastEnd := by
  unfold readHeader at h ⊢
  cases h1 : readBytes a 0 8 with
  | error e => rw [h1] at h; cases h
  | ok name_len =>
    rw [h1] at h
    simp only [] at h
    cases h2 : readBytes a 8 (leValue name_len) with
    | error e => rw [h2] at h; cases h
    | ok name =>
      rw [h2] at h
      simp only [] at h
      cases h3 : readBytes a (8 + leValue name_len) 4 with
      | error e => rw [h3] at h; cases h
      | ok count =>
        rw [h3] at h
        simp only [] at h
        cases h4 : readTable a (if leValue count < 2 ^ 31 then leValue count else 0)
            (8 + leValue name_len + 4) { codes := fun _ => none } with
        | error e => rw [h4] at h; cases h
        | ok r =>
          obtain ⟨off, t⟩ := r
          rw [h4] at h
          simp only [Except.ok.injEq, Prod.mk.injEq] at h
          obtain ⟨_, rfl, _⟩ := h
          by_cases c1 : 0 + 8 ≤ n
          · rw [readBytes_take_ok a n 0 8 c1, h1]
            simp only []
            by_cases c2 : 8 + leValue name_len ≤ n
            · rw [readBytes_take_ok a n 8 (leValue name_len) c2, h2]
              simp only []
              by_cases c3 : 8 + leValue name_len + 4 ≤ n
              · rw [readBytes_take_ok a n (8 + leValue name_len) 4 c3, h3]
                simp only []
                rw [readTable_take a n _ _ _ off t h4 c3 hn]
              · rw [readBytes_take_error a n (8 + leValue name_len) 4 (by omega)]
            · rw [readBytes_take_error a n 8 (leValue name_len) (by omega)]
          · rw [readBytes_take_error a n 0 8 (by omega)]

/-- Cutting a non-empty part off an archive before the end of its header makes the embedding
of `decrypt` end at a read past the end of the data. -/
theorem decrypt_take (a : List Nat) (n : Nat) (original_file : List Nat) (offset : Nat)
    (ht : HuffmanTree) (h : readHeader a = Except.ok (original_file, offset, ht))
    (h0 : 0 < n) (hn : n < offset) (hlen : n ≤ a.length) :
    decrypt (a.take n) = Except.error Fault.readPastEnd := by
  rw [decrypt_eq_readHeader, readHeader_take a n original_file offset ht h hn,
    if_neg (by rw [List.length_take]; omega)]

theorem readBytes_error_lt (a : List Nat) (offset k : Nat) (e : Fault)
    (h : readBytes a offset k = Except.error e) : a.length < offset + k := by
  unfold readBytes at h
  split at h
  · cases h
  · omega

theorem readTable_offset_le (a : List Nat) :
    ∀ (count offset : Nat) (ht : HuffmanTree) (offset' : Nat) (ht' : HuffmanTree),
      readTable a count offset ht = Except.ok (offset', ht') →
      offset ≤ offset' ∧ offset' ≤ max a.length offset := by
  intro count
  induction count with
  | zero =>
    intro offset ht offset' ht' h
    simp only [readTable, Except.ok.injEq, Prod.mk.injEq] at h
    omega
  | succ count ih =>
    intro offset ht offset' ht' h
    simp only [readTable] at h
    cases h1 : readBytes a offset 1 with
    | error e => rw [h1] at h; cases h
    | ok ch =>
      rw [h1] at h
      simp only [] at h
      cases h2 : readBytes a (offset + 1) 4 with
      | error e => rw [h2] at h; cases h
      | ok fr =>
        rw [h2] at h
        simp only [] at h
        cases h3 : readBytes a (offset + 5) 1 with
        | error e => rw [h3] at h; cases h
        | ok len =>
          rw [h3] at h
          simp only [] at h
          cases h4 : readBytes a (offset + 6) (leValue len) with
          | error e => rw [h4] at h; cases h
          | ok code =>
            rw [h4] at h
            simp only [] at h
            have := ih _ _ offset' ht' h
            have := readBytes_ok_length a _ _ _ h4
            omega

/-- The header of an archive that is read without a fault ends within the archive. -/
theorem headerEnd_le_length (a : List Nat) (offset : Nat) (h : headerEnd a = some offset) :
    offset ≤ a.length := by
  unfold headerEnd readHeader at h
  cases h1 : readBytes a 0 8 with
  | error e => rw [h1] at h; cases h
  | ok name_len =>
    rw [h1] at h
    simp only [] at h
    cases h2 : readBytes a 8 (leValue name_len) with
    | error e => rw [h2] at h; cases h
    | ok name =>
      rw [h2] at h
      simp only [] at h
      cases h3 : readBytes a (8 + leValue name_len) 4 with
      | error e => rw [h3] at h; cases h
      | ok count =>
        rw [h3] at h
        simp only [] at h
        cases h4 : readTable a (if leValue count < 2 ^ 31 then leValue count else 0)
            (8 + leValue name_len + 4) { codes := fun _ => none } with
        | error e => rw [h4] at h; cases h
        | ok r =>
          obtain ⟨off, t⟩ := r
          rw [h4] at h
          simp only [Option.some.injEq] at h
          subst h
          have := (readTable_offset_le a _ _ _ off t h4).2
          have := readBytes_ok_length a _ _ _ h3
          omega

/-- The table loop on a truncated archive: the last `memcpy` that is determined by the data
starts within the data and ends beyond it, and all those before it lie within the data. -/
theorem tableReads_take (a : List Nat) (n : Nat) :
    ∀ (count offset : Nat) (ht : HuffmanTree) (offset' : Nat) (ht' : HuffmanTree),
      readTable a count offset ht = Except.ok (offset', ht') → offset ≤ n → n < offset' →
      ∃ pre o k, tableReads (a.take n) count offset = pre ++ [(o, k)] ∧
        (∀ r ∈ pre, r.1 + r.2 ≤ n) ∧ o ≤ n ∧ n < o + k := by
  intro count
  induction count with
  | zero =>
    intro offset ht offset' ht' h hle hlt
    simp only [readTable, Except.ok.injEq, Prod.mk.injEq] at h
    omega
  | succ count ih =>
    intro offset ht offset' ht' h hle hlt
    simp only [readTable] at h
    simp only [tableReads]
    cases h1 : readBytes a offset 1 with
    | error e => rw [h1] at h; cases h
    | ok ch =>
      rw [h1] at h
      simp only [] at h
      cases h2 : readBytes a (offset + 1) 4 with
      | error e => rw [h2] at h; cases h
      | ok fr =>
        rw [h2] at h
        simp only [] at h
        cases h3 : readBytes a (offset + 5) 1 with
        | error e => rw [h3] at h; cases h
        | ok len =>
          rw [h3] at h
          simp only [] at h
          cases h4 : readBytes a (offset + 6) (leValue len) with
          | error e => rw [h4] at h; cases h
          | ok code =>
            rw [h4] at h
            simp only [] at h
            by_cases c1 : offset + 1 ≤ n
            · rw [readBytes_take_ok a n offset 1 c1, h1]
              simp only []
              by_cases c2 : offset + 1 + 4 ≤ n
              · rw [readBytes_take_ok a n (offset + 1) 4 c2, h2]
                simp only []
                by_cases c3 : offset + 5 + 1 ≤ n
                · rw [readBytes_take_ok a n (offset + 5) 1 c3, h3]
                  simp only []
                  by_cases c4 : offset + 6 + leValue len ≤ n
                  · rw [readBytes_take_ok a n (offset + 6) (leValue len) c4, h4]
                    simp only []
                    obtain ⟨pre, o, k, e, hpre, ho, hk⟩ := ih _ _ offset' ht' h c4 hlt
                    refine ⟨(offset, 1) :: (offset + 1, 4) :: (offset + 5, 1) ::
                      (offset + 6, leValue len) :: pre, o, k, by rw [e]; rfl, ?_, ho, hk⟩
                    intro r hr
                    simp only [List.mem_cons] at hr
                    rcases hr with rfl | rfl | rfl | rfl | hr
                    · exact c1
                    · exact c2
                    · exact c3
                    · exact c4
                    · exact hpre r hr
                  · rw [readBytes_take_error a n (offset + 6) (leValue len) (by omega)]
                    refine ⟨[(offset, 1), (offset + 1, 4), (offset + 5, 1)], offset + 6,
                      leValue len, rfl, ?_, by omega, by omega⟩
                    intro r hr
                    simp only [List.mem_cons, List.mem_singleton, List.not_mem_nil,
                      or_false] at hr
                    rcases hr with rfl | rfl | rfl
                    · exact c1
                    · exact c2
                    · exact c3
                · rw [readBytes_take_error a n (offset + 5) 1 (by omega)]
                  refine ⟨[(offset, 1), (offset + 1, 4)], offset + 5, 1, rfl, ?_, by omega,
                    by omega⟩
                  intro r hr
                  simp only [List.mem_cons, List.mem_singleton, List.not_mem_nil,
                    or_false] at hr
                  rcases hr with rfl | rfl
                  · exact c1
                  · exact c2
              · rw [readBytes_take_error a n (offset + 1) 4 (by omega)]
                refine ⟨[(offset, 1)], offset + 1, 4, rfl, ?_, by omega, by omega⟩
                intro r hr
                simp only [List.mem_singleton] at hr
                subst hr
                exact c1
            · rw [readBytes_take_error a n offset 1 (by omega)]
              exact ⟨[], offset, 1, rfl, by simp, hle, by omega⟩

/-- The reads of `decrypt` on an archive cut inside its header: the last `memcpy` that is
determined by the data starts at or before the cut and ends beyond it, after reads that all
lie before the cut. -/
theorem headerReads_take (a : List Nat) (offset n : Nat) (h : headerEnd a = some offset)
    (h0 : 0 < n) (hn : n < offset) :
    ∃ pre o k, headerReads (a.take n) = pre ++ [(o, k)] ∧
      (∀ r ∈ pre, r.1 + r.2 ≤ n) ∧ o ≤ n ∧ n < o + k := by
  have hlen := headerEnd_le_length a offset h
  unfold headerEnd readHeader at h
  unfold headerReads
  simp only []
  rw [if_neg (by rw [List.length_take]; omega)]
  cases h1 : readBytes a 0 8 with
  | error e => rw [h1] at h; cases h
  | ok name_len =>
    rw [h1] at h
    simp only [] at h
    cases h2 : readBytes a 8 (leValue name_len) with
    | error e => rw [h2] at h; cases h
    | ok name =>
      rw [h2] at h
      simp only [] at h
      cases h3 : readBytes a (8 + leValue name_len) 4 with
      | error e => rw [h3] at h; cases h
      | ok count =>
        rw [h3] at h
        simp only [] at h
        cases h4 : readTable a (if leValue count < 2 ^ 31 then leValue count else 0)
            (8 + leValue name_len + 4) { codes := fun _ => none } with
        | error e => rw [h4] at h; cases h
        | ok r =>
          obtain ⟨off, t⟩ := r
          rw [h4] at h
          simp only [Option.some.injEq] at h
          subst h
          by_cases c1 : 0 + 8 ≤ n
          · rw [readBytes_take_ok a n 0 8 c1, h1]
            simp only []
            by_cases c2 : 8 + leValue name_len ≤ n
            · rw [readBytes_take_ok a n 8 (leValue name_len) c2, h2]
              simp only []
              by_cases c3 : 8 + leValue name_len + 4 ≤ n
              · rw [readBytes_take_ok a n (8 + leValue name_len) 4 c3, h3]
                simp only []
                obtain ⟨pre, o, k, e, hpre, ho, hk⟩ := tableReads_take a n _ _ _ off t h4 c3 hn
                refine ⟨(0, 8) :: (8, leValue name_len) :: (8 + leValue name_len, 4) :: pre,
                  o, k, by rw [e]; rfl, ?_, ho, hk⟩
                intro r hr
                simp only [List.mem_cons] at hr
                rcases hr with rfl | rfl | rfl | hr
                · exact c1
                · exact c2
                · exact c3
                · exact hpre r hr
              · rw [readBytes_take_error a n (8 + leValue name_len) 4 (by omega)]
                refine ⟨[(0, 8), (8, leValue name_len)], 8 + leValue name_len, 4, rfl, ?_,
                  by omega, by omega⟩
                intro r hr
                simp only [List.mem_cons, List.mem_singleton, List.not_mem_nil,
                  or_false] at hr
                rcases hr with rfl | rfl
                · exact c1
                · exact c2
            · rw [readBytes_take_error a n 8 (leValue name_len) (by omega)]
              refine ⟨[(0, 8)], 8, leValue name_len, rfl, ?_, by omega, by omega⟩
              intro r hr
              simp only [List.mem_singleton] at hr
              subst hr
              exact c1
          · rw [readBytes_take_error a n 0 8 (by omega)]
            exact ⟨[], 0, 8, rfl, by simp, by omega, by omega⟩

theorem readBytes_of_le (a : List Nat) (offset k : Nat) (h : offset + k ≤ a.length) :
    readBytes a offset k = Except.ok ((a.drop offset).take k) := by
  unfold readBytes
  rw [if_pos h]

/-- The table loop reads its entries without a fault exactly when every listed `memcpy` range
lies within the data. -/
theorem readTable_ok_iff (a : List Nat) :
    ∀ (count offset : Nat) (ht : HuffmanTree),
      (∃ r, readTable a count offset ht = Except.ok r) ↔
        ∀ r ∈ tableReads a count offset, r.1 + r.2 ≤ a.length := by
  intro count
  induction count with
  | zero =>
    intro offset ht
    simp [readTable, tableReads]
  | succ count ih =>
    intro offset ht
    simp only [readTable, tableReads]
    by_cases c1 : offset + 1 ≤ a.length
    · rw [readBytes_of_le a offset 1 c1]
      simp only []
      by_cases c2 : offset + 1 + 4 ≤ a.length
      · rw [readBytes_of_le a (offset + 1) 4 c2]
        simp only []
        by_cases c3 : offset + 5 + 1 ≤ a.length
        · rw [readBytes_of_le a (offset + 5) 1 c3]
          simp only []
          by_cases c4 : offset + 6 + leValue ((a.drop (offset + 5)).take 1) ≤ a.length
          · rw [readBytes_of_le a (offset + 6) _ c4]
            simp only []
            rw [ih]
            constructor
            · intro hall r hr
              simp only [List.mem_cons] at hr
              rcases hr with rfl | rfl | rfl | rfl | hr
              · exact c1
              · exact c2
              · exact c3
              · exact c4
              · exact hall r hr
            · intro hall r hr
              exact hall r (List.mem_cons_of_mem _ (List.mem_cons_of_mem _
                (List.mem_cons_of_mem _ (List.mem_cons_of_mem _ hr))))
          · have e := (readBytes_error_iff a (offset + 6)
              (leValue ((a.drop (offset + 5)).take 1))).mpr (by omega)
            rw [e]
            simp only []
            constructor
            · rintro ⟨r, hr⟩
              cases hr
            · intro hall
              exact absurd (hall (offset + 6, leValue ((a.drop (offset + 5)).take 1))
                (by simp)) c4
        · rw [(readBytes_error_iff a (offset + 5) 1).mpr (by omega)]
          simp only []
          constructor
          · rintro ⟨r, hr⟩
            cases hr
          · intro hall
            exact absurd (hall (offset + 5, 1) (by simp)) c3
      · rw [(readBytes_error_iff a (offset + 1) 4).mpr (by omega)]
        simp only []
        constructor
        · rintro ⟨r, hr⟩
          cases hr
        · intro hall
          exact absurd (hall (offset + 1, 4) (by simp)) c2
    · rw [(readBytes_error_iff a offset 1).mpr (by omega)]
      simp only []
      constructor
      · rintro ⟨r, hr⟩
        cases hr
      · intro hall
        exact absurd (hall (offset, 1) (by simp)) c1

/-- The embedding of `decrypt` reads the header of a non-empty archive without a fault
exactly when every `memcpy` range listed by `headerReads` lies within the data. -/
theorem readHeader_ok_iff (a : List Nat) (hne : a.length ≠ 0) :
    (∃ r, readHeader a = Except.ok r) ↔ ∀ r ∈ headerReads a, r.1 + r.2 ≤ a.length := by
  unfold readHeader headerReads
  simp only []
  rw [if_neg hne]
  by_cases c1 : 0 + 8 ≤ a.length
  · rw [readBytes_of_le a 0 8 c1]
    simp only []
    by_cases c2 : 8 + leValue ((a.drop 0).take 8) ≤ a.length
    · rw [readBytes_of_le a 8 _ c2]
      simp only []
      by_cases c3 : 8 + leValue ((a.drop 0).take 8) + 4 ≤ a.length
      · rw [readBytes_of_le a (8 + leValue ((a.drop 0).take 8)) 4 c3]
        simp only []
        have key := readTable_ok_iff a
          (if leValue ((a.drop (8 + leValue ((a.drop 0).take 8))).take 4) < 2 ^ 31 then
            leValue ((a.drop (8 + leValue ((a.drop 0).take 8))).take 4) else 0)
          (8 + leValue ((a.drop 0).take 8) + 4) { codes := fun _ => none }
        constructor
        · rintro ⟨r, hr⟩ x hx
          simp only [List.mem_cons] at hx
          rcases hx with rfl | rfl | rfl | hx
          · exact c1
          · exact c2
          · exact c3
          · refine key.mp ?_ x hx
            cases ht : readTable a
                (if leValue ((a.drop (8 + leValue ((a.drop 0).take 8))).take 4) < 2 ^ 31 then
                  leValue ((a.drop (8 + leValue ((a.drop 0).take 8))).take 4) else 0)
                (8 + leValue ((a.drop 0).take 8) + 4) { codes := fun _ => none } with
            | error e => rw [ht] at hr; cases hr
            | ok v => exact ⟨v, rfl⟩
        · intro hall
          obtain ⟨v, hv⟩ := key.mpr (fun x hx => hall x
            (List.mem_cons_of_mem _ (List.mem_cons_of_mem _ (List.mem_cons_of_mem _ hx))))
          rw [hv]
          exact ⟨_, rfl⟩
      · rw [(readBytes_error_iff a (8 + leValue ((a.drop 0).take 8)) 4).mpr (by omega)]
        simp only []
        constructor
        · rintro ⟨r, hr⟩
          cases hr
        · intro hall
          exact absurd (hall (8 + leValue ((a.drop 0).take 8), 4) (by simp)) c3
    · rw [(readBytes_error_iff a 8 (leValue ((a.drop 0).take 8))).mpr (by omega)]
      simp only []
      constructor
      · rintro ⟨r, hr⟩
        cases hr
      · intro hall
        exact absurd (hall (8, leValue ((a.drop 0).take 8)) (by simp)) c2
  · rw [(readBytes_error_iff a 0 8).mpr (by omega)]
    simp only []
    constructor
    · rintro ⟨r, hr⟩
      cases hr
    · intro hall
      exact absurd (hall (0, 8) (by simp)) c1

/-- The reads of `decrypt` around a cut of an archive inside its header. -/
theorem truncation_reads (a : List Nat) (offset n : Nat) (h : headerEnd a = some offset)
    (hn : n < offset) :
    (a.take n).length = n ∧
      (n = 0 →
        decrypt (a.take n) = Except.error Fault.mmapFailed ∧ headerReads (a.take n) = []) ∧
      (0 < n →
        ∃ pre o k, headerReads (a.take n) = pre ++ [(o, k)] ∧
          (∀ r ∈ pre, r.1 + r.2 ≤ n) ∧ o ≤ n ∧ n < o + k) := by
  have hlen := headerEnd_le_length a offset h
  refine ⟨by rw [List.length_take]; omega, ?_, fun h0 => headerReads_take a offset n h h0 hn⟩
  intro h0
  subst h0
  exact ⟨rfl, rfl⟩

set_option maxRecDepth 100000 in
/-- C11, counterexample: the archive of `"AAB"` cut to its first 20 bytes ends inside the
table, after the entry of `'A'`.  It is not empty, so it is mapped, and `decrypt` executes
eight `memcpy` calls without any test; the eighth, for the symbol byte of the second entry,
copies one byte from offset 20, which is the length of the archive. -/
theorem truncated_archive_is_read_past_end :
    archiveAAB.take 20 =
        [1, 0, 0, 0, 0, 0, 0, 0, 97, 2, 0, 0, 0, 65, 2, 0, 0, 0, 1, 49] ∧
      (archiveAAB.take 20).length = 20 ∧
      headerReads (archiveAAB.take 20) =
        [(0, 8), (8, 1), (9, 4), (13, 1), (14, 4), (18, 1), (19, 1), (20, 1)] ∧
      (archiveAAB.take 20).length < 20 + 1 := by
  refine ⟨?_, ?_, ?_, ?_⟩ <;> decide

/-- C11, amended: `decrypt` has no bounds check on the header fields and does not report a
truncation.  For every archive whose header it reads completely within the data, up to the
payload offset `offset`, and every cut `0 < n < offset`: on the first `n` bytes `decrypt`
executes, after `memcpy` calls whose source ranges all lie within the `n` bytes, a `memcpy`
whose source range starts at or before offset `n` and ends beyond it, so it reads at offset
`n`, the length of the archive, with no test before it.  Only for the cut `n = 0` is an error
reported without any read: `mmap` fails on the empty archive. -/
theorem truncated_header_reads_past_end (a : List Nat) (offset n : Nat)
    (h : headerEnd a = some offset) (hn : n < offset) :
    (a.take n).length = n ∧
      (n = 0 →
        decrypt (a.take n) = Except.error Fault.mmapFailed ∧ headerReads (a.take n) = []) ∧
      (0 < n →
        ∃ pre o k, headerReads (a.take n) = pre ++ [(o, k)] ∧
          (∀ r ∈ pre, r.1 + r.2 ≤ n) ∧ o ≤ n ∧ n < o + k) :=
  truncation_reads a offset n h hn

set_option maxRecDepth 100000 in
/-- The archive of `"AAB"` has its payload at offset 27.  Cut after 10 bytes, inside the
entry count, it makes `decrypt` copy the 4 bytes of the count from offset 9, one byte within
the archive and three beyond it. -/
theorem truncated_header_reads_past_end_witness :
    encrypt [97] inputAAB = Except.ok archiveAAB ∧
      headerEnd archiveAAB = some 27 ∧ 10 < 27 ∧
      headerReads (archiveAAB.take 10) = [(0, 8), (8, 1)] ++ [(9, 4)] ∧
      ∃ pre o k, headerReads (archiveAAB.take 10) = pre ++ [(o, k)] ∧
        (∀ r ∈ pre, r.1 + r.2 ≤ 10) ∧ o ≤ 10 ∧ 10 < o + k :=
  ⟨rfl, by decide, by decide, by decide,
    (truncated_header_reads_past_end archiveAAB 27 10 (by decide) (by decide)).2.2
      (by decide)⟩

/-! ## Partitioned counting -/

theorem foldl_foldl_eq_flatMap {α β γ : Type} (step : γ → β → γ) (g : α → List β) (l : List α) :
    ∀ init : γ, l.foldl (fun acc i => (g i).foldl step acc) init = (l.flatMap g).foldl step init := by
  induction l with
  | nil => intro init; rfl
  | cons a l ih =>
    intro init
    rw [List.foldl_cons, ih, List.flatMap_cons, List.foldl_append]

theorem flatMap_visited_prefix (n t : Nat) :
    ∀ m, m ≤ t - 1 →
      (List.range m).flatMap (fun i => visited (workerRange n t i)) =
        List.range' 0 (m * (n / t)) := by
  intro m
  induction m with
  | zero => intro _; simp
  | succ m ih =>
    intro hm
    rw [List.range_succ, List.flatMap_append, ih (by omega)]
    have hne : m ≠ t - 1 := by omega
    simp only [List.flatMap_cons, List.flatMap_nil, List.append_nil, visited, workerRange, hne,
      if_false]
    have e : (m + 1) * (n / t) - m * (n / t) = n / t := by
      rw [Nat.succ_mul, Nat.add_sub_cancel_left]
    rw [e]
    have := List.range'_append_1 0 (m * (n / t)) (n / t)
    rw [Nat.zero_add] at this
    rw [this]
    congr 1
    rw [Nat.succ_mul, Nat.add_comm]

/-- The ranges of the workers, visited one worker after the other, are the indices
`0, 1, ..., n - 1`, each exactly once and in order. -/
theorem flatMap_visited (n t : Nat) (ht : 1 ≤ t) :
    (List.range t).flatMap (fun i => visited (workerRange n t i)) = List.range n := by
  obtain ⟨m, rfl⟩ : ∃ m, t = m + 1 := ⟨t - 1, by omega⟩
  rw [List.range_succ, List.flatMap_append, flatMap_visited_prefix n (m + 1) m (by omega)]
  simp only [List.flatMap_cons, List.flatMap_nil, List.append_nil, visited, workerRange,
    Nat.add_sub_cancel, if_true]
  have hle : m * (n / (m + 1)) ≤ n := by
    have := Nat.div_mul_le_self n (m + 1)
    generalize n / (m + 1) = c at this ⊢
    rw [Nat.mul_succ] at this
    rw [Nat.mul_comm]
    omega
  have := List.range'_append_1 0 (m * (n / (m + 1))) (n - m * (n / (m + 1)))
  rw [Nat.zero_add] at this
  rw [this, List.range_eq_range']
  congr 1
  omega

theorem frequenciesWith_eq (t : Nat) (in_data : List Nat) :
    frequenciesWith t in_data =
      ((List.range t).flatMap (fun i => visited (workerRange in_data.length t i))).foldl
        (fun freq i => fun k => if k = in_data.getD i 0 then (freq k + 1) % 2 ^ 32 else freq k)
        (fun _ => 0) := by
  rw [← foldl_foldl_eq_flatMap]
  rfl

/-- Counting with any number of workers gives the table of one sequential pass. -/
theorem frequenciesWith_eq_sequential (t : Nat) (ht : 1 ≤ t) (in_data : List Nat) :
    frequenciesWith t in_data = countFrequency in_data 0 in_data.length (fun _ => 0) := by
  rw [frequenciesWith_eq, flatMap_visited _ _ ht, List.range_eq_range']
  rfl

/-- C12: for every number of workers `t >= 1` (4 in `encrypt`) and every input, the ranges
handed to the workers start at 0, end at the input length, each begins where the previous one
ends, and visited one after the other they are the indices `0 .. n - 1` each exactly once; the
table counted by the workers is the table of a single sequential pass of `countFrequency`
over the whole input. -/
theorem partitioned_counting (t : Nat) (ht : 1 ≤ t) (in_data : List Nat) :
    frequencies in_data = frequenciesWith 4 in_data ∧
      (workerRange in_data.length t 0).1 = 0 ∧
      (workerRange in_data.length t (t - 1)).2 = in_data.length ∧
      (∀ i, i < t → (workerRange in_data.length t i).1 ≤ (workerRange in_data.length t i).2) ∧
      (∀ i, i + 1 < t →
        (workerRange in_data.length t i).2 = (workerRange in_data.length t (i + 1)).1) ∧
      (List.range t).flatMap (fun i => visited (workerRange in_data.length t i)) =
        List.range in_data.length ∧
      frequenciesWith t in_data = countFrequency in_data 0 in_data.length (fun _ => 0) := by
  refine ⟨rfl, by simp [workerRange], by simp [workerRange], ?_, ?_,
    flatMap_visited _ _ ht, frequenciesWith_eq_sequential t ht in_data⟩
  · intro i hi
    simp only [workerRange]
    split
    · rename_i e
      subst e
      have := Nat.div_mul_le_self in_data.length t
      have e2 : (t - 1) * (in_data.length / t) ≤ t * (in_data.length / t) :=
        Nat.mul_le_mul_right _ (by omega)
      rw [Nat.mul_comm] at this
      exact Nat.le_trans e2 this
    · exact Nat.mul_le_mul_right _ (Nat.le_succ i)
  · intro i hi
    simp only [workerRange]
    rw [if_neg (by omega)]

set_option maxRecDepth 100000 in
/-- Ten input bytes and 4 workers: the ranges are `[0,2)`, `[2,4)`, `[4,6)`, `[6,10)`. -/
theorem partitioned_counting_witness :
    (List.range 4).map (workerRange 10 4) = [(0, 2), (2, 4), (4, 6), (6, 10)] ∧
      frequenciesWith 4 [65, 66, 65, 67, 65, 66, 65, 67, 65, 65] =
        countFrequency [65, 66, 65, 67, 65, 66, 65, 67, 65, 65] 0 10 (fun _ => 0) :=
  ⟨by decide,
    (partitioned_counting 4 (by decide) [65, 66, 65, 67, 65, 66, 65, 67, 65, 65]).2.2.2.2.2.2⟩

/-! ## Heap order of the queue operations -/

theorem extractMin_empty (q : PriorityQueue) (h : q.size = 0) :
    extractMin q = (HuffmanNode.null, q) := by
  unfold extractMin
  rw [if_pos (by omega)]

/-- Heap order is kept by `insertQueue` and `extractMin`, and `extractMin` splits a non-empty
heap-ordered queue into a minimum and the rest. -/
theorem queue_heapOrdered (q : PriorityQueue) (x : HuffmanNode) (h : HeapOrdered q.data) :
    (q.size < q.capacity →
        HeapOrdered (insertQueue q x).data ∧ (insertQueue q x).data.Perm (x :: q.data)) ∧
      HeapOrdered (extractMin q).2.data ∧
      (0 < q.size →
        (extractMin q).1 ∈ q.data ∧
          (∀ y ∈ (extractMin q).2.data, (extractMin q).1.freq ≤ y.freq) ∧
          q.data.Perm ((extractMin q).1 :: (extractMin q).2.data)) := by
  refine ⟨fun hc => ⟨insertQueue_heapOrdered q x h, insertQueue_perm q x (by omega)⟩, ?_, ?_⟩
  · by_cases h0 : 0 < q.size
    · exact ((extractMin_spec q h0).2.2 h).1
    · rw [extractMin_empty q (by omega)]
      exact h
  · intro h0
    obtain ⟨hmem, hperm, hrest⟩ := extractMin_spec q h0
    refine ⟨hmem, ?_, hperm⟩
    intro y hy
    exact (hrest h).2 y (hperm.mem_iff.mpr (List.mem_cons_of_mem _ hy))

/-- C13: if every slot of the queue weighs at least as much as its parent slot `(i - 1) / 2`,
then the same holds after `insertQueue` on a queue below capacity (which adds exactly the new
node) and after `extractMin`; on a non-empty queue `extractMin` returns a node of the queue
whose weight is at most the weight of every node left, and the nodes left are the previous
ones minus the returned one. -/
theorem heap_order_invariant (q : PriorityQueue) (x : HuffmanNode) (h : HeapOrdered q.data) :
    (q.size < q.capacity →
        HeapOrdered (insertQueue q x).data ∧ (insertQueue q x).data.Perm (x :: q.data)) ∧
      HeapOrdered (extractMin q).2.data ∧
      (0 < q.size →
        (extractMin q).1 ∈ q.data ∧
          (∀ y ∈ (extractMin q).2.data, (extractMin q).1.freq ≤ y.freq) ∧
          q.data.Perm ((extractMin q).1 :: (extractMin q).2.data)) :=
  queue_heapOrdered q x h

set_option maxRecDepth 100000 in
/-- The queue built from the table `'A'` 2, `'B'` 1, `'C'` 1 holds `'B'`, `'A'`, `'C'` in heap
order; inserting a node of weight 0 moves it to the root, and `extractMin` returns `'B'` and
leaves `'C'`, `'A'`. -/
theorem heap_order_invariant_witness :
    HeapOrdered (initialQueue sampleFreq).data ∧
      (initialQueue sampleFreq).data = [createNode 66 1, createNode 65 2, createNode 67 1] ∧
      (initialQueue sampleFreq).size < (initialQueue sampleFreq).capacity ∧
      (insertQueue (initialQueue sampleFreq) (createNode 68 0)).data =
        [createNode 68 0, createNode 66 1, createNode 67 1, createNode 65 2] ∧
      HeapOrdered (insertQueue (initialQueue sampleFreq) (createNode 68 0)).data ∧
      (extractMin (initialQueue sampleFreq)).1 = createNode 66 1 ∧
      (extractMin (initialQueue sampleFreq)).2.data = [createNode 67 1, createNode 65 2] ∧
      HeapOrdered (extractMin (initialQueue sampleFreq)).2.data :=
  ⟨(initialQueue_spec sampleFreq).2.2.2, by decide, by decide, by decide,
    ((heap_order_invariant (initialQueue sampleFreq) (createNode 68 0)
      (initialQueue_spec sampleFreq).2.2.2).1 (by decide)).1,
    by decide, by decide,
    (heap_order_invariant (initialQueue sampleFreq) (createNode 68 0)
      (initialQueue_spec sampleFreq).2.2.2).2.1⟩

/-! ## Ties between equal weights -/

theorem slot_append_last (d : List HuffmanNode) (x : HuffmanNode) :
    (d ++ [x]).getD d.length HuffmanNode.null = x := by
  simp [List.getD_eq_getElem?_getD]

theorem slot_append_left (d : List HuffmanNode) (x : HuffmanNode) (j : Nat) (hj : j < d.length) :
    (d ++ [x]).getD j HuffmanNode.null = d.getD j HuffmanNode.null := by
  simp [List.getD_eq_getElem?_getD, List.getElem?_append_left hj]

/-- A new node that is not lighter than the node in its parent slot stays in the last slot. -/
theorem insertQueue_of_parent_le (q : PriorityQueue) (x : HuffmanNode)
    (hc : q.size ≠ q.capacity)
    (hp : q.size = 0 ∨ (q.slot ((q.size - 1) / 2)).freq ≤ x.freq) :
    insertQueue q x = { q with data := q.data ++ [x] } := by
  unfold insertQueue
  rw [if_neg hc]
  simp only [PriorityQueue.size, List.length_append, List.length_singleton,
    Nat.add_sub_cancel, insertQueueLoop, PriorityQueue.slot]
  rw [if_neg]
  rintro ⟨h0, hgt⟩
  rw [slot_append_last] at hgt
  rcases hp with hp | hp
  · exact h0 hp
  · have hlt : (q.data.length - 1) / 2 < q.data.length := by omega
    rw [slot_append_left _ _ _ hlt] at hgt
    simp only [PriorityQueue.size, PriorityQueue.slot] at hp
    omega

/-- A node that is not heavier than its children stays where it is in `heapify`. -/
theorem heapify_of_le_children (q : PriorityQueue) (i : Nat)
    (hl : 2 * i + 1 < q.size → (q.slot i).freq ≤ (q.slot (2 * i + 1)).freq)
    (hr : 2 * i + 2 < q.size → (q.slot i).freq ≤ (q.slot (2 * i + 2)).freq) :
    heapify q i = q := by
  unfold heapify
  cases hs : q.size with
  | zero => rfl
  | succ n =>
    simp only [heapifyAux]
    rw [hs] at hl hr
    have c1 : ¬ (2 * i + 1 < n + 1 ∧ (q.slot (2 * i + 1)).freq < (q.slot i).freq) := by
      rintro ⟨a, b⟩
      have := hl a
      omega
    rw [hs, if_neg c1]
    have c2 : ¬ (2 * i + 2 < n + 1 ∧ (q.slot (2 * i + 2)).freq < (q.slot i).freq) := by
      rintro ⟨a, b⟩
      have := hr a
      omega
    rw [if_neg c2]
    simp

/-- The sift-up loop started at slot `i` leaves every slot above `i` untouched. -/
theorem insertQueueLoop_slot_gt (fuel : Nat) :
    ∀ (q : PriorityQueue) (i j : Nat), i < q.size → i < j →
      (insertQueueLoop fuel q i).slot j = q.slot j := by
  induction fuel with
  | zero => intro q i j _ _; rfl
  | succ fuel ih =>
    intro q i j hi hij
    simp only [insertQueueLoop]
    split
    · rename_i hc
      rw [ih _ _ _ (by rw [swapNodes_size]; omega) (by omega)]
      simp only [PriorityQueue.size] at hi
      simp only [PriorityQueue.slot, swapNodes_data]
      rw [getD_swapSlots _ _ _ _ hi (by omega), if_neg (by omega), if_neg (by omega)]
    · rfl

/-- The recursion of `heapify` started at slot `i` leaves every slot below `i` untouched. -/
theorem heapifyAux_slot_lt (fuel : Nat) :
    ∀ (q : PriorityQueue) (i j : Nat), j < i → (heapifyAux fuel q i).slot j = q.slot j := by
  induction fuel with
  | zero => intro q i j _; rfl
  | succ fuel ih =>
    intro q i j hji
    simp only [heapifyAux]
    have hswap : ∀ s, s < q.size → i < s →
        (heapifyAux fuel (swapNodes q s i) s).slot j = q.slot j := by
      intro s hs his
      rw [ih _ _ _ (by omega)]
      simp only [PriorityQueue.size] at hs
      simp only [PriorityQueue.slot, swapNodes_data]
      rw [getD_swapSlots _ _ _ _ hs (by omega), if_neg (by omega), if_neg (by omega)]
    by_cases c1 : 2 * i + 1 < q.size ∧ (q.slot (2 * i + 1)).freq < (q.slot i).freq
    · rw [if_pos c1]
      by_cases c2 : 2 * i + 2 < q.size ∧ (q.slot (2 * i + 2)).freq < (q.slot (2 * i + 1)).freq
      · rw [if_pos c2, if_pos (by omega)]
        exact hswap _ c2.1 (by omega)
      · rw [if_neg c2, if_pos (by omega)]
        exact hswap _ c1.1 (by omega)
    · rw [if_neg c1]
      by_cases c2 : 2 * i + 2 < q.size ∧ (q.slot (2 * i + 2)).freq < (q.slot i).freq
      · rw [if_pos c2, if_pos (by omega)]
        exact hswap _ c2.1 (by omega)
      · rw [if_neg c2, if_neg (by simp)]

/-- A new node that is strictly lighter than the node in its parent slot changes places with
it: the former parent ends in the last slot. -/
theorem insertQueue_of_parent_gt (q : PriorityQueue) (x : HuffmanNode)
    (hc : q.size ≠ q.capacity) (h0 : 0 < q.size)
    (hp : x.freq < (q.slot ((q.size - 1) / 2)).freq) :
    (insertQueue q x).slot q.size = q.slot ((q.size - 1) / 2) := by
  unfold insertQueue
  rw [if_neg hc]
  simp only [PriorityQueue.size] at h0
  have hlt : (q.data.length - 1) / 2 < q.data.length := by omega
  simp only [PriorityQueue.size, List.length_append, List.length_singleton,
    Nat.add_sub_cancel, insertQueueLoop, PriorityQueue.slot]
  rw [if_pos]
  · have key := insertQueueLoop_slot_gt q.data.length
      (swapNodes { data := q.data ++ [x], capacity := q.capacity } q.data.length
        ((q.data.length - 1) / 2)) ((q.data.length - 1) / 2) q.data.length
      (by rw [swapNodes_size]; simp only [PriorityQueue.size, List.length_append]; omega) hlt
    simp only [PriorityQueue.slot] at key
    rw [key, swapNodes_data,
      getD_swapSlots _ _ _ _ (by simp) (by simp only [List.length_append]; omega),
      if_neg (by omega), if_pos rfl, slot_append_left _ _ _ hlt]
  · refine ⟨by omega, ?_⟩
    rw [slot_append_last, slot_append_left _ _ _ hlt]
    simpa [PriorityQueue.slot, PriorityQueue.size] using hp

/-- When the left child is strictly lighter than its parent and not heavier than the right
child, `heapify` moves the left child up: on a tie between the children the left one wins. -/
theorem heapify_left (q : PriorityQueue) (i : Nat) (hl : 2 * i + 1 < q.size)
    (hlt : (q.slot (2 * i + 1)).freq < (q.slot i).freq)
    (hr : 2 * i + 2 < q.size → (q.slot (2 * i + 1)).freq ≤ (q.slot (2 * i + 2)).freq) :
    (heapify q i).slot i = q.slot (2 * i + 1) := by
  unfold heapify
  cases hs : q.size with
  | zero => omega
  | succ n =>
    simp only [heapifyAux]
    rw [hs] at hl hr
    have c1 : 2 * i + 1 < n + 1 ∧ (q.slot (2 * i + 1)).freq < (q.slot i).freq := ⟨hl, hlt⟩
    rw [hs, if_pos c1]
    have c2 : ¬ (2 * i + 2 < n + 1 ∧
        (q.slot (2 * i + 2)).freq < (q.slot (2 * i + 1)).freq) := by
      rintro ⟨a, b⟩
      have := hr a
      omega
    rw [if_neg c2, if_pos (by omega), heapifyAux_slot_lt _ _ _ _ (by omega)]
    have h1 : 2 * i + 1 < q.data.length := by
      simp only [PriorityQueue.size] at hs
      omega
    simp only [PriorityQueue.slot, swapNodes_data]
    rw [getD_swapSlots _ _ _ _ h1 (by omega), if_pos rfl]

/-- When the right child is strictly lighter than its parent and than the left child,
`heapify` moves the right child up. -/
theorem heapify_right (q : PriorityQueue) (i : Nat) (hr : 2 * i + 2 < q.size)
    (hlt : (q.slot (2 * i + 2)).freq < (q.slot i).freq)
    (hll : (q.slot (2 * i + 2)).freq < (q.slot (2 * i + 1)).freq) :
    (heapify q i).slot i = q.slot (2 * i + 2) := by
  unfold heapify
  cases hs : q.size with
  | zero => omega
  | succ n =>
    simp only [heapifyAux]
    rw [hs] at hr
    have h2 : 2 * i + 2 < q.data.length := by
      simp only [PriorityQueue.size] at hs
      omega
    have fin : (heapifyAux n (swapNodes q (2 * i + 2) i) (2 * i + 2)).slot i =
        q.slot (2 * i + 2) := by
      rw [heapifyAux_slot_lt _ _ _ _ (by omega)]
      simp only [PriorityQueue.slot, swapNodes_data]
      rw [getD_swapSlots _ _ _ _ h2 (by omega), if_pos rfl]
    rw [hs]
    by_cases c1 : 2 * i + 1 < n + 1 ∧ (q.slot (2 * i + 1)).freq < (q.slot i).freq
    · have c2 : 2 * i + 2 < n + 1 ∧
          (q.slot (2 * i + 2)).freq < (q.slot (2 * i + 1)).freq := ⟨hr, hll⟩
      rw [if_pos c1, if_pos c2, if_pos (by omega)]
      exact fin
    · have c2 : 2 * i + 2 < n + 1 ∧ (q.slot (2 * i + 2)).freq < (q.slot i).freq := ⟨hr, hlt⟩
      rw [if_neg c1, if_pos c2, if_pos (by omega)]
      exact fin

theorem freq_getD_of_all (d : List HuffmanNode) (w : Nat) (h : ∀ y ∈ d, y.freq = w) (j : Nat)
    (hj : j < d.length) : (d.getD j HuffmanNode.null).freq = w := by
  rw [List.getD_eq_getElem _ _ hj]
  exact h _ (List.getElem_mem _)

/-- Among nodes of one weight each `insertQueue` appends at the end of the array. -/
theorem insertAll_equal_weights (w c : Nat) (nodes : List HuffmanNode) :
    ∀ d : List HuffmanNode, (∀ y ∈ d, y.freq = w) → (∀ y ∈ nodes, y.freq = w) →
      d.length + nodes.length ≤ c →
      insertAll { data := d, capacity := c } nodes = { data := d ++ nodes, capacity := c } := by
  induction nodes with
  | nil => intro d _ _ _; simp [insertAll]
  | cons x nodes ih =>
    intro d hd hn hlen
    simp only [List.length_cons] at hlen
    have hx : x.freq = w := hn x (List.mem_cons_self _ _)
    have step : insertQueue { data := d, capacity := c } x =
        { data := d ++ [x], capacity := c } := by
      apply insertQueue_of_parent_le
      · simp only [PriorityQueue.size]
        omega
      · by_cases h0 : d.length = 0
        · exact Or.inl h0
        · right
          simp only [PriorityQueue.slot, PriorityQueue.size]
          rw [freq_getD_of_all d w hd _ (by omega), hx]
    have := ih (d ++ [x])
      (by
        intro y hy
        rcases List.mem_append.mp hy with hy | hy
        · exact hd y hy
        · rw [List.mem_singleton.mp hy]; exact hx)
      (fun y hy => hn y (List.mem_cons_of_mem _ hy))
      (by simp only [List.length_append, List.length_singleton]; omega)
    simp only [insertAll, List.foldl_cons] at this ⊢
    rw [step, this]
    simp

/-- Among nodes of one weight `extractMin` returns slot 0 and moves the last slot there. -/
theorem extractMin_equal_weights (w c : Nat) (x0 : HuffmanNode) (t : List HuffmanNode)
    (ht : t ≠ []) (h : ∀ y ∈ x0 :: t, y.freq = w) :
    extractMin { data := x0 :: t, capacity := c } =
      (x0, { data := t.getLast ht :: t.dropLast, capacity := c }) := by
  have hl : 0 < t.length := List.length_pos.mpr ht
  unfold extractMin
  simp only [PriorityQueue.size, List.length_cons]
  rw [if_neg (by omega), if_neg (by omega)]
  simp only [List.set_cons_zero, PriorityQueue.slot]
  rw [List.dropLast_cons_of_ne_nil ht]
  have e : (x0 :: t).getD (t.length + 1 - 1) HuffmanNode.null = t.getLast ht := by
    rw [List.getD_eq_getElem _ _ (by simp only [List.length_cons]; omega)]
    simp only [Nat.add_sub_cancel]
    rw [List.getLast_eq_getElem]
    obtain ⟨k, hk⟩ : ∃ k, t.length = k + 1 := ⟨t.length - 1, by omega⟩
    simp only [hk, List.getElem_cons_succ, Nat.add_sub_cancel]
  rw [e]
  have hall : ∀ y ∈ t.getLast ht :: t.dropLast, y.freq = w := by
    intro y hy
    rcases List.mem_cons.mp hy with rfl | hy
    · exact h _ (List.mem_cons_of_mem _ (List.getLast_mem ht))
    · exact h _ (List.mem_cons_of_mem _ (List.dropLast_subset t hy))
  have hh : heapify { data := t.getLast ht :: t.dropLast, capacity := c } 0 =
      { data := t.getLast ht :: t.dropLast, capacity := c } := by
    apply heapify_of_le_children
    · intro h1
      simp only [PriorityQueue.size] at h1
      simp only [PriorityQueue.slot]
      rw [freq_getD_of_all _ w hall _ (by omega), freq_getD_of_all _ w hall _ h1]
    · intro h2
      simp only [PriorityQueue.size] at h2
      simp only [PriorityQueue.slot]
      rw [freq_getD_of_all _ w hall _ (by omega), freq_getD_of_all _ w hall _ h2]
  rw [hh]
  simp [List.getD_cons_zero]

/-- Among nodes of one weight the queue hands out slot 0 first and then the other nodes from
the last slot backwards. -/
theorem extractAll_equal_weights (w c : Nat) (n : Nat) :
    ∀ (x0 : HuffmanNode) (t : List HuffmanNode), t.length = n → (∀ y ∈ x0 :: t, y.freq = w) →
      extractAll (n + 1) { data := x0 :: t, capacity := c } = x0 :: t.reverse := by
  induction n with
  | zero =>
    intro x0 t ht _
    have : t = [] := List.length_eq_zero.mp ht
    subst this
    simp [extractAll, PriorityQueue.size, extractMin_fst, PriorityQueue.slot]
  | succ n ih =>
    intro x0 t ht h
    have hne : t ≠ [] := by
      intro e
      rw [e] at ht
      simp at ht
    have hstep := extractMin_equal_weights w c x0 t hne h
    have hall : ∀ y ∈ t.getLast hne :: t.dropLast, y.freq = w := by
      intro y hy
      rcases List.mem_cons.mp hy with rfl | hy
      · exact h _ (List.mem_cons_of_mem _ (List.getLast_mem hne))
      · exact h _ (List.mem_cons_of_mem _ (List.dropLast_subset t hy))
    have hrec := ih (t.getLast hne) t.dropLast (by rw [List.length_dropLast]; omega) hall
    have hrev : t.reverse = t.getLast hne :: t.dropLast.reverse := by
      conv_lhs => rw [← List.dropLast_append_getLast hne]
      rw [List.reverse_append]
      rfl
    rw [extractAll]
    simp only [PriorityQueue.size, List.length_cons]
    rw [if_neg (by omega), hstep]
    simp only []
    rw [hrec, hrev]

/-- How the queue settles ties: by position in the array. -/
theorem queue_ties (q : PriorityQueue) (x : HuffmanNode) (i : Nat) (x0 : HuffmanNode)
    (rest : List HuffmanNode) (c : Nat) :
    (0 < q.size → HeapOrdered q.data →
        q.data.head? = some (extractMin q).1 ∧
          ∀ y ∈ q.data, (extractMin q).1.freq ≤ y.freq) ∧
      (q.size ≠ q.capacity → (q.size = 0 ∨ (q.slot ((q.size - 1) / 2)).freq ≤ x.freq) →
        insertQueue q x = { q with data := q.data ++ [x] }) ∧
      (q.size ≠ q.capacity → 0 < q.size → x.freq < (q.slot ((q.size - 1) / 2)).freq →
        (insertQueue q x).slot q.size = q.slot ((q.size - 1) / 2)) ∧
      ((2 * i + 1 < q.size → (q.slot i).freq ≤ (q.slot (2 * i + 1)).freq) →
        (2 * i + 2 < q.size → (q.slot i).freq ≤ (q.slot (2 * i + 2)).freq) →
        heapify q i = q) ∧
      (2 * i + 1 < q.size → (q.slot (2 * i + 1)).freq < (q.slot i).freq →
        (2 * i + 2 < q.size → (q.slot (2 * i + 1)).freq ≤ (q.slot (2 * i + 2)).freq) →
        (heapify q i).slot i = q.slot (2 * i + 1)) ∧
      (2 * i + 2 < q.size → (q.slot (2 * i + 2)).freq < (q.slot i).freq →
        (q.slot (2 * i + 2)).freq < (q.slot (2 * i + 1)).freq →
        (heapify q i).slot i = q.slot (2 * i + 2)) ∧
      ((∀ y ∈ rest, y.freq = x0.freq) → rest.length < c →
        insertAll (createQueue c) (x0 :: rest) = { data := x0 :: rest, capacity := c } ∧
          extractAll (rest.length + 1) { data := x0 :: rest, capacity := c } =
            x0 :: rest.reverse) := by
  refine ⟨?_, insertQueue_of_parent_le q x, insertQueue_of_parent_gt q x,
    heapify_of_le_children q i, heapify_left q i, heapify_right q i, ?_⟩
  · intro h0 ho
    obtain ⟨_, _, hrest⟩ := extractMin_spec q h0
    refine ⟨?_, (hrest ho).2⟩
    rw [extractMin_fst]
    simp only [PriorityQueue.size] at h0
    cases hd : q.data with
    | nil => rw [hd] at h0; simp at h0
    | cons a t => simp [PriorityQueue.slot, hd]
  · intro hall hlen
    have hall' : ∀ y ∈ x0 :: rest, y.freq = x0.freq := by
      intro y hy
      rcases List.mem_cons.mp hy with rfl | hy
      · rfl
      · exact hall y hy
    refine ⟨?_, extractAll_equal_weights x0.freq c rest.length x0 rest rfl hall'⟩
    have := insertAll_equal_weights x0.freq c (x0 :: rest) [] (by simp) hall'
      (by simp only [List.length_nil, List.length_cons]; omega)
    simpa [createQueue] using this

set_option maxRecDepth 100000 in
/-- C14, counterexample: the nodes `'A'` (weight 1), `'B'` (weight 2), `'C'` (weight 2) are
inserted in this order.  The first `extractMin` returns `'A'` and moves the last slot, `'C'`,
to the root, where it stays because `'B'` is not strictly lighter; the second `extractMin`
returns `'C'` although `'B'` has the same weight and was inserted earlier.  So
`buildHuffmanTree` merges `'A'` with `'C'`. -/
theorem equal_weights_leave_out_of_insertion_order :
    insertQueue (insertQueue (insertQueue (createQueue MAX_CHAR) (createNode 65 1))
        (createNode 66 2)) (createNode 67 2) = initialQueue tieFreq ∧
      (initialQueue tieFreq).data = [createNode 65 1, createNode 66 2, createNode 67 2] ∧
      (extractMin (initialQueue tieFreq)).1 = createNode 65 1 ∧
      (extractMin (initialQueue tieFreq)).2.data = [createNode 67 2, createNode 66 2] ∧
      (createNode 66 2).freq = (createNode 67 2).freq ∧
      (extractMin (extractMin (initialQueue tieFreq)).2).1 = createNode 67 2 ∧
      buildHuffmanTree tieFreq =
        HuffmanNode.node 0 5 (createNode 66 2)
          (HuffmanNode.node 0 3 (createNode 65 1) (createNode 67 2)) := by
  refine ⟨?_, ?_, ?_, ?_, ?_, ?_, ?_⟩ <;> decide

/-- C14, amended: the queue settles ties by position in the array, not by insertion order.
(1) On a non-empty heap-ordered queue `extractMin` returns the node in slot 0, whose weight
is minimal.  (2) `insertQueue` on a queue below capacity leaves the new node in the last slot
when the queue was empty or the node in its parent slot is not heavier; when the parent is
strictly heavier the two change places and the former parent ends in the last slot.
(3) `heapify` leaves a node in place when no child is strictly lighter; it moves the left
child up when that is strictly lighter than the node and not heavier than the right child (so
the left child wins a tie between the children), and the right child when that is strictly
lighter than both.  (4) So when all nodes have the same weight, nodes inserted in the order
`x0, x1, ..., xn` into an empty queue with room for them fill the array in this order, and
successive `extractMin` calls hand them out as `x0, xn, ..., x1`: after the first, the latest
inserted first. -/
theorem tie_breaking_by_position (q : PriorityQueue) (x : HuffmanNode) (i : Nat)
    (x0 : HuffmanNode) (rest : List HuffmanNode) (c : Nat) :
    (0 < q.size → HeapOrdered q.data →
        q.data.head? = some (extractMin q).1 ∧
          ∀ y ∈ q.data, (extractMin q).1.freq ≤ y.freq) ∧
      (q.size ≠ q.capacity → (q.size = 0 ∨ (q.slot ((q.size - 1) / 2)).freq ≤ x.freq) →
        insertQueue q x = { q with data := q.data ++ [x] }) ∧
      (q.size ≠ q.capacity → 0 < q.size → x.freq < (q.slot ((q.size - 1) / 2)).freq →
        (insertQueue q x).slot q.size = q.slot ((q.size - 1) / 2)) ∧
      ((2 * i + 1 < q.size → (q.slot i).freq ≤ (q.slot (2 * i + 1)).freq) →
        (2 * i + 2 < q.size → (q.slot i).freq ≤ (q.slot (2 * i + 2)).freq) →
        heapify q i = q) ∧
      (2 * i + 1 < q.size → (q.slot (2 * i + 1)).freq < (q.slot i).freq →
        (2 * i + 2 < q.size → (q.slot (2 * i + 1)).freq ≤ (q.slot (2 * i + 2)).freq) →
        (heapify q i).slot i = q.slot (2 * i + 1)) ∧
      (2 * i + 2 < q.size → (q.slot (2 * i + 2)).freq < (q.slot i).freq →
        (q.slot (2 * i + 2)).freq < (q.slot (2 * i + 1)).freq →
        (heapify q i).slot i = q.slot (2 * i + 2)) ∧
      ((∀ y ∈ rest, y.freq = x0.freq) → rest.length < c →
        insertAll (createQueue c) (x0 :: rest) = { data := x0 :: rest, capacity := c } ∧
          extractAll (rest.length + 1) { data := x0 :: rest, capacity := c } =
            x0 :: rest.reverse) :=
  queue_ties q x i x0 rest c

set_option maxRecDepth 100000 in
/-- Four nodes `'A'`, `'B'`, `'C'`, `'D'` of weight 1 inserted in this order are handed out as
`'A'`, `'D'`, `'C'`, `'B'`.  In the queue holding `'A'` (1), `'B'` (2), `'C'` (2), a new node
of weight 2 stays in the last slot behind its equal-weight parent `'B'`, while a new node of
weight 0 changes places with `'B'`.  In the array of weights 3, 1, 1 `heapify` at the root
moves the left child up. -/
theorem tie_breaking_by_position_witness :
    (insertAll (createQueue MAX_CHAR)
        [createNode 65 1, createNode 66 1, createNode 67 1, createNode 68 1]).data =
        [createNode 65 1, createNode 66 1, createNode 67 1, createNode 68 1] ∧
      extractAll 4
          { data := [createNode 65 1, createNode 66 1, createNode 67 1, createNode 68 1],
            capacity := MAX_CHAR } =
        [createNode 65 1, createNode 68 1, createNode 67 1, createNode 66 1] ∧
      (insertQueue (initialQueue tieFreq) (createNode 68 2)).data =
        [createNode 65 1, createNode 66 2, createNode 67 2, createNode 68 2] ∧
      (insertQueue (initialQueue tieFreq) (createNode 68 0)).slot 3 = createNode 66 2 ∧
      (heapify { data := [createNode 65 3, createNode 66 1, createNode 67 1], capacity := 3 }
        0).slot 0 = createNode 66 1 :=
  ⟨congrArg PriorityQueue.data
      ((tie_breaking_by_position (initialQueue tieFreq) (createNode 68 2) 0 (createNode 65 1)
        [createNode 66 1, createNode 67 1, createNode 68 1] MAX_CHAR).2.2.2.2.2.2
        (by decide) (by decide)).1,
    ((tie_breaking_by_position (initialQueue tieFreq) (createNode 68 2) 0 (createNode 65 1)
      [createNode 66 1, createNode 67 1, createNode 68 1] MAX_CHAR).2.2.2.2.2.2
      (by decide) (by decide)).2,
    congrArg PriorityQueue.data
      ((tie_breaking_by_position (initialQueue tieFreq) (createNode 68 2) 0 (createNode 65 1)
        [] MAX_CHAR).2.1 (by decide) (Or.inr (by decide))),
    (tie_breaking_by_position (initialQueue tieFreq) (createNode 68 0) 0 (createNode 65 1)
      [] MAX_CHAR).2.2.1 (by decide) (by decide) (by decide),
    (tie_breaking_by_position
      { data := [createNode 65 3, createNode 66 1, createNode 67 1], capacity := 3 }
      (createNode 68 0) 0 (createNode 65 1) [] MAX_CHAR).2.2.2.2.1
      (by decide) (by decide) (fun _ => by decide)⟩

/-! ## The queue during `buildHuffmanTree` -/

theorem queueAfter_spec (freq : Nat → Nat) (n : Nat) (hn : n ≤ MAX_CHAR) :
    (queueAfter freq n).size ≤ n ∧ (queueAfter freq n).capacity = MAX_CHAR := by
  have h := insertLoop_spec freq (List.range n) (createQueue MAX_CHAR)
    (by simpa [createQueue, PriorityQueue.size] using hn)
  refine ⟨?_, h.2.1⟩
  have hl := h.1.length_eq
  have := length_leavesOf_le freq (List.range n)
  rw [List.length_range] at this
  rw [List.length_append] at hl
  unfold queueAfter PriorityQueue.size
  rw [hl]
  simpa [createQueue] using this

theorem initialQueue_size (freq : Nat → Nat) : (initialQueue freq).size = nonzeroCount freq := by
  have h := (initialQueue_spec freq).1.length_eq
  unfold PriorityQueue.size nonzeroCount
  rw [h]
  simp [leavesOf]

theorem mem_leavesOf_ne_null (freq : Nat → Nat) (is : List Nat) :
    ∀ x ∈ leavesOf freq is, x ≠ HuffmanNode.null := by
  intro x hx
  simp only [leavesOf, List.mem_map] at hx
  obtain ⟨i, _, rfl⟩ := hx
  simp [createNode]

/-- The state of the merge loop after `j` iterations, for `j` up to `k - 1`. -/
theorem mergeQueue_spec (freq : Nat → Nat) :
    ∀ j, j + 1 ≤ nonzeroCount freq →
      (mergeQueue freq j).size + j = nonzeroCount freq ∧
        (mergeQueue freq j).capacity = MAX_CHAR ∧
        ∀ x ∈ (mergeQueue freq j).data, x ≠ HuffmanNode.null := by
  intro j
  induction j with
  | zero =>
    intro _
    refine ⟨initialQueue_size freq, (initialQueue_spec freq).2.1, ?_⟩
    intro x hx
    exact mem_leavesOf_ne_null freq _ x ((initialQueue_spec freq).1.mem_iff.mp hx)
  | succ j ih =>
    intro hj
    obtain ⟨hs, hc, hn⟩ := ih (by omega)
    have e : mergeQueue freq (j + 1) = mergeStep (mergeQueue freq j) :=
      Function.iterate_succ_apply' mergeStep j (initialQueue freq)
    have hk : nonzeroCount freq ≤ MAX_CHAR := by
      have := List.length_filter_le (fun i => decide (freq i > 0)) (List.range MAX_CHAR)
      rw [List.length_range] at this
      exact this
    have h2 : 2 ≤ (mergeQueue freq j).size := by omega
    have hcap : (mergeQueue freq j).size ≤ (mergeQueue freq j).capacity := by omega
    rw [e]
    refine ⟨?_, ?_, ?_⟩
    · have := mergeStep_size _ h2 hcap
      omega
    · rw [mergeStep_capacity, hc]
    · obtain ⟨p1, p2⟩ := mergeStep_perm _ h2 hcap
      intro x hx
      rcases List.mem_cons.mp (p2.mem_iff.mp hx) with rfl | hx
      · simp [mergeNodes]
      · exact hn x (p1.mem_iff.mpr (List.mem_cons_of_mem _ (List.mem_cons_of_mem _ hx)))

/-- The merge loop with enough budget performs `size - 1` iterations of its body. -/
theorem mergeLoop_eq_iterate (fuel : Nat) :
    ∀ q : PriorityQueue, q.size ≤ q.capacity → q.size ≤ fuel + 1 →
      mergeLoop fuel q = Nat.iterate mergeStep (q.size - 1) q ∧
        (mergeTrace fuel q).length = q.size - 1 := by
  induction fuel with
  | zero =>
    intro q _ h
    have e : q.size - 1 = 0 := by omega
    rw [e]
    exact ⟨rfl, rfl⟩
  | succ fuel ih =>
    intro q hc h
    simp only [mergeLoop, mergeTrace]
    by_cases h2 : q.size > 1
    · rw [if_pos h2, if_pos h2]
      have hs := mergeStep_size q h2 hc
      obtain ⟨i1, i2⟩ := ih (mergeStep q) (by rw [mergeStep_capacity]; omega) (by omega)
      have e : q.size - 1 = ((mergeStep q).size - 1) + 1 := by omega
      rw [i1, e, Function.iterate_succ_apply, List.length_cons, i2]
      exact ⟨rfl, rfl⟩
    · rw [if_neg h2, if_neg h2]
      have e : q.size - 1 = 0 := by omega
      rw [e]
      exact ⟨rfl, rfl⟩

/-- No call of `buildHuffmanTree` to the queue takes an error branch. -/
theorem builder_queue_calls (freq : Nat → Nat) (hk : 1 ≤ nonzeroCount freq) :
    (∀ n, n < MAX_CHAR →
        (queueAfter freq n).size ≤ n ∧ (queueAfter freq n).capacity = MAX_CHAR ∧
          (queueAfter freq n).size ≠ (queueAfter freq n).capacity) ∧
      queueAfter freq MAX_CHAR = initialQueue freq ∧
      (initialQueue freq).size = nonzeroCount freq ∧
      (∀ j, j + 1 < nonzeroCount freq →
        1 < (mergeQueue freq j).size ∧
          (extractMin (mergeQueue freq j)).1 ≠ HuffmanNode.null ∧
          0 < (extractMin (mergeQueue freq j)).2.size ∧
          (extractMin (extractMin (mergeQueue freq j)).2).1 ≠ HuffmanNode.null ∧
          (extractMin (extractMin (mergeQueue freq j)).2).2.size ≠
            (extractMin (extractMin (mergeQueue freq j)).2).2.capacity) ∧
      (mergeTrace (initialQueue freq).size (initialQueue freq)).length =
        nonzeroCount freq - 1 ∧
      mergeLoop (initialQueue freq).size (initialQueue freq) =
        mergeQueue freq (nonzeroCount freq - 1) ∧
      (mergeQueue freq (nonzeroCount freq - 1)).size = 1 ∧
      buildHuffmanTree freq ≠ HuffmanNode.null := by
  have hcap : (initialQueue freq).size ≤ (initialQueue freq).capacity := by
    rw [(initialQueue_spec freq).2.1]
    exact (initialQueue_spec freq).2.2.1
  obtain ⟨l1, l2⟩ := mergeLoop_eq_iterate (initialQueue freq).size (initialQueue freq) hcap
    (by omega)
  refine ⟨?_, rfl, initialQueue_size freq, ?_, ?_, ?_, ?_, ?_⟩
  · intro n hn
    obtain ⟨a, b⟩ := queueAfter_spec freq n (Nat.le_of_lt hn)
    exact ⟨a, b, by omega⟩
  · intro j hj
    obtain ⟨hs, hc, hn⟩ := mergeQueue_spec freq j (by omega)
    have h0 : 0 < (mergeQueue freq j).size := by omega
    obtain ⟨m1, p1, _⟩ := extractMin_spec (mergeQueue freq j) h0
    have s1 := extractMin_size (mergeQueue freq j) h0
    have h1 : 0 < (extractMin (mergeQueue freq j)).2.size := by omega
    obtain ⟨m2, p2, _⟩ := extractMin_spec (extractMin (mergeQueue freq j)).2 h1
    have s2 := extractMin_size (extractMin (mergeQueue freq j)).2 h1
    have hk256 : nonzeroCount freq ≤ MAX_CHAR := by
      have := List.length_filter_le (fun i => decide (freq i > 0)) (List.range MAX_CHAR)
      rw [List.length_range] at this
      exact this
    refine ⟨by omega, hn _ m1, h1, ?_, ?_⟩
    · exact hn _ (p1.mem_iff.mpr (List.mem_cons_of_mem _ m2))
    · rw [extractMin_capacity, extractMin_capacity, hc]
      omega
  · rw [l2, initialQueue_size]
  · rw [l1, initialQueue_size]
    rfl
  · have := (mergeQueue_spec freq (nonzeroCount freq - 1) (by omega)).1
    omega
  · apply Built.ne_null
    apply built_buildHuffmanTree
    intro h
    have := congrArg List.length h
    simp only [leavesOf, List.length_map, List.length_nil] at this
    unfold nonzeroCount at hk
    omega

/-- C15: for every frequency table with `k >= 1` nonzero entries among its 256, during
`buildHuffmanTree` every `insertQueue` is called on a queue whose size differs from the
capacity 256 (in the first loop the size before iteration `n` is at most `n`; in the merge
loop it is the size after two extractions), every `extractMin` is called on a non-empty queue
and both operands of every merge are real nodes; the merge loop runs exactly `k - 1`
iterations and ends with one node in the queue, and the root returned is a real node. -/
theorem builder_avoids_error_branches (freq : Nat → Nat) (hk : 1 ≤ nonzeroCount freq) :
    (∀ n, n < MAX_CHAR →
        (queueAfter freq n).size ≤ n ∧ (queueAfter freq n).capacity = MAX_CHAR ∧
          (queueAfter freq n).size ≠ (queueAfter freq n).capacity) ∧
      queueAfter freq MAX_CHAR = initialQueue freq ∧
      (initialQueue freq).size = nonzeroCount freq ∧
      (∀ j, j + 1 < nonzeroCount freq →
        1 < (mergeQueue freq j).size ∧
          (extractMin (mergeQueue freq j)).1 ≠ HuffmanNode.null ∧
          0 < (extractMin (mergeQueue freq j)).2.size ∧
          (extractMin (extractMin (mergeQueue freq j)).2).1 ≠ HuffmanNode.null ∧
          (extractMin (extractMin (mergeQueue freq j)).2).2.size ≠
            (extractMin (extractMin (mergeQueue freq j)).2).2.capacity) ∧
      (mergeTrace (initialQueue freq).size (initialQueue freq)).length =
        nonzeroCount freq - 1 ∧
      mergeLoop (initialQueue freq).size (initialQueue freq) =
        mergeQueue freq (nonzeroCount freq - 1) ∧
      (mergeQueue freq (nonzeroCount freq - 1)).size = 1 ∧
      buildHuffmanTree freq ≠ HuffmanNode.null :=
  builder_queue_calls freq hk

set_option maxRecDepth 100000 in
/-- The table `'A'` 2, `'B'` 1, `'C'` 1 has three nonzero entries: two merges, then one node
is left. -/
theorem builder_avoids_error_branches_witness :
    nonzeroCount sampleFreq = 3 ∧
      (mergeTrace (initialQueue sampleFreq).size (initialQueue sampleFreq)).length = 3 - 1 ∧
      (mergeQueue sampleFreq (3 - 1)).size = 1 ∧
      buildHuffmanTree sampleFreq ≠ HuffmanNode.null :=
  ⟨by decide,
    (builder_avoids_error_branches sampleFreq (by decide)).2.2.2.2.1,
    (builder_avoids_error_branches sampleFreq (by decide)).2.2.2.2.2.2.1,
    (builder_avoids_error_branches sampleFreq (by decide)).2.2.2.2.2.2.2⟩

/-! ## Faithful reconstruction of the tree -/

theorem generateCodes_stripFreq (t : HuffmanNode) :
    ∀ (code : List Nat) (ht : HuffmanTree),
      generateCodes (stripFreq t) code ht = generateCodes t code ht := by
  induction t with
  | null => intro code ht; rfl
  | node ch f l r ihl ihr =>
    intro code ht
    simp only [stripFreq, generateCodes, isNull_stripFreq, ihl, ihr]

theorem leavesOf_ne_nil (freq : Nat → Nat) (hk : 1 ≤ nonzeroCount freq) :
    leavesOf freq (List.range MAX_CHAR) ≠ [] := by
  intro h
  have := congrArg List.length h
  simp only [leavesOf, List.length_map, List.length_nil] at this
  unfold nonzeroCount at hk
  omega

/-- The tree rebuilt from the encoder's table is the encoder's tree with the weights
cleared. -/
theorem rebuilt_tree (freq : Nat → Nat) (hk : 1 ≤ nonzeroCount freq) :
    buildHuffmanTreeFromCodes (codeTable freq) = stripFreq (buildHuffmanTree freq) ∧
      leafCodes (buildHuffmanTreeFromCodes (codeTable freq)) =
        leafCodes (buildHuffmanTree freq) ∧
      generateCodes (buildHuffmanTreeFromCodes (codeTable freq)) [] { codes := fun _ => none } =
        codeTable freq := by
  have e := buildHuffmanTreeFromCodes_codeTable freq (leavesOf_ne_nil freq hk)
  refine ⟨e, ?_, ?_⟩
  · rw [e, leafCodes_stripFreq]
  · rw [e, generateCodes_stripFreq, codeTable]

/-- C16: for every frequency table with at least one nonzero entry, the tree that
`buildHuffmanTreeFromCodes` returns for the code table generated from the tree of
`buildHuffmanTree` is that tree with every weight set to 0: same shape, same symbol at every
leaf.  Its leaves have the same paths, and `generateCodes` on it returns the same code
table. -/
theorem reconstruction_faithful (freq : Nat → Nat) (hk : 1 ≤ nonzeroCount freq) :
    buildHuffmanTreeFromCodes (codeTable freq) = stripFreq (buildHuffmanTree freq) ∧
      leafCodes (buildHuffmanTreeFromCodes (codeTable freq)) =
        leafCodes (buildHuffmanTree freq) ∧
      generateCodes (buildHuffmanTreeFromCodes (codeTable freq)) [] { codes := fun _ => none } =
        codeTable freq :=
  rebuilt_tree freq hk

set_option maxRecDepth 100000 in
/-- The table `'A'` 2, `'B'` 1, `'C'` 1: the built tree has `'A'` on the left of the root and
`'B'`, `'C'` below its right child, and so has the rebuilt tree. -/
theorem reconstruction_faithful_witness :
    1 ≤ nonzeroCount sampleFreq ∧
      buildHuffmanTree sampleFreq =
        HuffmanNode.node 0 4 (createNode 65 2)
          (HuffmanNode.node 0 2 (createNode 66 1) (createNode 67 1)) ∧
      buildHuffmanTreeFromCodes (codeTable sampleFreq) =
        HuffmanNode.node 0 0 (createNode 65 0)
          (HuffmanNode.node 0 0 (createNode 66 0) (createNode 67 0)) ∧
      buildHuffmanTreeFromCodes (codeTable sampleFreq) =
        stripFreq (buildHuffmanTree sampleFreq) :=
  ⟨by decide, by decide, by decide, (reconstruction_faithful sampleFreq (by decide)).1⟩

/-! ## Code lengths and their containers -/

theorem length_leafCodes_buildHuffmanTree (freq : Nat → Nat) :
    (leafCodes (buildHuffmanTree freq)).length = nonzeroCount freq := by
  unfold nonzeroCount
  rw [← (leafSyms_buildHuffmanTree freq).length_eq]
  simp [leafSyms]

theorem nonzeroCount_le (freq : Nat → Nat) : nonzeroCount freq ≤ MAX_CHAR := by
  have := List.length_filter_le (fun i => decide (freq i > 0)) (List.range MAX_CHAR)
  rw [List.length_range] at this
  exact this

theorem maxWriteIndex_lt (t : HuffmanNode) :
    ∀ depth, Built t → maxWriteIndex t depth + 1 ≤ depth + (leafCodes t).length := by
  induction t with
  | null => intro depth h; exact absurd h (by simp [Built])
  | node ch f l r ihl ihr =>
    intro depth h
    unfold Built at h
    rcases h with ⟨hleaf, _⟩ | ⟨_, hl, hr⟩
    · rw [leafCodes_leaf _ _ _ _ hleaf]
      simp only [Bool.and_eq_true, isNull_iff] at hleaf
      obtain ⟨rfl, rfl⟩ := hleaf
      simp [maxWriteIndex]
    · rw [leafCodes_inner _ _ _ _ (by simp [hl.isNull])]
      have nl : 0 < (leafCodes l).length := List.length_pos.mpr (leafCodes_ne_nil l hl.ne_null)
      have nr : 0 < (leafCodes r).length := List.length_pos.mpr (leafCodes_ne_nil r hr.ne_null)
      have il := ihl (depth + 1) hl
      have ir := ihr (depth + 1) hr
      simp only [maxWriteIndex, List.length_append, List.length_map]
      omega

/-- Every code is shorter than the number of coded symbols, and fits the code buffer and the
length byte. -/
theorem code_length_bound (freq : Nat → Nat) (s : Nat) (code : List Nat)
    (h : (codeTable freq).codes s = some code) :
    1 ≤ nonzeroCount freq ∧ code.length ≤ nonzeroCount freq - 1 ∧
      nonzeroCount freq - 1 ≤ 255 ∧
      maxWriteIndex (buildHuffmanTree freq) 0 ≤ nonzeroCount freq - 1 ∧
      code.length % 256 = code.length ∧
      writeEntry s (freq s) code = [s % 256] ++ leBytes 4 (freq s) ++ [code.length] ++ code := by
  have hmem : (s, code) ∈ leafCodes (buildHuffmanTree freq) := by
    rw [codeTable] at h
    exact (generateCodes_codes_iff _ (nodup_leafSyms_buildHuffmanTree freq) s code).mp h
  have hlen := leafCodes_length_lt freq (s, code) hmem
  rw [length_leafCodes_buildHuffmanTree] at hlen
  have hk := nonzeroCount_le freq
  have h256 : MAX_CHAR = 256 := rfl
  have hb := maxWriteIndex_lt (buildHuffmanTree freq) 0
    (built_buildHuffmanTree freq (leavesOf_ne_nil freq (by omega)))
  rw [length_leafCodes_buildHuffmanTree] at hb
  simp only at hlen
  have hmod : code.length % 256 = code.length := Nat.mod_eq_of_lt (by omega)
  refine ⟨by omega, by omega, by omega, by omega, hmod, ?_⟩
  unfold writeEntry
  simp only [hmod, List.take_length]

/-- C19: for every frequency table with `k >= 1` nonzero entries, every code produced by
`generateCodes` on the tree of `buildHuffmanTree` has length at most `k - 1 <= 255`; the
largest index of the 256-byte code buffer written by the recursion is at most `k - 1`, and
the length stored in the one-byte length field of the table entry is the length of the
code. -/
theorem code_lengths_fit (freq : Nat → Nat) (s : Nat) (code : List Nat)
    (h : (codeTable freq).codes s = some code) :
    1 ≤ nonzeroCount freq ∧ code.length ≤ nonzeroCount freq - 1 ∧
      nonzeroCount freq - 1 ≤ 255 ∧
      maxWriteIndex (buildHuffmanTree freq) 0 ≤ nonzeroCount freq - 1 ∧
      code.length % 256 = code.length ∧
      writeEntry s (freq s) code = [s % 256] ++ leBytes 4 (freq s) ++ [code.length] ++ code :=
  code_length_bound freq s code h

set_option maxRecDepth 100000 in
/-- The table `'A'` 2, `'B'` 1, `'C'` 1: three symbols, the code of `'C'` has two characters,
and the largest buffer index written is 2. -/
theorem code_lengths_fit_witness :
    (codeTable sampleFreq).codes 67 = some [49, 49] ∧ nonzeroCount sampleFreq = 3 ∧
      maxWriteIndex (buildHuffmanTree sampleFreq) 0 = 2 ∧
      ([49, 49] : List Nat).length ≤ nonzeroCount sampleFreq - 1 :=
  ⟨by decide, by decide, by decide, (code_lengths_fit sampleFreq 67 [49, 49] (by decide)).2.1⟩

/-! ## The decode loop on encoder-built tables -/

theorem built_stripFreq (t : HuffmanNode) (h : Built t) : Built (stripFreq t) := by
  induction t with
  | null => exact absurd h (by simp [Built])
  | node ch f l r ihl ihr =>
    unfold Built at h
    rw [stripFreq]
    unfold Built
    rcases h with ⟨hleaf, hch⟩ | ⟨hch, hl, hr⟩
    · left
      rw [isNull_stripFreq, isNull_stripFreq]
      exact ⟨hleaf, hch⟩
    · right
      exact ⟨hch, ihl hl, ihr hr⟩

theorem twoOrNone_of_built (t : HuffmanNode) (h : Built t) : TwoOrNone t := by
  induction t with
  | null => exact absurd h (by simp [Built])
  | node ch f l r ihl ihr =>
    unfold Built at h
    rcases h with ⟨hleaf, _⟩ | ⟨_, hl, hr⟩
    · simp only [Bool.and_eq_true, isNull_iff] at hleaf
      obtain ⟨rfl, rfl⟩ := hleaf
      exact TwoOrNone.leaf ch f
    · exact TwoOrNone.inner ch f l r hl.ne_null hr.ne_null (ihl hl) (ihr hr)

theorem twoOrNone_of_eq (t u : HuffmanNode) (e : t = stripFreq u) (h : Built u) :
    TwoOrNone t := by
  subst e
  exact twoOrNone_of_built _ (built_stripFreq _ h)

theorem inner_of_built (t : HuffmanNode) (h : Built t) (h2 : 2 ≤ (leafCodes t).length) :
    Inner t := by
  cases t with
  | null => exact absurd h (by simp [Built])
  | node ch f l r =>
    unfold Built at h
    rcases h with ⟨hleaf, _⟩ | ⟨_, hl, hr⟩
    · rw [leafCodes_leaf _ _ _ _ hleaf] at h2
      simp at h2
    · exact ⟨ch, f, l, r, rfl, hl, hr⟩

theorem inner_of_eq (t u : HuffmanNode) (e : t = stripFreq u) (h : Built u)
    (h2 : 2 ≤ (leafCodes u).length) : Inner t := by
  subst e
  apply inner_of_built _ (built_stripFreq _ h)
  rw [leafCodes_stripFreq]
  exact h2

/-- From an inner node one decoded bit leads to an inner node again (to the root after a
leaf), never through a missing child. -/
theorem decodeBit_inner (root cur : HuffmanNode) (hroot : Inner root) (hcur : Inner cur)
    (out : List Nat) (bit : Bool) :
    ∃ cur' out', decodeBit root (cur, out) bit = Except.ok (cur', out') ∧ Inner cur' := by
  obtain ⟨ch, f, l, r, rfl, hl, hr⟩ := hcur
  have hchild : Built (if bit then r else l) := by
    cases bit
    · exact hl
    · exact hr
  unfold decodeBit
  simp only []
  generalize (if bit then r else l) = child at hchild
  cases child with
  | null => exact absurd hchild (by simp [Built])
  | node ch' f' l' r' =>
    simp only []
    by_cases c : (l'.isNull && r'.isNull) = true
    · rw [if_pos c]
      exact ⟨root, out ++ [ch'], rfl, hroot⟩
    · rw [if_neg c]
      refine ⟨HuffmanNode.node ch' f' l' r', out, rfl, ?_⟩
      unfold Built at hchild
      rcases hchild with ⟨hleaf, _⟩ | ⟨_, hl', hr'⟩
      · exact absurd hleaf c
      · exact ⟨ch', f', l', r', rfl, hl', hr'⟩

theorem decodeBits_inner (root : HuffmanNode) (hroot : Inner root) (bits : List Bool) :
    ∀ (cur : HuffmanNode) (out : List Nat), Inner cur →
      ∃ st, decodeBits root bits (cur, out) = Except.ok st := by
  induction bits with
  | nil => intro cur out _; exact ⟨(cur, out), rfl⟩
  | cons bit bits ih =>
    intro cur out hcur
    obtain ⟨cur', out', e, hcur'⟩ := decodeBit_inner root cur hroot hcur out bit
    simp only [decodeBits, e]
    exact ih cur' out' hcur'

theorem codeTable_wf (freq : Nat → Nat) (i : Nat) (code : List Nat)
    (h : (codeTable freq).codes i = some code) :
    i < 256 ∧ code.length < 256 ∧ ∀ c ∈ code, c ≠ 0 := by
  refine ⟨((codeTable_isSome_iff_freq freq i).mp (by rw [h]; rfl)).1,
    Nat.lt_succ_of_le (codeTable_length_le freq i code h), ?_⟩
  intro c hc
  rcases codeTable_chars freq i code h c hc with rfl | rfl <;> decide

/-- With at least two coded symbols the rebuilt tree has no node with a single child, its
root has children, and the decode loop runs through every payload without a fault. -/
theorem decode_never_faults (freq : Nat → Nat) (h2 : 2 ≤ nonzeroCount freq) :
    TwoOrNone (buildHuffmanTreeFromCodes (codeTable freq)) ∧
      Inner (buildHuffmanTreeFromCodes (codeTable freq)) ∧
      (∀ payload : List Nat, ∃ st,
        decodeLoop (buildHuffmanTreeFromCodes (codeTable freq)) payload
          (buildHuffmanTreeFromCodes (codeTable freq), []) = Except.ok st) ∧
      ∀ inputFile payload : List Nat, inputFile.length < 2 ^ 64 → (∀ c ∈ inputFile, c ≠ 0) →
        ∃ out, decrypt (encryptHeader inputFile freq (codeTable freq) ++ payload) =
          Except.ok (inputFile, out) := by
  have hne := leavesOf_ne_nil freq (by omega)
  have hin : Inner (buildHuffmanTreeFromCodes (codeTable freq)) :=
    inner_of_eq _ _ (buildHuffmanTreeFromCodes_codeTable freq hne)
      (built_buildHuffmanTree freq hne)
      (by rw [length_leafCodes_buildHuffmanTree]; exact h2)
  have hloop : ∀ payload : List Nat, ∃ st,
      decodeLoop (buildHuffmanTreeFromCodes (codeTable freq)) payload
        (buildHuffmanTreeFromCodes (codeTable freq), []) = Except.ok st := by
    intro payload
    rw [decodeLoop_eq]
    exact decodeBits_inner _ hin _ _ _ hin
  have htwo : TwoOrNone (buildHuffmanTreeFromCodes (codeTable freq)) :=
    twoOrNone_of_eq _ _ (buildHuffmanTreeFromCodes_codeTable freq hne)
      (built_buildHuffmanTree freq hne)
  refine ⟨htwo, hin, hloop, ?_⟩
  intro inputFile payload hname hnul
  obtain ⟨st, hst⟩ := hloop payload
  rw [decrypt_header inputFile freq (codeTable freq) payload hname hnul (codeTable_wf freq), hst]
  exact ⟨st.2, rfl⟩

theorem nonzeroCount_frequencies (in_data : List Nat)
    (hw : ∀ b ∈ in_data, in_data.count b % 2 ^ 32 ≠ 0) :
    nonzeroCount (frequencies in_data) = distinctBytes in_data := by
  unfold nonzeroCount distinctBytes
  rw [filter_frequencies_eq in_data hw]

theorem mem_fourGiBOfAThenB (s : Nat) : s ∈ fourGiBOfAThenB ↔ s = 65 ∨ s = 66 := by
  rw [fourGiBOfAThenB, List.mem_append, List.mem_replicate, List.mem_singleton]
  exact ⟨fun h => h.imp (fun h => h.2) id, fun h => h.imp (fun h => ⟨by decide, h⟩) id⟩

theorem distinctBytes_fourGiBOfAThenB : distinctBytes fourGiBOfAThenB = 2 := by
  have e : (fun s => decide (s ∈ fourGiBOfAThenB)) = fun s => decide (s = 65 ∨ s = 66) := by
    funext s
    exact decide_eq_decide.mpr (mem_fourGiBOfAThenB s)
  rw [distinctBytes, e]
  decide

set_option maxRecDepth 100000 in
/-- C20, counterexample: the input of `2 ^ 32` copies of `'A'` followed by one `'B'` has two
distinct byte values, but the counter of `'A'` has wrapped to zero, so the table holds only
`'B'` with the empty code; the rebuilt tree is a single node without children and the decode
loop steps to its missing left child on the first bit of any payload byte. -/
theorem missing_child_on_wrapped_counter :
    distinctBytes fourGiBOfAThenB = 2 ∧
      buildHuffmanTreeFromCodes (codeTable (frequencies fourGiBOfAThenB)) =
        HuffmanNode.node 66 0 HuffmanNode.null HuffmanNode.null ∧
      decodeLoop (buildHuffmanTreeFromCodes (codeTable (frequencies fourGiBOfAThenB))) [0]
          (buildHuffmanTreeFromCodes (codeTable (frequencies fourGiBOfAThenB)), []) =
        Except.error Fault.nullDeref := by
  rw [frequencies_fourGiBOfAThenB]
  exact ⟨distinctBytes_fourGiBOfAThenB, by decide, rfl⟩

/-- C20, amended: for every input with at least two distinct byte values, none with a count
divisible by `2 ^ 32` (so every such input shorter than `2 ^ 32` bytes), in the tree rebuilt
by `buildHuffmanTreeFromCodes` from the encoder's code table every node has either two
children or none and the root has two; for every payload byte sequence whatsoever the decode
loop of `decrypt` finishes without reaching a NULL node, and `decrypt` on the encoder's header
followed by that payload returns the file name and some output. -/
theorem decode_loop_never_follows_missing_child (in_data : List Nat)
    (hw : ∀ b ∈ in_data, in_data.count b % 2 ^ 32 ≠ 0) (h2 : 2 ≤ distinctBytes in_data) :
    TwoOrNone (buildHuffmanTreeFromCodes (codeTable (frequencies in_data))) ∧
      Inner (buildHuffmanTreeFromCodes (codeTable (frequencies in_data))) ∧
      (∀ payload : List Nat, ∃ st,
        decodeLoop (buildHuffmanTreeFromCodes (codeTable (frequencies in_data))) payload
          (buildHuffmanTreeFromCodes (codeTable (frequencies in_data)), []) = Except.ok st) ∧
      ∀ inputFile payload : List Nat, inputFile.length < 2 ^ 64 → (∀ c ∈ inputFile, c ≠ 0) →
        ∃ out,
          decrypt (encryptHeader inputFile (frequencies in_data)
            (codeTable (frequencies in_data)) ++ payload) = Except.ok (inputFile, out) :=
  decode_never_faults (frequencies in_data)
    (by rw [nonzeroCount_frequencies in_data hw]; exact h2)

set_option maxRecDepth 100000 in
/-- The input `"AAABC"`: the rebuilt tree has a root with two children, and the payload bytes
`ff 00 a5`, which the encoder did not write, are decoded without a fault. -/
theorem decode_loop_never_follows_missing_child_witness :
    (∀ b ∈ inputAAABC, inputAAABC.count b % 2 ^ 32 ≠ 0) ∧ 2 ≤ distinctBytes inputAAABC ∧
      buildHuffmanTreeFromCodes (codeTable (frequencies inputAAABC)) =
        HuffmanNode.node 0 0 (HuffmanNode.node 0 0 (createNode 66 0) (createNode 67 0))
          (createNode 65 0) ∧
      ∃ st, decodeLoop (buildHuffmanTreeFromCodes (codeTable (frequencies inputAAABC)))
        [255, 0, 165] (buildHuffmanTreeFromCodes (codeTable (frequencies inputAAABC)), []) =
          Except.ok st :=
  ⟨by decide, by decide, by decide,
    (decode_loop_never_follows_missing_child inputAAABC (by decide) (by decide)).2.2.1
      [255, 0, 165]⟩

/-! ## Exact effect of the padding bits -/

/-- Zero bits fed to the decoder at the root emit the symbol of the all-zero code once per
full code length. -/
theorem decodeBits_zeros (ch f : Nat) (l r : HuffmanNode)
    (hinner : (l.isNull && r.isNull) = false) (e : Nat × List Nat)
    (he : e ∈ leafCodes (HuffmanNode.node ch f l r)) (hz : ∀ c ∈ e.2, c = 48)
    (hpos : 0 < e.2.length) (k : Nat) :
    ∀ out : List Nat,
      ∃ cur, decodeBits (HuffmanNode.node ch f l r) (toBools (List.replicate k 0))
          (HuffmanNode.node ch f l r, out) =
        Except.ok (cur, out ++ List.replicate (k / e.2.length) e.1) := by
  induction k using Nat.strong_induction_on with
  | _ k ih =>
    intro out
    by_cases hk : k < e.2.length
    · obtain ⟨cur, hcur⟩ := decodeBits_padding ch f l r hinner e he hz k hk out
      refine ⟨cur, ?_⟩
      rw [hcur, (Nat.div_eq_zero_iff hpos).mpr hk]
      simp
    · have hle : e.2.length ≤ k := Nat.le_of_not_lt hk
      have hbits : codeBits e.2 = List.replicate e.2.length 0 := by
        rw [List.eq_replicate_iff]
        refine ⟨by simp [codeBits], ?_⟩
        intro b hb
        simp only [codeBits, List.mem_map] at hb
        obtain ⟨c, hc, rfl⟩ := hb
        rw [hz c hc]
      have hsplit : List.replicate k 0 =
          codeBits e.2 ++ List.replicate (k - e.2.length) 0 := by
        rw [hbits, List.append_replicate_replicate]
        congr 1
        omega
      obtain ⟨cur, hcur⟩ := ih (k - e.2.length) (by omega) (out ++ [e.1])
      refine ⟨cur, ?_⟩
      rw [hsplit, toBools_append,
        decodeBits_path _ _ ch f l r rfl hinner e he _ out, hcur,
        Nat.div_eq_sub_div hpos hle, List.replicate_succ]
      simp

/-- What `decrypt` recovers from the archive of `encrypt`: the file name, the input, and one
more copy of the symbol with the all-zero code for every full code length of padding. -/
theorem decrypt_encrypt (inputFile in_data : List Nat)
    (hb : ∀ b ∈ in_data, b < 256)
    (hw : ∀ b ∈ in_data, in_data.count b % 2 ^ 32 ≠ 0)
    (h2 : 2 ≤ distinctBytes in_data)
    (hname : inputFile.length < 2 ^ 64) (hnul : ∀ c ∈ inputFile, c ≠ 0) :
    ∃ archive, encrypt inputFile in_data = Except.ok archive ∧
      (∃ s0 code0, (codeTable (frequencies in_data)).codes s0 = some code0 ∧
        ∀ c ∈ code0, c = 48) ∧
      ∀ s0 code0, (codeTable (frequencies in_data)).codes s0 = some code0 →
        (∀ c ∈ code0, c = 48) →
        1 ≤ code0.length ∧
          decrypt archive =
            Except.ok (inputFile, in_data ++
              List.replicate
                (padBits (inputCodeChars (codeTable (frequencies in_data)) in_data).length /
                  code0.length) s0) := by
  obtain ⟨_, hcov⟩ := coverage_of_input in_data hb hw
  refine ⟨_,
    encrypt_eq inputFile in_data (ne_nil_of_distinctBytes in_data (by omega)) hcov, ?_⟩
  have h2f : 2 ≤ ((List.range MAX_CHAR).filter
      (fun i => frequencies in_data i > 0)).length := by
    rw [filter_frequencies_eq in_data hw]
    exact h2
  generalize frequencies in_data = freq at hcov h2f ⊢
  have hne : leavesOf freq (List.range MAX_CHAR) ≠ [] := by
    intro h
    have := congrArg List.length h
    simp only [leavesOf, List.length_map, List.length_nil] at this
    omega
  have hnd := nodup_leafSyms_buildHuffmanTree freq
  have hbits : ∀ b ∈ codeBits (inputCodeChars (codeTable freq) in_data), b < 2 := by
    intro b hb
    simp only [codeBits, List.mem_map] at hb
    obtain ⟨c, hc, rfl⟩ := hb
    rcases inputCodeChars_chars freq in_data c hc with rfl | rfl <;> decide
  obtain ⟨ch, f, l, r, hroot, hinner⟩ := buildHuffmanTree_inner freq h2f
  have hR : stripFreq (buildHuffmanTree freq) =
      HuffmanNode.node ch 0 (stripFreq l) (stripFreq r) := by
    rw [hroot, stripFreq]
  have hinner' : ((stripFreq l).isNull && (stripFreq r).isNull) = false := by
    rw [isNull_stripFreq, isNull_stripFreq]
    exact hinner
  have hleaf : leafCodes (HuffmanNode.node ch 0 (stripFreq l) (stripFreq r)) =
      leafCodes (buildHuffmanTree freq) := by
    rw [← hR, leafCodes_stripFreq]
  have hx : ∀ x ∈ in_data, ∃ code, (codeTable freq).codes x = some code ∧
      (x, code) ∈ leafCodes (HuffmanNode.node ch 0 (stripFreq l) (stripFreq r)) := by
    intro x hxm
    obtain ⟨code, hcode⟩ := Option.isSome_iff_exists.mp (hcov x hxm)
    refine ⟨code, hcode, ?_⟩
    rw [hleaf]
    have hc := hcode
    rw [codeTable] at hc
    exact (generateCodes_codes_iff _ hnd x code).mp hc
  refine ⟨?_, ?_⟩
  · obtain ⟨e, he, hz⟩ := exists_zero_code _ (built_buildHuffmanTree freq hne)
    refine ⟨e.1, e.2, ?_, hz⟩
    rw [codeTable]
    exact (generateCodes_codes_iff _ hnd e.1 e.2).mpr he
  · intro s0 code0 hs0 hz
    have hpos : 1 ≤ code0.length := codeTable_length_pos freq h2f s0 code0 hs0
    refine ⟨hpos, ?_⟩
    have he : (s0, code0) ∈ leafCodes (HuffmanNode.node ch 0 (stripFreq l) (stripFreq r)) := by
      rw [hleaf]
      have hc := hs0
      rw [codeTable] at hc
      exact (generateCodes_codes_iff _ hnd s0 code0).mp hc
    obtain ⟨cur, hcur⟩ := decodeBits_zeros ch 0 (stripFreq l) (stripFreq r) hinner'
      (s0, code0) he hz hpos
      (padBits (codeBits (inputCodeChars (codeTable freq) in_data)).length) ([] ++ in_data)
    rw [decrypt_header inputFile freq (codeTable freq) _ hname hnul (codeTable_wf freq),
      buildHuffmanTreeFromCodes_codeTable freq hne, hR, decodeLoop_eq,
      flatMap_byteBits_packBits _ _ rfl hbits, toBools_append,
      decodeBits_input (codeTable freq) ch 0 (stripFreq l) (stripFreq r) hinner' in_data hx]
    simp only [codeBits, List.length_map] at hcur ⊢
    rw [hcur]
    simp

theorem fourGiBOfAThenB_cons :
    fourGiBOfAThenB = 65 :: (List.replicate 4294967295 65 ++ [66]) := by
  have h32 : (2 : Nat) ^ 32 = 4294967295 + 1 := by decide
  rw [fourGiBOfAThenB, h32, List.replicate_succ, List.cons_append]

/-- C17, counterexample: the input of `2 ^ 32` copies of `'A'` followed by one `'B'` has two
distinct byte values, but the counter of `'A'` has wrapped to zero and `'A'` has no code: the
payload loop of `encrypt` reads through a NULL table entry at its first step, so there is no
archive to decode. -/
theorem padding_effect_fails_on_wrapped_counter :
    distinctBytes fourGiBOfAThenB = 2 ∧
      encrypt [97] fourGiBOfAThenB = Except.error Fault.nullDeref := by
  refine ⟨distinctBytes_fourGiBOfAThenB, ?_⟩
  have h : (codeTable (frequencies fourGiBOfAThenB)).codes 65 = none := by
    rw [frequencies_fourGiBOfAThenB]
    exact codeTable_onlyB.1
  rw [fourGiBOfAThenB_cons] at h ⊢
  exact encrypt_nullDeref [97] 65 _ h

/-- C17, amended: for every file name without a NUL byte and shorter than `2 ^ 64` and every
input of byte values with at least two distinct byte values, none with a count divisible by
`2 ^ 32` (so every such input shorter than `2 ^ 32` bytes), let `B` be the total number of
code bits, `p = (8 - B mod 8) mod 8` the number of pad bits, `s0` the symbol whose code
consists only of `'0'` and `L0 >= 1` the length of that code.  Such a symbol exists, `encrypt`
produces an archive, and `decrypt` of it yields the file name and the original bytes followed
by exactly `p / L0` copies of `s0`: at most 7 extra bytes, none exactly when `p < L0`, in
particular none when `B` is a multiple of 8. -/
theorem padding_effect (inputFile in_data : List Nat)
    (hb : ∀ b ∈ in_data, b < 256)
    (hw : ∀ b ∈ in_data, in_data.count b % 2 ^ 32 ≠ 0)
    (h2 : 2 ≤ distinctBytes in_data)
    (hname : inputFile.length < 2 ^ 64) (hnul : ∀ c ∈ inputFile, c ≠ 0) :
    ∃ archive, encrypt inputFile in_data = Except.ok archive ∧
      (∃ s0 code0, (codeTable (frequencies in_data)).codes s0 = some code0 ∧
        ∀ c ∈ code0, c = 48) ∧
      ∀ s0 code0, (codeTable (frequencies in_data)).codes s0 = some code0 →
        (∀ c ∈ code0, c = 48) →
        1 ≤ code0.length ∧
          decrypt archive =
            Except.ok (inputFile, in_data ++
              List.replicate
                (padBits (inputCodeChars (codeTable (frequencies in_data)) in_data).length /
                  code0.length) s0) ∧
          padBits (inputCodeChars (codeTable (frequencies in_data)) in_data).length /
            code0.length ≤ 7 ∧
          (in_data ++
              List.replicate
                (padBits (inputCodeChars (codeTable (frequencies in_data)) in_data).length /
                  code0.length) s0 = in_data ↔
            padBits (inputCodeChars (codeTable (frequencies in_data)) in_data).length <
              code0.length) ∧
          ((inputCodeChars (codeTable (frequencies in_data)) in_data).length % 8 = 0 →
            padBits (inputCodeChars (codeTable (frequencies in_data)) in_data).length = 0) := by
  obtain ⟨archive, henc, hex, hdec⟩ := decrypt_encrypt inputFile in_data hb hw h2 hname hnul
  refine ⟨archive, henc, hex, ?_⟩
  intro s0 code0 hs0 hz
  obtain ⟨hpos, hd⟩ := hdec s0 code0 hs0 hz
  generalize (inputCodeChars (codeTable (frequencies in_data)) in_data).length = B at hd ⊢
  have hp : padBits B ≤ 7 := by
    unfold padBits
    omega
  refine ⟨hpos, hd, Nat.le_trans (Nat.div_le_self _ _) hp, ?_, ?_⟩
  · rw [List.append_right_eq_self, List.replicate_eq_nil_iff, Nat.div_eq_zero_iff hpos]
  · intro h8
    unfold padBits
    omega

set_option maxRecDepth 100000 in
/-- The input `"AAB"` in a file named `"a"`: 3 code bits, 5 pad bits, and `'B'` has the
all-zero code `"0"` of length 1, so the archive decodes to `"AAB"` followed by 5 copies of
`'B'`. -/
theorem padding_effect_witness :
    (codeTable (frequencies inputAAB)).codes 66 = some [48] ∧
      padBits (inputCodeChars (codeTable (frequencies inputAAB)) inputAAB).length = 5 ∧
      ∃ archive, encrypt [97] inputAAB = Except.ok archive ∧
        decrypt archive = Except.ok ([97], inputAAB ++ List.replicate 5 66) := by
  refine ⟨by decide, by decide, ?_⟩
  obtain ⟨archive, henc, _, hdec⟩ := padding_effect [97] inputAAB (by decide) (by decide)
    (by decide) (by decide) (by decide)
  exact ⟨archive, henc, (hdec 66 [48] (by decide) (by decide)).2.1⟩

/-! ## Prefix-free codes and the cost of merging the two smallest weights -/

theorem prefixFree_perm {a b : List (List Bool)} (p : a.Perm b) (h : PrefixFree a) :
    PrefixFree b :=
  (p.pairwise_iff (fun h => ⟨h.2, h.1⟩)).mp h

theorem codeCost_perm {a b : List (Nat × List Bool)} (p : a.Perm b) : codeCost a = codeCost b :=
  (p.map _).sum_eq

theorem codeCost_cons (e : Nat × List Bool) (C : List (Nat × List Bool)) :
    codeCost (e :: C) = e.1 * e.2.length + codeCost C := by
  simp [codeCost]

theorem codeCost_append (A B : List (Nat × List Bool)) :
    codeCost (A ++ B) = codeCost A + codeCost B := by
  simp [codeCost]

theorem costLowerBound_perm {a b : List Nat} (p : a.Perm b) (h : Nat)
    (hb : CostLowerBound a h) : CostLowerBound b h :=
  fun C hpf hw => hb C hpf (hw.trans p.symm)

/-- A word no longer than `y ++ [β]`, incomparable with it and different from its sibling
`y ++ [!β]`, is incomparable with `y`. -/
theorem incomparable_dropLast (y r : List Bool) (β : Bool) (hL : r.length ≤ y.length + 1)
    (h1 : ¬ (y ++ [β]) <+: r) (h2 : ¬ r <+: (y ++ [β])) (h3 : r ≠ y ++ [!β]) :
    ¬ y <+: r ∧ ¬ r <+: y := by
  refine ⟨?_, ?_⟩
  · rintro ⟨t, rfl⟩
    simp only [List.length_append] at hL
    match t, hL with
    | [], _ => exact h2 (by simp)
    | [γ], _ =>
      by_cases c : γ = β
      · subst c
        exact h1 (List.prefix_refl _)
      · apply h3
        congr 2
        cases γ <;> cases β <;> simp_all
    | _ :: _ :: _, hL => simp at hL
  · intro h
    exact h2 (h.trans (List.prefix_append y [β]))

theorem exists_max_length (C : List (Nat × List Bool)) (hne : C ≠ []) :
    ∃ p ∈ C, ∀ q ∈ C, q.2.length ≤ p.2.length := by
  induction C with
  | nil => exact absurd rfl hne
  | cons e C ih =>
    by_cases hC : C = []
    · subst hC
      exact ⟨e, List.mem_cons_self _ _, fun q hq => by simp at hq; rw [hq]⟩
    · obtain ⟨p, hp, hmax⟩ := ih hC
      by_cases c : p.2.length ≤ e.2.length
      · refine ⟨e, List.mem_cons_self _ _, ?_⟩
        intro q hq
        rcases List.mem_cons.mp hq with rfl | hq
        · exact Nat.le_refl _
        · exact Nat.le_trans (hmax q hq) c
      · refine ⟨p, List.mem_cons_of_mem _ hp, ?_⟩
        intro q hq
        rcases List.mem_cons.mp hq with rfl | hq
        · omega
        · exact hmax q hq

/-- Give the smallest weight `a` to a codeword of the maximal length `L`: the codeword that
carried `a` takes the weight `w` in exchange, and the cost does not grow. -/
theorem reassign_min (L : Nat) (R : List (Nat × List Bool)) (w a : Nat) (rest : List Nat)
    (hperm : (w :: R.map Prod.fst).Perm (a :: rest)) (hmin : ∀ x ∈ rest, a ≤ x)
    (hlen : ∀ e ∈ R, e.2.length ≤ L) :
    ∃ R' : List (Nat × List Bool), R'.map Prod.snd = R.map Prod.snd ∧
      (R'.map Prod.fst).Perm rest ∧ codeCost R' + a * L ≤ codeCost R + w * L := by
  have ha : a ∈ w :: R.map Prod.fst := hperm.symm.subset (List.mem_cons_self _ _)
  have haw : a ≤ w := by
    rcases List.mem_cons.mp (hperm.subset (List.mem_cons_self _ _)) with e | e
    · omega
    · exact hmin w e
  rcases List.mem_cons.mp ha with rfl | ha'
  · exact ⟨R, rfl, hperm.cons_inv, Nat.le_refl _⟩
  · obtain ⟨e, heR, rfl⟩ := List.mem_map.mp ha'
    obtain ⟨R1, R2, rfl⟩ := List.append_of_mem heR
    refine ⟨R1 ++ (w, e.2) :: R2, by simp, ?_, ?_⟩
    · apply List.Perm.cons_inv (a := e.1)
      refine List.Perm.trans ?_ hperm
      simp only [List.map_append, List.map_cons]
      have p1 : (e.1 :: (List.map Prod.fst R1 ++ w :: List.map Prod.fst R2)).Perm
          (e.1 :: w :: (List.map Prod.fst R1 ++ List.map Prod.fst R2)) :=
        List.Perm.cons _ List.perm_middle
      have p2 : (w :: (List.map Prod.fst R1 ++ e.1 :: List.map Prod.fst R2)).Perm
          (w :: e.1 :: (List.map Prod.fst R1 ++ List.map Prod.fst R2)) :=
        List.Perm.cons _ List.perm_middle
      exact p1.trans ((List.Perm.swap _ _ _).trans p2.symm)
    · have hu : e.2.length ≤ L := hlen e heR
      simp only [codeCost_append, codeCost_cons]
      have key : w * e.2.length + e.1 * L ≤ e.1 * e.2.length + w * L := by
        obtain ⟨d, rfl⟩ := Nat.exists_eq_add_of_le haw
        obtain ⟨k, rfl⟩ := Nat.exists_eq_add_of_le hu
        nlinarith [Nat.zero_le (d * k)]
      omega

/-! ## Merging the two smallest weights is optimal -/

theorem totalLength_cons (e : Nat × List Bool) (C : List (Nat × List Bool)) :
    totalLength (e :: C) = e.2.length + totalLength C := by
  simp [totalLength]

theorem totalLength_perm {a b : List (Nat × List Bool)} (p : a.Perm b) :
    totalLength a = totalLength b :=
  (p.map _).sum_eq

theorem exists_perm_cons (p : Nat × List Bool) (C : List (Nat × List Bool)) (hp : p ∈ C) :
    ∃ R, C.Perm (p :: R) := by
  obtain ⟨s, t, rfl⟩ := List.append_of_mem hp
  exact ⟨s ++ t, List.perm_middle⟩

/-- From a prefix-free code whose two smallest weights are `a` and `b` one obtains a
prefix-free code for the weights with `a` and `b` replaced by `a + b`, cheaper by at least
`a + b`. -/
theorem exists_merged_code (n : Nat) :
    ∀ C : List (Nat × List Bool), totalLength C = n → PrefixFree (C.map Prod.snd) →
      ∀ (a b : Nat) (rest : List Nat), (C.map Prod.fst).Perm (a :: b :: rest) → a ≤ b →
        (∀ x ∈ rest, b ≤ x) →
        ∃ C' : List (Nat × List Bool), PrefixFree (C'.map Prod.snd) ∧
          (C'.map Prod.fst).Perm ((a + b) :: rest) ∧ codeCost C' + a + b ≤ codeCost C := by
  induction n using Nat.strong_induction_on with
  | _ n ih =>
    intro C hn hpf a b rest hw hab hmin
    have hlenC : C.length = rest.length + 2 := by
      have := hw.length_eq
      simpa using this
    have hne : C ≠ [] := by
      intro h
      rw [h] at hlenC
      simp at hlenC
    obtain ⟨p, hp, hmax⟩ := exists_max_length C hne
    obtain ⟨R0, pC⟩ := exists_perm_cons p C hp
    have hpf0 : PrefixFree (p.2 :: (R0).map Prod.snd) :=
      prefixFree_perm (pC.map Prod.snd) hpf
    have hw0 : (p.1 :: (R0).map Prod.fst).Perm (a :: b :: rest) :=
      (pC.map Prod.fst).symm.trans hw
    have hcost0 : codeCost C = p.1 * p.2.length + codeCost (R0) := by
      rw [codeCost_perm pC, codeCost_cons]
    have htl0 : totalLength C = p.2.length + totalLength (R0) := by
      rw [totalLength_perm pC, totalLength_cons]
    have hmax0 : ∀ q ∈ R0, q.2.length ≤ p.2.length :=
      fun q hq => hmax q (pC.symm.subset (List.mem_cons_of_mem _ hq))
    obtain ⟨hp_inc, hpfR0⟩ := List.pairwise_cons.mp hpf0
    have hR0len : (R0).length = rest.length + 1 := by
      have := hw0.length_eq
      simpa using this
    have hpne : p.2 ≠ [] := by
      intro h
      obtain ⟨r, hr⟩ := List.exists_mem_of_length_pos (by omega : 0 < (R0).length)
      exact (hp_inc r.2 (List.mem_map_of_mem _ hr)).1 (by rw [h]; exact List.nil_prefix)
    obtain ⟨y, β, hy⟩ : ∃ y β, p.2 = y ++ [β] :=
      ⟨p.2.dropLast, p.2.getLast hpne, (List.dropLast_append_getLast hpne).symm⟩
    have hL : p.2.length = y.length + 1 := by
      rw [hy]
      simp
    by_cases hsib : ∃ q ∈ R0, q.2 = y ++ [!β]
    · obtain ⟨q, hq, hq2⟩ := hsib
      obtain ⟨R, pR⟩ := exists_perm_cons q R0 hq
      have hpf1 : PrefixFree (p.2 :: q.2 :: R.map Prod.snd) :=
        prefixFree_perm (List.Perm.cons _ (pR.map Prod.snd)) hpf0
      have hw1 : (p.1 :: q.1 :: R.map Prod.fst).Perm (a :: b :: rest) :=
        (List.Perm.cons _ (pR.map Prod.fst)).symm.trans hw0
      have hmaxR : ∀ e ∈ q :: R, e.2.length ≤ y.length + 1 := by
        intro e he
        rw [← hL]
        exact hmax0 e (pR.symm.subset he)
      have hmin1 : ∀ x ∈ b :: rest, a ≤ x := by
        intro x hx
        rcases List.mem_cons.mp hx with rfl | hx
        · exact hab
        · exact Nat.le_trans hab (hmin x hx)
      obtain ⟨R2, hs2, hw2, hc2⟩ :=
        reassign_min (y.length + 1) (q :: R) p.1 a (b :: rest) hw1 hmin1 hmaxR
      cases R2 with
      | nil => simp at hs2
      | cons e2 R3 =>
        simp only [List.map_cons, List.cons.injEq] at hs2
        obtain ⟨he2, hs3⟩ := hs2
        have hmaxR3 : ∀ e ∈ R3, e.2.length ≤ y.length + 1 := by
          intro e he
          have hmem : e.2 ∈ R.map Prod.snd := by
            rw [← hs3]
            exact List.mem_map_of_mem Prod.snd he
          obtain ⟨r, hr, hre⟩ := List.mem_map.mp hmem
          rw [← hre]
          exact hmaxR r (List.mem_cons_of_mem _ hr)
        obtain ⟨R3', hs3', hw3, hc3⟩ :=
          reassign_min (y.length + 1) R3 e2.1 b rest hw2 hmin hmaxR3
        refine ⟨(a + b, y) :: R3', ?_, ?_, ?_⟩
        · simp only [List.map_cons]
          rw [hs3', hs3]
          obtain ⟨hp1, hrest1⟩ := List.pairwise_cons.mp hpf1
          obtain ⟨hq1, hpfR⟩ := List.pairwise_cons.mp hrest1
          refine List.pairwise_cons.mpr ⟨?_, hpfR⟩
          intro r hr
          have hrp := hp1 r (List.mem_cons_of_mem _ hr)
          have hrq := hq1 r hr
          rw [hy] at hrp
          have hrlen : r.length ≤ y.length + 1 := by
            obtain ⟨e, he, rfl⟩ := List.mem_map.mp hr
            exact hmaxR e (List.mem_cons_of_mem _ he)
          exact incomparable_dropLast y r β hrlen hrp.1 hrp.2
            (fun e => hrq.1 (by rw [hq2, e]))
        · simp only [List.map_cons]
          exact List.Perm.cons _ hw3
        · have hq2len : q.2.length = y.length + 1 := by
            rw [hq2]
            simp
          have he2len : e2.2.length = y.length + 1 := by
            rw [he2, hq2len]
          rw [hcost0, codeCost_perm pR]
          simp only [codeCost_cons, he2len, hq2len, hL, Nat.mul_succ, Nat.add_mul] at hc2 hc3 ⊢
          omega
    · have hsib' : ∀ q ∈ R0, q.2 ≠ y ++ [!β] := fun q hq h => hsib ⟨q, hq, h⟩
      have hpfC1 : PrefixFree (((p.1, y) :: R0).map Prod.snd) := by
        simp only [List.map_cons]
        refine List.pairwise_cons.mpr ⟨?_, hpfR0⟩
        intro r hr
        have hrp := hp_inc r hr
        rw [hy] at hrp
        obtain ⟨e, he, rfl⟩ := List.mem_map.mp hr
        have hrlen : e.2.length ≤ y.length + 1 := by
          rw [← hL]
          exact hmax0 e he
        exact incomparable_dropLast y e.2 β hrlen hrp.1 hrp.2 (hsib' e he)
      have hlt : totalLength ((p.1, y) :: R0) < n := by
        rw [totalLength_cons, ← hn, htl0, hL]
        simp
      obtain ⟨C', h1, h2, h3⟩ := ih _ hlt ((p.1, y) :: R0) rfl hpfC1 a b rest
        (by simpa using hw0) hab hmin
      refine ⟨C', h1, h2, ?_⟩
      rw [codeCost_cons] at h3
      rw [hcost0, hL]
      simp only [Nat.mul_succ] at h3 ⊢
      omega

/-- Merging the two smallest weights: a lower bound for the merged weights gives a lower
bound for the original ones. -/
theorem costLowerBound_merge (a b : Nat) (rest : List Nat) (h : Nat) (hab : a ≤ b)
    (hmin : ∀ x ∈ rest, b ≤ x) (hb : CostLowerBound ((a + b) :: rest) h) :
    CostLowerBound (a :: b :: rest) (h + a + b) := by
  intro C hpf hw
  obtain ⟨C', h1, h2, h3⟩ := exists_merged_code _ C rfl hpf a b rest hw hab hmin
  have := hb C' h1 h2
  omega

/-! ## Optimality of the generated code -/

/-- Induction over the merge loop that also hands out the order facts of each merge: the two
merged nodes are the lightest of the queue. -/
theorem mergeLoop_induction_min (Inv : List HuffmanNode → Prop)
    (hperm : ∀ a b : List HuffmanNode, a.Perm b → Inv a → Inv b)
    (hmerge : ∀ l r rest, l.freq ≤ r.freq → (∀ x ∈ rest, r.freq ≤ x.freq) →
      Inv (l :: r :: rest) → Inv (mergeNodes l r :: rest)) (fuel : Nat) :
    ∀ q : PriorityQueue, q.size ≤ q.capacity → HeapOrdered q.data → Inv q.data →
      Inv (mergeLoop fuel q).data := by
  induction fuel with
  | zero => intro q _ _ h; exact h
  | succ fuel ih =>
    intro q hc ho h
    simp only [mergeLoop]
    split
    · rename_i h2
      obtain ⟨p1, p2⟩ := mergeStep_perm q h2 hc
      have s1 := extractMin_size q (by omega)
      obtain ⟨_, q1perm, hh1⟩ := extractMin_spec q (by omega)
      obtain ⟨ho1, hmin1⟩ := hh1 ho
      obtain ⟨m2, q2perm, hh2⟩ := extractMin_spec (extractMin q).2 (by omega)
      obtain ⟨_, hmin2⟩ := hh2 ho1
      apply ih
      · rw [mergeStep_capacity]
        have := mergeStep_size q h2 hc
        omega
      · exact mergeStep_heapOrdered q h2 ho
      · refine hperm _ _ p2.symm (hmerge _ _ _ ?_ ?_ (hperm _ _ p1 h))
        · exact hmin1 _ (q1perm.symm.subset (List.mem_cons_of_mem _ m2))
        · intro x hx
          exact hmin2 x (q2perm.symm.subset (List.mem_cons_of_mem _ hx))
    · exact h

theorem buildHuffmanTree_induction_min (Inv : List HuffmanNode → Prop)
    (hperm : ∀ a b : List HuffmanNode, a.Perm b → Inv a → Inv b)
    (hmerge : ∀ l r rest, l.freq ≤ r.freq → (∀ x ∈ rest, r.freq ≤ x.freq) →
      Inv (l :: r :: rest) → Inv (mergeNodes l r :: rest))
    (freq : Nat → Nat) (h0 : Inv (leavesOf freq (List.range MAX_CHAR)))
    (hne : leavesOf freq (List.range MAX_CHAR) ≠ []) : Inv [buildHuffmanTree freq] := by
  obtain ⟨p, c, s, ho⟩ := initialQueue_spec freq
  have hc : (initialQueue freq).size ≤ (initialQueue freq).capacity := by rw [c]; exact s
  have hI := mergeLoop_induction_min (fun d => Inv d ∧ d ≠ [])
    (fun a b pab h => ⟨hperm a b pab h.1, fun e => h.2 (by rw [e] at pab; exact pab.eq_nil)⟩)
    (fun l r rest h1 h2 h => ⟨hmerge l r rest h1 h2 h.1, by simp⟩)
    (initialQueue freq).size (initialQueue freq) hc ho
    ⟨hperm _ _ p.symm h0, fun e => hne (by rw [e] at p; exact p.symm.eq_nil)⟩
  have hs := mergeLoop_size_le (initialQueue freq).size (initialQueue freq) hc (by omega)
  unfold buildHuffmanTree
  simp only []
  rw [extractMin_fst]
  generalize mergeLoop (initialQueue freq).size (initialQueue freq) = qf at hI hs
  obtain ⟨d, cap⟩ := qf
  simp only [PriorityQueue.size] at hs
  match d, hI, hs with
  | [], hI, _ => exact absurd rfl hI.2
  | [x], hI, _ => exact hI.1
  | _ :: _ :: _, _, hs => simp at hs

theorem sum_map_deeper (freq : Nat → Nat) (c : Nat) (L : List (Nat × List Nat)) :
    ((L.map (fun p => (p.1, c :: p.2))).map (fun e => freq e.1 * e.2.length)).sum =
      (L.map (fun e => freq e.1 * e.2.length)).sum + ((L.map Prod.fst).map freq).sum := by
  induction L with
  | nil => rfl
  | cons e L ih =>
    simp only [List.map_cons, List.sum_cons, List.length_cons, Nat.mul_succ] at ih ⊢
    omega

theorem pathCost_mergeNodes (freq : Nat → Nat) (l r : HuffmanNode)
    (hl : l ≠ HuffmanNode.null) :
    pathCost freq (mergeNodes l r) =
      pathCost freq l + pathCost freq r + symWeight freq l + symWeight freq r := by
  unfold pathCost symWeight leafSyms
  rw [leafCodes_mergeNodes l r hl, List.map_append, List.sum_append, sum_map_deeper,
    sum_map_deeper]
  omega

theorem symWeight_mergeNodes (freq : Nat → Nat) (l r : HuffmanNode)
    (hl : l ≠ HuffmanNode.null) :
    symWeight freq (mergeNodes l r) = symWeight freq l + symWeight freq r := by
  unfold symWeight
  rw [leafSyms_mergeNodes l r hl, List.map_append, List.sum_append]

theorem sum_filter_le (freq : Nat → Nat) (p : Nat → Bool) (l : List Nat) :
    ((l.filter p).map freq).sum ≤ (l.map freq).sum := by
  induction l with
  | nil => exact Nat.le_refl _
  | cons a l ih =>
    by_cases h : p a
    · simp only [List.filter_cons, h, if_true, List.map_cons, List.sum_cons]
      omega
    · simp only [List.filter_cons, h, List.map_cons, List.sum_cons]
      simp only [Bool.false_eq_true, if_false]
      omega

theorem leafCodes_createNode (i f : Nat) : leafCodes (createNode i f) = [(i % 256, [])] := by
  simp [createNode, leafCodes, HuffmanNode.isNull]

theorem map_freq_leavesOf (freq : Nat → Nat) (is : List Nat) (h : ∀ i ∈ is, freq i < 2 ^ 32) :
    (leavesOf freq is).map HuffmanNode.freq = (is.filter (fun i => freq i > 0)).map freq := by
  unfold leavesOf
  rw [List.map_map]
  apply List.map_congr_left
  intro i hi
  exact Nat.mod_eq_of_lt (h i (List.mem_of_mem_filter hi))

theorem map_symWeight_leavesOf (freq : Nat → Nat) (is : List Nat) (h : ∀ i ∈ is, i < 256) :
    (leavesOf freq is).map (symWeight freq) = (is.filter (fun i => freq i > 0)).map freq := by
  unfold leavesOf
  rw [List.map_map]
  apply List.map_congr_left
  intro i hi
  simp only [Function.comp, symWeight, leafSyms_createNode, List.map_cons, List.map_nil,
    List.sum_cons, List.sum_nil, Nat.add_zero]
  rw [Nat.mod_eq_of_lt (h i (List.mem_of_mem_filter hi))]

theorem sum_pathCost_leavesOf (freq : Nat → Nat) (is : List Nat) :
    ((leavesOf freq is).map (pathCost freq)).sum = 0 := by
  apply List.sum_eq_zero
  intro x hx
  simp only [leavesOf, List.map_map, List.mem_map] at hx
  obtain ⟨i, _, rfl⟩ := hx
  simp [Function.comp, pathCost, leafCodes_createNode]

/-- The weighted path length of the tree of `buildHuffmanTree` is a lower bound for the cost
of every prefix-free binary code for the nonzero frequencies of the table. -/
theorem buildHuffmanTree_costLowerBound (freq : Nat → Nat)
    (hsum : ((List.range MAX_CHAR).map freq).sum < 2 ^ 32)
    (hne : leavesOf freq (List.range MAX_CHAR) ≠ []) :
    CostLowerBound (((List.range MAX_CHAR).filter (fun i => freq i > 0)).map freq)
      (pathCost freq (buildHuffmanTree freq)) := by
  have hlt : ∀ i ∈ List.range MAX_CHAR, freq i < 2 ^ 32 := fun i hi =>
    Nat.lt_of_le_of_lt (le_sum_of_mem_range freq _ i hi) hsum
  have h256 : ∀ i ∈ List.range MAX_CHAR, i < 256 := fun i hi => List.mem_range.mp hi
  have key := buildHuffmanTree_induction_min
    (fun F => (∀ t ∈ F, t ≠ HuffmanNode.null ∧ t.freq = symWeight freq t) ∧
      (F.map (symWeight freq)).sum < 2 ^ 32 ∧
      ∀ h, CostLowerBound (F.map HuffmanNode.freq) h →
        CostLowerBound (((List.range MAX_CHAR).filter (fun i => freq i > 0)).map freq)
          (h + (F.map (pathCost freq)).sum))
    (by
      rintro a b pab ⟨h1, h2, h3⟩
      refine ⟨fun t ht => h1 t (pab.symm.subset ht), ?_, ?_⟩
      · rw [← (pab.map (symWeight freq)).sum_eq]
        exact h2
      · intro h hb
        have := h3 h (costLowerBound_perm (pab.map HuffmanNode.freq).symm h hb)
        rw [(pab.map (pathCost freq)).sum_eq] at this
        exact this)
    (by
      rintro l r rest hlr hrest ⟨h1, h2, h3⟩
      obtain ⟨hln, hlf⟩ := h1 l (List.mem_cons_self _ _)
      obtain ⟨hrn, hrf⟩ := h1 r (List.mem_cons_of_mem _ (List.mem_cons_self _ _))
      simp only [List.map_cons, List.sum_cons] at h2 h3
      have hM : (mergeNodes l r).freq = l.freq + r.freq := by
        rw [freq_mergeNodes, Nat.mod_eq_of_lt]
        omega
      refine ⟨?_, ?_, ?_⟩
      · intro t ht
        rcases List.mem_cons.mp ht with rfl | ht
        · exact ⟨by simp [mergeNodes], by rw [hM, symWeight_mergeNodes _ _ _ hln, hlf, hrf]⟩
        · exact h1 t (List.mem_cons_of_mem _ (List.mem_cons_of_mem _ ht))
      · rw [List.map_cons, List.sum_cons, symWeight_mergeNodes _ _ _ hln]
        omega
      · intro h hb
        rw [List.map_cons, hM] at hb
        have hb' := costLowerBound_merge l.freq r.freq (rest.map HuffmanNode.freq) h hlr
          (by
            intro x hx
            obtain ⟨t, ht, rfl⟩ := List.mem_map.mp hx
            exact hrest t ht)
          hb
        have := h3 (h + l.freq + r.freq) hb'
        have e : h + ((mergeNodes l r :: rest).map (pathCost freq)).sum =
            h + l.freq + r.freq +
              (pathCost freq l + (pathCost freq r + (rest.map (pathCost freq)).sum)) := by
          rw [List.map_cons, List.sum_cons, pathCost_mergeNodes _ _ _ hln]
          omega
        rw [e]
        exact this)
    freq
    (by
      refine ⟨?_, ?_, ?_⟩
      · intro t ht
        simp only [leavesOf, List.mem_map] at ht
        obtain ⟨i, hi, rfl⟩ := ht
        have hi' := List.mem_of_mem_filter hi
        refine ⟨by simp [createNode], ?_⟩
        simp only [symWeight, leafSyms_createNode, List.map_cons, List.map_nil, List.sum_cons,
          List.sum_nil, Nat.add_zero]
        rw [Nat.mod_eq_of_lt (h256 i hi')]
        exact Nat.mod_eq_of_lt (hlt i hi')
      · rw [map_symWeight_leavesOf freq _ h256]
        exact Nat.lt_of_le_of_lt (sum_filter_le freq _ _) hsum
      · intro h hb
        rw [map_freq_leavesOf freq _ hlt] at hb
        rw [sum_pathCost_leavesOf, Nat.add_zero]
        exact hb)
    hne
  obtain ⟨_, _, hclb⟩ := key
  have := hclb 0 (fun C _ _ => Nat.zero_le _)
  simpa using this

/-- The weighted path length of the built tree is the encoded size under the code table. -/
theorem pathCost_eq_encodedSize (freq : Nat → Nat) :
    pathCost freq (buildHuffmanTree freq) =
      encodedSize freq (fun s => (((codeTable freq).codes s).getD []).length) := by
  unfold pathCost encodedSize
  have hnd := nodup_leafSyms_buildHuffmanTree freq
  have e : (leafCodes (buildHuffmanTree freq)).map (fun e => freq e.1 * e.2.length) =
      (leafSyms (buildHuffmanTree freq)).map
        (fun s => freq s * (((codeTable freq).codes s).getD []).length) := by
    unfold leafSyms
    rw [List.map_map]
    apply List.map_congr_left
    intro e he
    have hc : (codeTable freq).codes e.1 = some e.2 := by
      rw [codeTable]
      exact (generateCodes_codes_iff _ hnd e.1 e.2).mpr he
    simp [Function.comp, hc]
  rw [e]
  exact ((leafSyms_buildHuffmanTree freq).map _).sum_eq

/-- No prefix-free binary code for the symbols of nonzero frequency encodes the input in fewer
bits than the code table of `encrypt`. -/
theorem encodedSize_codeTable_le (freq : Nat → Nat)
    (hsum : ((List.range MAX_CHAR).map freq).sum < 2 ^ 32) (c : Nat → List Bool)
    (hpf : ∀ s t, s < MAX_CHAR → t < MAX_CHAR → freq s > 0 → freq t > 0 → s ≠ t →
      ¬ c s <+: c t) :
    encodedSize freq (fun s => (((codeTable freq).codes s).getD []).length) ≤
      encodedSize freq (fun s => (c s).length) := by
  by_cases hne : leavesOf freq (List.range MAX_CHAR) = []
  · have hnil : (List.range MAX_CHAR).filter (fun i => freq i > 0) = [] := by
      have := congrArg List.length hne
      simp only [leavesOf, List.length_map, List.length_nil] at this
      exact List.length_eq_zero.mp this
    have e0 : ∀ len : Nat → Nat, encodedSize freq len = 0 := by
      intro len
      unfold encodedSize
      rw [hnil]
      rfl
    rw [e0, e0]
  · have hb := buildHuffmanTree_costLowerBound freq hsum hne
      (((List.range MAX_CHAR).filter (fun i => freq i > 0)).map (fun s => (freq s, c s)))
      (by
        unfold PrefixFree
        rw [List.map_map, List.pairwise_map]
        have hnd : ((List.range MAX_CHAR).filter (fun i => freq i > 0)).Nodup :=
          (List.nodup_range _).filter _
        apply List.Pairwise.imp_of_mem _ hnd
        intro s t hs ht hst
        simp only [List.mem_filter, List.mem_range, decide_eq_true_eq] at hs ht
        exact ⟨hpf s t hs.1 ht.1 hs.2 ht.2 hst, hpf t s ht.1 hs.1 ht.2 hs.2 (Ne.symm hst)⟩)
      (by
        rw [List.map_map]
        exact List.Perm.refl _)
    have e : codeCost (((List.range MAX_CHAR).filter (fun i => freq i > 0)).map
        (fun s => (freq s, c s))) = encodedSize freq (fun s => (c s).length) := by
      unfold codeCost encodedSize
      rw [List.map_map]
      rfl
    rw [e] at hb
    exact Nat.le_trans (Nat.le_of_eq (pathCost_eq_encodedSize freq).symm) hb

theorem sampleFreq_pos (s : Nat) (h : sampleFreq s > 0) : s = 65 ∨ s = 66 ∨ s = 67 := by
  unfold sampleFreq at h
  by_cases h1 : s = 65
  · exact Or.inl h1
  · by_cases h2 : s = 66
    · exact Or.inr (Or.inl h2)
    · by_cases h3 : s = 67
      · exact Or.inr (Or.inr h3)
      · simp [h1, h2, h3] at h

/-- C18: for every frequency table whose 256 entries sum to less than `2 ^ 32` (in particular
every such table with at least two nonzero entries), the code lengths produced by
`buildHuffmanTree` and `generateCodes` minimise the total encoded size: the sum over the
symbols of nonzero frequency of `freq[s] * length(code[s])` is at most the same sum for any
assignment of binary words to these symbols in which no word is a prefix of another. -/
theorem huffman_code_optimal (freq : Nat → Nat)
    (hsum : ((List.range MAX_CHAR).map freq).sum < 2 ^ 32) (c : Nat → List Bool)
    (hpf : ∀ s t, s < MAX_CHAR → t < MAX_CHAR → freq s > 0 → freq t > 0 → s ≠ t →
      ¬ c s <+: c t) :
    encodedSize freq (fun s => (((codeTable freq).codes s).getD []).length) ≤
      encodedSize freq (fun s => (c s).length) :=
  encodedSize_codeTable_le freq hsum c hpf

set_option maxRecDepth 100000 in
/-- The table `'A'` 2, `'B'` 1, `'C'` 1 against the prefix-free code `00`, `01`, `1`: the code
table of `encrypt` needs 6 bits, the other code 7. -/
theorem huffman_code_optimal_witness :
    ((List.range MAX_CHAR).map sampleFreq).sum < 2 ^ 32 ∧
      encodedSize sampleFreq (fun s => (((codeTable sampleFreq).codes s).getD []).length) = 6 ∧
      encodedSize sampleFreq (fun s => (sampleCode s).length) = 7 ∧
      encodedSize sampleFreq (fun s => (((codeTable sampleFreq).codes s).getD []).length) ≤
        encodedSize sampleFreq (fun s => (sampleCode s).length) :=
  ⟨by decide, by decide, by decide,
    huffman_code_optimal sampleFreq (by decide) sampleCode (by
      intro s t _ _ hs ht hst
      rcases sampleFreq_pos s hs with rfl | rfl | rfl <;>
        rcases sampleFreq_pos t ht with rfl | rfl | rfl <;>
        first
          | exact absurd rfl hst
          | decide)⟩

end Huffman
